import Mathlib

/-!
# quicksort.c: a message-passing parallel quicksort

Shallow embedding of `src/quicksort.c` and the properties proved about it.

* Array elements are C `double`s that the program only compares (`<`, `>`) and
  swaps.  They are modelled by an arbitrary linear order `α`: the values the
  program sorts are `rand()/RAND_MAX`, finite and non-negative, on which the
  comparisons of `double` are those of a linear order.
* The array is a list of cells.  A pointer into it (`a`, `a+s`, `a+i`) is the
  integer index of the cell it points to; dereferencing an index outside the
  array is a fault, modelled by `none`.
* Every dereference is recorded in an access log, so that the set of cells a
  function touches can be stated.
* `int` variables are integers: the indices, counters and message fields of
  the program stay between `-SIZE` and `SIZE + 1`, and the source's `SIZE` is
  100, far from overflow.
* The constants `SIZE`, `THRESHOLD` and `N` of the source are parameters of the
  definitions, and `SIZE_c`, `THRESHOLD_c`, `N_c`, `THREADS_c` are the values
  the source gives them.
-/

namespace Quicksort

/-! ## Constants of the source -/

/-- The size of the message queue, `#define N 1000000`. -/
def N_c : Nat := 1000000

/-- The size of the thread pool, `#define THREADS 4`. -/
def THREADS_c : Nat := 4

/-- The size of the array to be sorted, `#define SIZE 100`. -/
def SIZE_c : Int := 100

/-- The largest range sorted by insertion sort, `#define THRESHOLD 10`. -/
def THRESHOLD_c : Int := 10

/-- Message type `WORK`. -/
def WORK : Int := 0

/-- Message type `DONE`. -/
def DONE : Int := 1

/-- Message type `SHUTDOWN`. -/
def SHUTDOWN : Int := 2

/-! ## Memory -/

/-- One access to the array: the read of cell `i`, or a call of `swap` on the
cells `i` and `j` (which reads and writes both). -/
inductive Ev where
  | rd (i : Nat)
  | sw (i j : Nat)
deriving DecidableEq, Repr

/-- The cells an access touches. -/
def Ev.cells : Ev → List Nat
  | Ev.rd i => [i]
  | Ev.sw i j => [i, j]

/-- The array and the history of the accesses made to it, newest first. -/
structure Mem (α : Type) where
  cells : List α
  log : List Ev
deriving DecidableEq, Repr

/-- The read `*p` of the cell at index `p`; `none` when `p` is outside the array. -/
def load {α : Type} (m : Mem α) (p : Int) : Option (α × Mem α) :=
  if 0 ≤ p then
    match m.cells[p.toNat]? with
    | some x => some (x, ⟨m.cells, Ev.rd p.toNat :: m.log⟩)
    | none => none
  else none

/-- The function `swap(double *a, double *b)`: `tmp = *a; *a = *b; *b = tmp`. -/
def swap {α : Type} (m : Mem α) (a b : Int) : Option (Mem α) :=
  if 0 ≤ a ∧ 0 ≤ b then
    match m.cells[a.toNat]?, m.cells[b.toNat]? with
    | some x, some y =>
      some ⟨(m.cells.set a.toNat y).set b.toNat x, Ev.sw a.toNat b.toNat :: m.log⟩
    | _, _ => none
  else none

/-- The statement `if (*p > *q) swap(p, q);` of the pivot selection. -/
def swap_if_gt {α : Type} [LinearOrder α] (m : Mem α) (p q : Int) : Option (Mem α) :=
  match load m p with
  | none => none
  | some (x, m1) =>
    match load m1 q with
    | none => none
    | some (y, m2) => if x > y then swap m2 p q else some m2

/-! ## Partition -/

/-- The loop `while (a[i] < p) i++;`.  The first argument bounds the number of
iterations; an access past the end of the array is a fault, so the array length
plus one is never exhausted. -/
def scan_up {α : Type} [LinearOrder α] (a : Int) (p : α) :
    Nat → Mem α → Int → Option (Int × Mem α)
  | 0, _, _ => none
  | fuel + 1, m, i =>
    match load m (a + i) with
    | none => none
    | some (x, m1) => if x < p then scan_up a p fuel m1 (i + 1) else some (i, m1)

/-- The loop `while (a[j] > p) j--;`, bounded like `scan_up`. -/
def scan_down {α : Type} [LinearOrder α] (a : Int) (p : α) :
    Nat → Mem α → Int → Option (Int × Mem α)
  | 0, _, _ => none
  | fuel + 1, m, j =>
    match load m (a + j) with
    | none => none
    | some (x, m1) => if x > p then scan_down a p fuel m1 (j - 1) else some (j, m1)

/-- The loop `for (..;; i++, j--) { scan up; scan down; if (i>=j) break; swap(a+i, a+j); }`
entered with the values `i` and `j`; the result is the value of `i` at the
`break`.  Every iteration that does not break moves `i` up inside the array, so
the array length plus one bounds the iterations. -/
def partition_loop {α : Type} [LinearOrder α] (a : Int) (p : α) :
    Nat → Mem α → Int → Int → Option (Int × Mem α)
  | 0, _, _, _ => none
  | fuel + 1, m, i, j =>
    match scan_up a p (m.cells.length + 1) m i with
    | none => none
    | some (i1, m1) =>
      match scan_down a p (m.cells.length + 1) m1 j with
      | none => none
      | some (j1, m2) =>
        if i1 ≥ j1 then some (i1, m2)
        else
          match swap m2 (a + i1) (a + j1) with
          | none => none
          | some m3 => partition_loop a p fuel m3 (i1 + 1) (j1 - 1)

/-- The three conditional swaps at the start of `partition`. -/
def choose_pivot {α : Type} [LinearOrder α] (m : Mem α) (a n : Int) : Option (Mem α) :=
  let first : Int := 0
  let middle : Int := Int.tdiv n 2
  let last : Int := n - 1
  (swap_if_gt m (a + first) (a + middle)).bind fun m1 =>
  (swap_if_gt m1 (a + middle) (a + last)).bind fun m2 =>
  swap_if_gt m2 (a + first) (a + middle)

/-- The function `partition(double *a, int n)`; the result is the returned
index and the memory it leaves. -/
def partition {α : Type} [LinearOrder α] (m : Mem α) (a n : Int) : Option (Int × Mem α) :=
  match choose_pivot m a n with
  | none => none
  | some m1 =>
    match load m1 (a + Int.tdiv n 2) with
    | none => none
    | some (p, m2) => partition_loop a p (m2.cells.length + 1) m2 1 (n - 2)

/-! ## Insertion sort -/

/-- The loop `while (j>0 && a[j-1] > a[j]) { swap(a+j, a+j-1); j--; }` entered
with the value `j`, which is never negative (it starts at `i ≥ 1`). -/
def ins_inner {α : Type} [LinearOrder α] (a : Int) : Nat → Mem α → Option (Mem α)
  | 0, m => some m
  | j + 1, m =>
    match load m (a + ((j + 1 : Nat) : Int) - 1) with
    | none => none
    | some (x, m1) =>
      match load m1 (a + ((j + 1 : Nat) : Int)) with
      | none => none
      | some (y, m2) =>
        if x > y then
          match swap m2 (a + ((j + 1 : Nat) : Int)) (a + ((j + 1 : Nat) : Int) - 1) with
          | none => none
          | some m3 => ins_inner a j m3
        else some m2

/-- The iterations `i, i+1, ...` of `for (i=1; i<n; i++) { j = i; while ... }`,
`k` of them. -/
def ins_outer {α : Type} [LinearOrder α] (a : Int) : Nat → Nat → Mem α → Option (Mem α)
  | 0, _, m => some m
  | k + 1, i, m =>
    match ins_inner a i m with
    | none => none
    | some m1 => ins_outer a k (i + 1) m1

/-- The function `ins_sort(double *a, int n)`: the loop runs for `i = 1, ..., n-1`. -/
def ins_sort {α : Type} [LinearOrder α] (m : Mem α) (a n : Int) : Option (Mem α) :=
  ins_outer a (n - 1).toNat 1 m


/-! ## The message queue -/

/-- The `struct message`. -/
structure Message where
  type : Int
  start : Int
  end_ : Int
deriving DecidableEq, Repr

/-- The globals `mqueue`, `q_in`, `q_out` and `m_count`.  The three counters are
`int`s that the code keeps non-negative: `q_in` and `q_out` are remainders
modulo `N`, and `m_count` is decremented only when it is at least one. -/
structure Chan where
  mqueue : List Message
  q_in : Nat
  q_out : Nat
  m_count : Nat
deriving DecidableEq, Repr

/-- The globals as the program starts: `mqueue` zero-initialised with `N`
slots, `q_in = 0, q_out = 0`, `m_count = 0`. -/
def Chan.init (N : Nat) : Chan :=
  ⟨List.replicate N ⟨0, 0, 0⟩, 0, 0, 0⟩

/-- The function `send(type, start, end)` once the mutex is held.  It goes past
its `while (m_count >= N)` wait only when `m_count < N`: `none` stands for a
caller that is blocked there (or, were `q_in` outside `mqueue`, for the fault
of the write). -/
def send (N : Nat) (c : Chan) (type start end_ : Int) : Option Chan :=
  if c.m_count ≥ N then none
  else if c.q_in < c.mqueue.length then
    some ⟨c.mqueue.set c.q_in ⟨type, start, end_⟩, (c.q_in + 1) % N, c.q_out, c.m_count + 1⟩
  else none

/-- The function `recv(&type, &start, &end)` once the mutex is held.  It goes
past its `while (m_count < 1)` wait only when `m_count ≥ 1`: `none` stands for a
caller that is blocked there (or for the fault of a read outside `mqueue`). -/
def recv (N : Nat) (c : Chan) : Option (Message × Chan) :=
  if c.m_count < 1 then none
  else
    match c.mqueue[c.q_out]? with
    | none => none
    | some msg => some (msg, ⟨c.mqueue, c.q_in, (c.q_out + 1) % N, c.m_count - 1⟩)

/-! ## The threads -/

/-- One iteration of the loop `while (t != SHUTDOWN)` of `thread_func` for the
message `(t, s, e)` it has received, up to its next `recv`.  The array `a` is
the cell of index `0`, so `a+s` is the index `s`. -/
def thread_body {α : Type} [LinearOrder α] (THRESHOLD : Int) (N : Nat)
    (m : Mem α) (c : Chan) (t s e : Int) : Option (Mem α × Chan) :=
  if t = DONE then
    (send N c DONE s e).map fun c1 => (m, c1)
  else if t = WORK then
    if e - s ≤ THRESHOLD then
      match ins_sort m (0 + s) (e - s) with
      | none => none
      | some m1 => (send N c DONE s e).map fun c1 => (m1, c1)
    else
      match partition m (0 + s) (e - s) with
      | none => none
      | some (p, m1) =>
        (send N c WORK s (s + p)).bind fun c1 =>
        (send N c1 WORK (s + p) e).map fun c2 => (m1, c2)
  else some (m, c)

/-- Where the main thread is: in its `while (1)` loop, past the `break` and
before `send(SHUTDOWN, 0, 0)`, or past that `send`, joining the workers. -/
inductive Pc where
  | loop
  | exited
  | joining
deriving DecidableEq, Repr

/-- The state of the program between message-handling steps.  `running` is the
number of worker threads still in their loop.  `consumed` is not a variable of
the program: it records the ranges of the `DONE` messages the main thread has
counted, newest first. -/
structure Sys (α : Type) where
  mem : Mem α
  chan : Chan
  count : Int
  pc : Pc
  running : Nat
  consumed : List (Int × Int)
deriving DecidableEq, Repr

/-- A worker handles one message: a `recv`, then either the loop body, or for
`SHUTDOWN` the exit of the loop and `send(SHUTDOWN, 0, 0)`. -/
def worker_step {α : Type} [LinearOrder α] (THRESHOLD : Int) (N : Nat)
    (st : Sys α) : Option (Sys α) :=
  if st.running = 0 then none
  else
    match recv N st.chan with
    | none => none
    | some (msg, c1) =>
      if msg.type = SHUTDOWN then
        (send N c1 SHUTDOWN 0 0).map fun c2 =>
          ⟨st.mem, c2, st.count, st.pc, st.running - 1, st.consumed⟩
      else
        (thread_body THRESHOLD N st.mem c1 msg.type msg.start msg.end_).map fun r =>
          ⟨r.1, r.2, st.count, st.pc, st.running, st.consumed⟩

/-- The main thread handles one message in its `while (1)` loop (a `recv`, then
the body of the loop), or, past the loop, sends `SHUTDOWN`. -/
def main_step {α : Type} (SIZE : Int) (N : Nat) (st : Sys α) : Option (Sys α) :=
  match st.pc with
  | Pc.loop =>
    match recv N st.chan with
    | none => none
    | some (msg, c1) =>
      if msg.type = DONE then
        let count := st.count + (msg.end_ - msg.start)
        some ⟨st.mem, c1, count, if count = SIZE then Pc.exited else Pc.loop, st.running,
          (msg.start, msg.end_) :: st.consumed⟩
      else
        (send N c1 msg.type msg.start msg.end_).map fun c2 =>
          ⟨st.mem, c2, st.count, st.pc, st.running, st.consumed⟩
  | Pc.exited =>
    (send N st.chan SHUTDOWN 0 0).map fun c1 =>
      ⟨st.mem, c1, st.count, Pc.joining, st.running, st.consumed⟩
  | Pc.joining => none

/-- The state in which the main thread enters its loop: the workers are
created, `send(WORK, 0, SIZE)` is done, `count = 0`. -/
def boot {α : Type} (SIZE : Int) (N THREADS : Nat) (a0 : List α) : Option (Sys α) :=
  (send N (Chan.init N) WORK 0 SIZE).map fun c =>
    ⟨⟨a0, []⟩, c, 0, Pc.loop, THREADS, []⟩

/-- Which thread takes the next message-handling step. -/
inductive Label where
  | worker
  | coord
deriving DecidableEq, Repr

/-- One message-handling step. -/
def step {α : Type} [LinearOrder α] (SIZE THRESHOLD : Int) (N : Nat)
    (l : Label) (st : Sys α) : Option (Sys α) :=
  match l with
  | Label.worker => worker_step THRESHOLD N st
  | Label.coord => main_step SIZE N st

/-- The run of an interleaving, given as the list of the threads that step. -/
def run {α : Type} [LinearOrder α] (SIZE THRESHOLD : Int) (N : Nat) :
    List Label → Sys α → Option (Sys α)
  | [], st => some st
  | l :: ls, st =>
    match step SIZE THRESHOLD N l st with
    | none => none
    | some st1 => run SIZE THRESHOLD N ls st1


/-! ## Vocabulary of the statements -/

/-- The content of the cell of index `i`, when `i` is an index of the array. -/
def cell {α : Type} (l : List α) (i : Int) : Option α :=
  if 0 ≤ i then l[i.toNat]? else none

/-- Every access of `evs` touches only cells with an index in `[lo, hi)`. -/
def Within (lo hi : Int) (evs : List Ev) : Prop :=
  ∀ ev ∈ evs, ∀ c ∈ ev.cells, lo ≤ (c : Int) ∧ (c : Int) < hi

/-- What a piece of code that works on the cells `[lo, hi)` does to the memory:
the array keeps its length, the cells outside `[lo, hi)` keep their content,
the content of every cell of `[lo, hi)` comes from a cell of `[lo, hi)`, the
array is a permutation of what it was, and the accesses added to the log all
fall in `[lo, hi)`. -/
structure Frame {α : Type} (lo hi : Int) (m m1 : Mem α) : Prop where
  length_eq : m1.cells.length = m.cells.length
  outside : ∀ k : Int, k < lo ∨ hi ≤ k → cell m1.cells k = cell m.cells k
  inside : ∀ (k : Int) (x : α), lo ≤ k → k < hi → cell m1.cells k = some x →
    ∃ k1 : Int, lo ≤ k1 ∧ k1 < hi ∧ cell m.cells k1 = some x
  perm : m1.cells.Perm m.cells
  log : ∃ evs, m1.log = evs ++ m.log ∧ Within lo hi evs

/-- The cells `[lo, hi)` are in non-decreasing order: any two of them, not only
adjacent ones. -/
def SortedOn {α : Type} [LinearOrder α] (l : List α) (lo hi : Int) : Prop :=
  ∀ (u v : Int) (x y : α), lo ≤ u → u ≤ v → v < hi →
    cell l u = some x → cell l v = some y → x ≤ y

/-- The cells `[s, e)` of the array, as a list. -/
def slice {α : Type} (l : List α) (s e : Int) : List α :=
  (l.drop s.toNat).take (e - s).toNat


/-! ## Vocabulary of the statements about the queue -/

/-- The messages in the queue, oldest first: the `m_count` slots of the ring
from `q_out` on. -/
def Chan.contents (N : Nat) (c : Chan) : List Message :=
  (List.range c.m_count).map fun k => c.mqueue.getD ((c.q_out + k) % N) ⟨0, 0, 0⟩

/-- The shape the globals of the queue keep. -/
def Chan.wf (N : Nat) (c : Chan) : Prop :=
  c.mqueue.length = N ∧ c.m_count ≤ N ∧ (0 < N → c.q_out < N) ∧
    c.q_in = (c.q_out + c.m_count) % N

/-- An operation on the queue. -/
inductive Op where
  | send (msg : Message)
  | recv
deriving DecidableEq, Repr

/-- The messages a sequence of operations sends, in order. -/
def Op.sent : List Op → List Message
  | [] => []
  | Op.send msg :: ops => msg :: Op.sent ops
  | Op.recv :: ops => Op.sent ops

/-- A sequence of operations run on the ring buffer; the result is the queue
it leaves and the messages the `recv`s returned, in order.  `none` when an
operation of the sequence runs while its wait condition holds. -/
def exec (N : Nat) : List Op → Chan → Option (Chan × List Message)
  | [], c => some (c, [])
  | Op.send msg :: ops, c =>
    match send N c msg.type msg.start msg.end_ with
    | none => none
    | some c1 => exec N ops c1
  | Op.recv :: ops, c =>
    match recv N c with
    | none => none
    | some (msg, c1) => (exec N ops c1).map fun r => (r.1, msg :: r.2)

/-- The `send` of the spec's bounded channel, on the ordered buffer of pending
messages: blocked at capacity, else the message is appended. -/
def fifo_send (N : Nat) (q : List Message) (msg : Message) : Option (List Message) :=
  if q.length ≥ N then none else some (q ++ [msg])

/-- The `receive` of the spec's bounded channel: blocked on an empty buffer,
else the oldest message is removed and returned. -/
def fifo_receive (q : List Message) : Option (Message × List Message) :=
  match q with
  | [] => none
  | msg :: rest => some (msg, rest)

/-- A sequence of operations run on the spec's bounded channel. -/
def fifo_exec (N : Nat) : List Op → List Message → Option (List Message × List Message)
  | [], q => some (q, [])
  | Op.send msg :: ops, q =>
    match fifo_send N q msg with
    | none => none
    | some q1 => fifo_exec N ops q1
  | Op.recv :: ops, q =>
    match fifo_receive q with
    | none => none
    | some (msg, q1) => (fifo_exec N ops q1).map fun r => (r.1, msg :: r.2)


/-! ## Vocabulary of the statements about the protocol -/

/-- The ranges `(start, end)` named by the messages of type `t` of a queue. -/
def ranges_of (t : Int) (q : List Message) : List (Int × Int) :=
  (q.filter fun msg => msg.type = t).map fun msg => (msg.start, msg.end_)

/-- The ranges reported `DONE`: those of the `DONE` messages in the queue and
those the main thread has counted. -/
def Sys.done {α : Type} (N : Nat) (st : Sys α) : List (Int × Int) :=
  ranges_of DONE (st.chan.contents N) ++ st.consumed

/-- The ranges of a state: those of the `WORK` messages in flight and those
reported `DONE`. -/
def Sys.ranges {α : Type} (N : Nat) (st : Sys α) : List (Int × Int) :=
  ranges_of WORK (st.chan.contents N) ++ st.done N

/-- How many of the ranges `R` hold the index `x`. -/
def cover (R : List (Int × Int)) (x : Int) : Nat :=
  R.countP fun r => decide (r.1 ≤ x ∧ x < r.2)

/-- The sum of the lengths `e - s` of the ranges `R`. -/
def total (R : List (Int × Int)) : Int :=
  (R.map fun r => r.2 - r.1).sum

/-- Two ranges have no index in common. -/
def Apart (r1 r2 : Int × Int) : Prop :=
  r1.2 ≤ r2.1 ∨ r2.2 ≤ r1.1

/-- Every cell before index `c` is at most every cell from index `c` on. -/
def Cut {α : Type} [LinearOrder α] (l : List α) (c : Int) : Prop :=
  ∀ (u v : Int) (x y : α), u < c → c ≤ v → cell l u = some x → cell l v = some y → x ≤ y

/-- The invariant that ties the array to the ranges `Rw` still to sort and the
ranges `Rd` reported sorted: the ranges are non-empty ranges of `[0, SIZE)`,
every index of `[0, SIZE)` is in exactly one, their lengths add up to `SIZE`,
the array is sorted on every range of `Rd`, and both ends of every range cut
the array. -/
structure RInv {α : Type} [LinearOrder α] (SIZE : Int) (l : List α)
    (Rw Rd : List (Int × Int)) : Prop where
  valid : ∀ r ∈ Rw ++ Rd, 0 ≤ r.1 ∧ r.1 < r.2 ∧ r.2 ≤ SIZE
  once : ∀ x : Int, 0 ≤ x → x < SIZE → cover (Rw ++ Rd) x = 1
  sum : total (Rw ++ Rd) = SIZE
  sorted : ∀ r ∈ Rd, SortedOn l r.1 r.2
  cuts : ∀ r ∈ Rw ++ Rd, Cut l r.1 ∧ Cut l r.2

/-- The invariant of the program. -/
structure Inv {α : Type} [LinearOrder α] (SIZE : Int) (N : Nat) (a0 : List α)
    (st : Sys α) : Prop where
  wf : st.chan.wf N
  length_eq : (st.mem.cells.length : Int) = SIZE
  perm : st.mem.cells.Perm a0
  rinv : RInv SIZE st.mem.cells (ranges_of WORK (st.chan.contents N)) (st.done N)
  count_eq : st.count = total st.consumed
  pc_loop : st.pc = Pc.loop ↔ st.count ≠ SIZE

/-- The states the program reaches from the array `a0` by message-handling
steps, in any interleaving. -/
inductive Reachable {α : Type} [LinearOrder α] (SIZE THRESHOLD : Int) (N THREADS : Nat)
    (a0 : List α) : Sys α → Prop where
  | boot (st : Sys α) : boot SIZE N THREADS a0 = some st →
      Reachable SIZE THRESHOLD N THREADS a0 st
  | step (l : Label) (st st1 : Sys α) : Reachable SIZE THRESHOLD N THREADS a0 st →
      step SIZE THRESHOLD N l st = some st1 → Reachable SIZE THRESHOLD N THREADS a0 st1


/-- The number of steps of a run at which `count` becomes `SIZE`. -/
def arrivals {α : Type} [LinearOrder α] (SIZE THRESHOLD : Int) (N : Nat) :
    List Label → Sys α → Nat
  | [], _ => 0
  | l :: ls, st =>
    match step SIZE THRESHOLD N l st with
    | none => 0
    | some st1 =>
      (if st.count ≠ SIZE ∧ st1.count = SIZE then 1 else 0) + arrivals SIZE THRESHOLD N ls st1

/-! ## A run on six elements

The array `[5, 3, 8, 1, 9, 2]` with `SIZE = 6`, `THRESHOLD = 3`, a queue of
`N = 4` slots and two workers. -/

/-- The array of the example. -/
def demo_array : List Int := [5, 3, 8, 1, 9, 2]

/-- The interleaving of the example: a split, a leaf, a split, the main thread
counts a `DONE`, two leaves, and the main thread counts the last two `DONE`s. -/
def demo_labels : List Label :=
  [Label.worker, Label.worker, Label.worker, Label.coord, Label.worker, Label.worker,
    Label.coord, Label.coord]

/-- The state of the example after its first three steps: `DONE(0,2)`,
`WORK(2,4)` and `WORK(4,6)` are in the queue. -/
def demo_mid : Sys Int :=
  ⟨⟨[1, 2, 5, 3, 8, 9],
     [Ev.rd 4, Ev.rd 4, Ev.rd 3, Ev.rd 4, Ev.sw 2 4, Ev.rd 4, Ev.rd 2, Ev.sw 4 5, Ev.rd 5,
      Ev.rd 4, Ev.rd 4, Ev.rd 2, Ev.rd 1, Ev.rd 0, Ev.rd 1, Ev.rd 2, Ev.rd 2, Ev.sw 1 3,
      Ev.rd 3, Ev.rd 4, Ev.rd 1, Ev.rd 3, Ev.rd 3, Ev.rd 0, Ev.sw 3 5, Ev.rd 5, Ev.rd 3,
      Ev.sw 0 3, Ev.rd 3, Ev.rd 0]⟩,
    ⟨[⟨0, 2, 4⟩, ⟨0, 4, 6⟩, ⟨0, 2, 6⟩, ⟨1, 0, 2⟩], 2, 3, 3⟩, 0, Pc.loop, 2, []⟩

/-- The state of the example when the main thread leaves its loop. -/
def demo_final : Sys Int :=
  ⟨⟨[1, 2, 3, 5, 8, 9],
     [Ev.rd 5, Ev.rd 4, Ev.sw 3 2, Ev.rd 3, Ev.rd 2, Ev.rd 4, Ev.rd 4, Ev.rd 3, Ev.rd 4,
      Ev.sw 2 4, Ev.rd 4, Ev.rd 2, Ev.sw 4 5, Ev.rd 5, Ev.rd 4, Ev.rd 4, Ev.rd 2, Ev.rd 1,
      Ev.rd 0, Ev.rd 1, Ev.rd 2, Ev.rd 2, Ev.sw 1 3, Ev.rd 3, Ev.rd 4, Ev.rd 1, Ev.rd 3,
      Ev.rd 3, Ev.rd 0, Ev.sw 3 5, Ev.rd 5, Ev.rd 3, Ev.sw 0 3, Ev.rd 3, Ev.rd 0]⟩,
    ⟨[⟨0, 2, 4⟩, ⟨0, 4, 6⟩, ⟨1, 2, 4⟩, ⟨1, 4, 6⟩], 0, 0, 0⟩, 6, Pc.exited, 2,
    [(4, 6), (2, 4), (0, 2)]⟩

/-- The memory of the example before the worker handles `WORK(2,6)`, with an
empty log. -/
def demo_before : Mem Int :=
  ⟨[1, 2, 8, 3, 9, 5], []⟩

/-- The memory that the handling of `WORK(2,6)` leaves from `demo_before`. -/
def demo_after : Mem Int :=
  ⟨[1, 2, 5, 3, 8, 9],
    [Ev.rd 4, Ev.rd 4, Ev.rd 3, Ev.rd 4, Ev.sw 2 4, Ev.rd 4, Ev.rd 2, Ev.sw 4 5, Ev.rd 5,
      Ev.rd 4, Ev.rd 4, Ev.rd 2]⟩


/-! ## Vocabulary of the statements about progress -/

/-- The messages of a queue that are neither `WORK` nor `DONE`. -/
def others (q : List Message) : List Message :=
  q.filter fun msg => ¬ (msg.type = WORK ∨ msg.type = DONE)

/-- What the queue holds besides ranges: before the main thread has sent
`SHUTDOWN`, only `WORK` and `DONE` messages, and all `THREADS` workers are in
their loop; after, at most one message, a `SHUTDOWN`. -/
structure QInv {α : Type} (N THREADS : Nat) (st : Sys α) : Prop where
  before : st.pc ≠ Pc.joining → others (st.chan.contents N) = [] ∧ st.running = THREADS
  after : st.pc = Pc.joining →
    (st.chan.contents N).length ≤ 1 ∧ ∀ msg ∈ st.chan.contents N, msg = ⟨SHUTDOWN, 0, 0⟩

/-- The work a message stands for: three steps for each element of a range
still to sort, less one, and one step for a range to count. -/
def weight (msg : Message) : Nat :=
  if msg.type = WORK then 3 * (msg.end_ - msg.start).toNat - 1
  else if msg.type = DONE then 1
  else 0

/-- The work the queue stands for. -/
def work_left (q : List Message) : Nat :=
  (q.map weight).sum


/-! ## The scan loop of partition with the pointers of its accesses

The log of a memory records which cells are accessed.  To state through which
pointer the scan loop reaches a cell, the three functions of the loop are
given again, unchanged but for a third result: the list of the accesses they
make, oldest first, each with the value of the pointer `i` or `j` it goes
through. -/

/-- An access of the scan loop: the read `a[i]` of `while (a[i] < p)`, the read
`a[j]` of `while (a[j] > p)`, or the call `swap(a+i, a+j)`. -/
inductive Acc where
  | left (i : Int)
  | right (j : Int)
  | swap (i j : Int)
deriving DecidableEq, Repr

/-- The bounds of the pointers at an access, for a range of `n` elements:
`1 ≤ i ≤ n-1` for the left pointer and `0 ≤ j ≤ n-2` for the right one. -/
def Acc.in_bounds (n : Int) : Acc → Prop
  | Acc.left i => 1 ≤ i ∧ i ≤ n - 1
  | Acc.right j => 0 ≤ j ∧ j ≤ n - 2
  | Acc.swap i j => (1 ≤ i ∧ i ≤ n - 1) ∧ (0 ≤ j ∧ j ≤ n - 2)

/-- The loop `while (a[i] < p) i++;` as `scan_up`, with its accesses. -/
def scan_up_acc {α : Type} [LinearOrder α] (a : Int) (p : α) :
    Nat → Mem α → Int → Option (Int × Mem α × List Acc)
  | 0, _, _ => none
  | fuel + 1, m, i =>
    match load m (a + i) with
    | none => none
    | some (x, m1) =>
      if x < p then
        (scan_up_acc a p fuel m1 (i + 1)).map fun r => (r.1, r.2.1, Acc.left i :: r.2.2)
      else some (i, m1, [Acc.left i])

/-- The loop `while (a[j] > p) j--;` as `scan_down`, with its accesses. -/
def scan_down_acc {α : Type} [LinearOrder α] (a : Int) (p : α) :
    Nat → Mem α → Int → Option (Int × Mem α × List Acc)
  | 0, _, _ => none
  | fuel + 1, m, j =>
    match load m (a + j) with
    | none => none
    | some (x, m1) =>
      if x > p then
        (scan_down_acc a p fuel m1 (j - 1)).map fun r => (r.1, r.2.1, Acc.right j :: r.2.2)
      else some (j, m1, [Acc.right j])

/-- The scan loop as `partition_loop`, with its accesses. -/
def partition_loop_acc {α : Type} [LinearOrder α] (a : Int) (p : α) :
    Nat → Mem α → Int → Int → Option (Int × Mem α × List Acc)
  | 0, _, _, _ => none
  | fuel + 1, m, i, j =>
    match scan_up_acc a p (m.cells.length + 1) m i with
    | none => none
    | some (i1, m1, t1) =>
      match scan_down_acc a p (m.cells.length + 1) m1 j with
      | none => none
      | some (j1, m2, t2) =>
        if i1 ≥ j1 then some (i1, m2, t1 ++ t2)
        else
          match swap m2 (a + i1) (a + j1) with
          | none => none
          | some m3 =>
            (partition_loop_acc a p fuel m3 (i1 + 1) (j1 - 1)).map fun r =>
              (r.1, r.2.1, t1 ++ t2 ++ Acc.swap i1 j1 :: r.2.2)

/-- The function `partition` as above, with the accesses of its scan loop. -/
def partition_acc {α : Type} [LinearOrder α] (m : Mem α) (a n : Int) :
    Option (Int × Mem α × List Acc) :=
  match choose_pivot m a n with
  | none => none
  | some m1 =>
    match load m1 (a + Int.tdiv n 2) with
    | none => none
    | some (p, m2) => partition_loop_acc a p (m2.cells.length + 1) m2 1 (n - 2)

/-! ## More vocabulary -/

/-- The median of three values. -/
def median3 {α : Type} [LinearOrder α] (x y z : α) : α :=
  max (min x y) (min (max x y) z)

/-- The three counters of the queue as the C `int`s they are. -/
structure Counters where
  q_in : Int
  q_out : Int
  m_count : Int
deriving DecidableEq, Repr

/-- The counters of a queue. -/
def Chan.counters (c : Chan) : Counters :=
  ⟨c.q_in, c.q_out, c.m_count⟩

/-- What `send` does to the counters: past the wait `while (m_count >= N)`,
`q_in = (q_in + 1) % N; m_count++`, with the remainder of C. -/
def send_counters (N : Int) (k : Counters) : Option Counters :=
  if k.m_count ≥ N then none
  else some ⟨Int.tmod (k.q_in + 1) N, k.q_out, k.m_count + 1⟩

/-- What `recv` does to the counters: past the wait `while (m_count < 1)`,
`q_out = (q_out + 1) % N; m_count--`, with the remainder of C. -/
def recv_counters (N : Int) (k : Counters) : Option Counters :=
  if k.m_count < 1 then none
  else some ⟨k.q_in, Int.tmod (k.q_out + 1) N, k.m_count - 1⟩

/-- A sequence of operations run on the counters alone. -/
def exec_counters (N : Int) : List Op → Counters → Option Counters
  | [], k => some k
  | Op.send _ :: ops, k =>
    match send_counters N k with
    | none => none
    | some k1 => exec_counters N ops k1
  | Op.recv :: ops, k =>
    match recv_counters N k with
    | none => none
    | some k1 => exec_counters N ops k1

/-- The number of steps of a run at which a worker receives `SHUTDOWN`. -/
def receptions {α : Type} [LinearOrder α] (SIZE THRESHOLD : Int) (N : Nat) :
    List Label → Sys α → Nat
  | [], _ => 0
  | l :: ls, st =>
    match step SIZE THRESHOLD N l st with
    | none => 0
    | some st1 =>
      (if l = Label.worker ∧ (recv N st.chan).map (fun r => r.1.type) = some SHUTDOWN
        then 1 else 0) + receptions SIZE THRESHOLD N ls st1


/-! ## Examples for the pivot selection, sorted and equal inputs, and shutdown -/

/-- An array whose first, middle and last elements are `9`, `5` and `2`. -/
def demo_pivot : Mem Int :=
  ⟨[9, 1, 5, 0, 2], []⟩

/-- An array of five equal elements. -/
def demo_flat : Mem Int :=
  ⟨[7, 7, 7, 7, 7], []⟩

/-- The state of the six-element example when the main thread enters its loop. -/
def demo_boot : Sys Int :=
  ⟨⟨[5, 3, 8, 1, 9, 2], []⟩, ⟨[⟨0, 0, 6⟩, ⟨0, 0, 0⟩, ⟨0, 0, 0⟩, ⟨0, 0, 0⟩], 1, 0, 1⟩, 0,
    Pc.loop, 2, []⟩

/-- The interleaving of the example, followed by the `SHUTDOWN` of the main
thread and the exits of the two workers. -/
def demo_shutdown_labels : List Label :=
  demo_labels ++ [Label.coord, Label.worker, Label.worker]

/-- The state of the example after both workers have exited. -/
def demo_end : Sys Int :=
  ⟨demo_final.mem, ⟨[⟨2, 0, 0⟩, ⟨2, 0, 0⟩, ⟨2, 0, 0⟩, ⟨1, 4, 6⟩], 3, 2, 1⟩, 6, Pc.joining, 0,
    demo_final.consumed⟩

/-- The accesses of a scan loop on `n` cells whose two pointers each stop at the
first cell they read: from the left pointer `i` on, `k` rounds of a read at
`i`, a read at `n - 1 - i` and a swap of the two, and a last round without
swap. -/
def lockstep (n : Int) : Nat → Int → List Acc
  | 0, i => [Acc.left i, Acc.right (n - 1 - i)]
  | k + 1, i =>
    Acc.left i :: Acc.right (n - 1 - i) :: Acc.swap i (n - 1 - i) :: lockstep n k (i + 1)

/-- Two messages sent, one received and one more sent, on a queue of two slots. -/
def demo_ops : List Op :=
  [Op.send ⟨0, 0, 4⟩, Op.send ⟨1, 0, 2⟩, Op.recv, Op.send ⟨1, 2, 4⟩]


/-! ## Cells, reads and swaps -/

theorem cell_eq_some {α : Type} {l : List α} {i : Int} {x : α} (h : cell l i = some x) :
    0 ≤ i ∧ i < l.length ∧ l[i.toNat]? = some x := by
  unfold cell at h
  split at h
  · have h2 := List.getElem?_eq_some_iff.mp h
    obtain ⟨hlt, -⟩ := h2
    refine ⟨by assumption, by omega, h⟩
  · cases h

theorem cell_of_lt {α : Type} (l : List α) (i : Int) (h0 : 0 ≤ i) (h1 : i < l.length) :
    ∃ x, cell l i = some x := by
  have hlt : i.toNat < l.length := by omega
  exact ⟨l[i.toNat], by simp [cell, h0, List.getElem?_eq_getElem hlt]⟩

theorem cell_eq_none_of_neg {α : Type} (l : List α) (i : Int) (h : i < 0) : cell l i = none := by
  simp [cell]; omega

theorem cell_eq_none_of_ge {α : Type} (l : List α) (i : Int) (h : (l.length : Int) ≤ i) :
    cell l i = none := by
  unfold cell
  split
  · rw [List.getElem?_eq_none_iff]; omega
  · rfl

theorem load_eq {α : Type} (m : Mem α) (p : Int) :
    load m p = (cell m.cells p).map fun x => (x, ⟨m.cells, Ev.rd p.toNat :: m.log⟩) := by
  unfold load cell
  split
  · cases h : m.cells[p.toNat]? <;> simp
  · rfl

theorem load_some {α : Type} {m m1 : Mem α} {p : Int} {x : α} (h : load m p = some (x, m1)) :
    cell m.cells p = some x ∧ m1 = ⟨m.cells, Ev.rd p.toNat :: m.log⟩ := by
  rw [load_eq] at h
  cases hc : cell m.cells p with
  | none => simp [hc] at h
  | some y =>
    simp [hc] at h
    exact ⟨by rw [h.1], h.2.symm⟩

theorem load_of_cell {α : Type} (m : Mem α) {p : Int} {x : α} (h : cell m.cells p = some x) :
    load m p = some (x, ⟨m.cells, Ev.rd p.toNat :: m.log⟩) := by
  rw [load_eq, h]; rfl

theorem swap_of_cell {α : Type} (m : Mem α) {a b : Int} {x y : α}
    (ha : cell m.cells a = some x) (hb : cell m.cells b = some y) :
    swap m a b = some ⟨(m.cells.set a.toNat y).set b.toNat x, Ev.sw a.toNat b.toNat :: m.log⟩ := by
  obtain ⟨ha0, -, ha2⟩ := cell_eq_some ha
  obtain ⟨hb0, -, hb2⟩ := cell_eq_some hb
  unfold swap
  simp [ha0, hb0, ha2, hb2]

theorem swap_some {α : Type} {m m1 : Mem α} {a b : Int} (h : swap m a b = some m1) :
    ∃ x y, cell m.cells a = some x ∧ cell m.cells b = some y ∧
      m1 = ⟨(m.cells.set a.toNat y).set b.toNat x, Ev.sw a.toNat b.toNat :: m.log⟩ := by
  unfold swap at h
  split at h
  · rename_i h0
    split at h
    · rename_i x y hx hy
      refine ⟨x, y, by simp [cell, h0.1, hx], by simp [cell, h0.2, hy], ?_⟩
      simpa using h.symm
    · cases h
  · cases h

theorem cell_set_set {α : Type} (l : List α) {a b : Int} {x y : α}
    (ha : cell l a = some x) (hb : cell l b = some y) (k : Int) :
    cell ((l.set a.toNat y).set b.toNat x) k =
      if k = b then some x else if k = a then some y else cell l k := by
  obtain ⟨ha0, ha1, ha2⟩ := cell_eq_some ha
  obtain ⟨hb0, hb1, hb2⟩ := cell_eq_some hb
  by_cases hk0 : 0 ≤ k
  · simp only [cell, hk0, if_true]
    rw [List.getElem?_set, List.getElem?_set]
    by_cases hkb : k = b
    · subst hkb
      simp; omega
    · have : ¬ b.toNat = k.toNat := by omega
      simp only [this, if_false, hkb]
      by_cases hka : k = a
      · subst hka
        simp; omega
      · have : ¬ a.toNat = k.toNat := by omega
        simp [this, hka]
  · have hkb : ¬ k = b := by omega
    have hka : ¬ k = a := by omega
    simp [cell, hk0, hkb, hka]

theorem set_set_perm_of_cell {α : Type} [DecidableEq α] (l : List α) {a b : Int} {x y : α}
    (ha : cell l a = some x) (hb : cell l b = some y) :
    ((l.set a.toNat y).set b.toNat x).Perm l := by
  obtain ⟨ha0, ha1, ha2⟩ := cell_eq_some ha
  obtain ⟨hb0, hb1, hb2⟩ := cell_eq_some hb
  have hi : a.toNat < l.length := by omega
  have hj : b.toNat < l.length := by omega
  have hx : l[a.toNat] = x := by
    have := List.getElem?_eq_getElem hi
    rw [this] at ha2; exact Option.some.inj ha2
  have hy : l[b.toNat] = y := by
    have := List.getElem?_eq_getElem hj
    rw [this] at hb2; exact Option.some.inj hb2
  subst hx hy
  rw [List.perm_iff_count]
  intro c
  have hj2 : b.toNat < (l.set a.toNat l[b.toNat]).length := by simpa using hj
  rw [List.count_set _ _ _ _ hj2, List.count_set _ _ _ _ hi]
  have h1 : (l.set a.toNat l[b.toNat])[b.toNat] = l[b.toNat] := by
    rw [List.getElem_set]; split <;> rfl
  rw [h1]
  have := List.boole_getElem_le_count c l a.toNat hi
  have := List.boole_getElem_le_count c l b.toNat hj
  split <;> split <;> simp_all


/-! ## Frames -/

theorem within_nil (lo hi : Int) : Within lo hi [] := by
  intro ev h; cases h

theorem within_append {lo hi : Int} {e1 e2 : List Ev} (h1 : Within lo hi e1)
    (h2 : Within lo hi e2) : Within lo hi (e1 ++ e2) := by
  intro ev hev
  rcases List.mem_append.mp hev with h | h
  · exact h1 ev h
  · exact h2 ev h

theorem within_mono {lo hi lo1 hi1 : Int} {evs : List Ev} (h : Within lo hi evs)
    (hlo : lo1 ≤ lo) (hhi : hi ≤ hi1) : Within lo1 hi1 evs := by
  intro ev hev c hc
  have := h ev hev c hc
  omega

theorem Frame.refl {α : Type} (lo hi : Int) (m : Mem α) : Frame lo hi m m :=
  ⟨rfl, fun _ _ => rfl, fun k _ h1 h2 h3 => ⟨k, h1, h2, h3⟩, List.Perm.refl _, [], rfl,
    within_nil lo hi⟩

theorem Frame.trans {α : Type} {lo hi : Int} {m1 m2 m3 : Mem α}
    (h12 : Frame lo hi m1 m2) (h23 : Frame lo hi m2 m3) : Frame lo hi m1 m3 := by
  obtain ⟨e1, hl1, hw1⟩ := h12.log
  obtain ⟨e2, hl2, hw2⟩ := h23.log
  refine ⟨h23.length_eq.trans h12.length_eq, ?_, ?_, h23.perm.trans h12.perm, e2 ++ e1, ?_, ?_⟩
  · intro k hk
    rw [h23.outside k hk, h12.outside k hk]
  · intro k x h1 h2 h3
    obtain ⟨k1, h4, h5, h6⟩ := h23.inside k x h1 h2 h3
    exact h12.inside k1 x h4 h5 h6
  · rw [hl2, hl1, List.append_assoc]
  · exact within_append hw2 hw1

theorem Frame.mono {α : Type} {lo hi lo1 hi1 : Int} {m1 m2 : Mem α}
    (h : Frame lo hi m1 m2) (hlo : lo1 ≤ lo) (hhi : hi ≤ hi1) : Frame lo1 hi1 m1 m2 := by
  obtain ⟨e1, hl1, hw1⟩ := h.log
  refine ⟨h.length_eq, ?_, ?_, h.perm, e1, hl1, within_mono hw1 hlo hhi⟩
  · intro k hk
    exact h.outside k (by omega)
  · intro k x h1 h2 h3
    by_cases hk : lo ≤ k ∧ k < hi
    · obtain ⟨k1, h4, h5, h6⟩ := h.inside k x hk.1 hk.2 h3
      exact ⟨k1, by omega, by omega, h6⟩
    · rw [h.outside k (by omega)] at h3
      exact ⟨k, h1, h2, h3⟩

theorem frame_load {α : Type} (lo hi : Int) {m m1 : Mem α} {p : Int} {x : α}
    (h : load m p = some (x, m1)) (hlo : lo ≤ p) (hhi : p < hi) :
    Frame lo hi m m1 ∧ m1.cells = m.cells ∧ cell m.cells p = some x := by
  obtain ⟨hc, rfl⟩ := load_some h
  obtain ⟨h0, -, -⟩ := cell_eq_some hc
  refine ⟨⟨rfl, fun _ _ => rfl, fun k _ h1 h2 h3 => ⟨k, h1, h2, h3⟩, List.Perm.refl _,
    [Ev.rd p.toNat], rfl, ?_⟩, rfl, hc⟩
  intro ev hev c hc
  simp at hev
  subst hev
  simp [Ev.cells] at hc
  subst hc
  omega

theorem frame_swap {α : Type} [DecidableEq α] (lo hi : Int) {m m1 : Mem α} {a b : Int}
    (h : swap m a b = some m1) (ha : lo ≤ a ∧ a < hi) (hb : lo ≤ b ∧ b < hi) :
    Frame lo hi m m1 := by
  obtain ⟨x, y, hx, hy, rfl⟩ := swap_some h
  obtain ⟨ha0, -, -⟩ := cell_eq_some hx
  obtain ⟨hb0, -, -⟩ := cell_eq_some hy
  refine ⟨by simp, ?_, ?_, set_set_perm_of_cell _ hx hy, [Ev.sw a.toNat b.toNat], rfl, ?_⟩
  · intro k hk
    rw [cell_set_set _ hx hy]
    have h1 : ¬ k = b := by omega
    have h2 : ¬ k = a := by omega
    simp [h1, h2]
  · intro k z h1 h2 h3
    rw [cell_set_set _ hx hy] at h3
    by_cases hkb : k = b
    · rw [if_pos hkb] at h3
      exact ⟨a, ha.1, ha.2, by rw [hx, h3]⟩
    · rw [if_neg hkb] at h3
      by_cases hka : k = a
      · rw [if_pos hka] at h3
        exact ⟨b, hb.1, hb.2, by rw [hy, h3]⟩
      · rw [if_neg hka] at h3
        exact ⟨k, h1, h2, h3⟩
  · intro ev hev c hc
    simp at hev
    subst hev
    simp [Ev.cells] at hc
    rcases hc with rfl | rfl <;> omega

/-! ## Insertion sort -/

theorem sortedOn_of_le_one {α : Type} [LinearOrder α] (l : List α) (lo hi : Int)
    (h : hi ≤ lo + 1) : SortedOn l lo hi := by
  intro u v x y h1 h2 h3 hx hy
  have : u = v := by omega
  subst this
  rw [hx] at hy
  exact le_of_eq (Option.some.inj hy)

theorem ins_inner_succ {α : Type} [LinearOrder α] (a : Int) (j : Nat) (m : Mem α) (c : Int)
    (hc : c = a + ((j + 1 : Nat) : Int)) :
    ins_inner a (j + 1) m =
      match load m (c - 1) with
      | none => none
      | some (x, m1) =>
        match load m1 c with
        | none => none
        | some (y, m2) =>
          if x > y then
            match swap m2 c (c - 1) with
            | none => none
            | some m3 => ins_inner a j m3
          else some m2 := by
  subst hc; rfl

theorem ins_inner_spec {α : Type} [LinearOrder α] (a : Int) (i : Nat) (ha : 0 ≤ a) :
    ∀ (j : Nat) (m : Mem α), j ≤ i → a + i < m.cells.length →
      (∀ (u v : Int) (x y : α), a ≤ u → u < v → v ≤ a + i → u ≠ a + j → v ≠ a + j →
        cell m.cells u = some x → cell m.cells v = some y → x ≤ y) →
      (∀ (v : Int) (x y : α), a + j < v → v ≤ a + i →
        cell m.cells (a + j) = some x → cell m.cells v = some y → x ≤ y) →
      ∃ m1, ins_inner a j m = some m1 ∧ Frame a (a + i + 1) m m1 ∧
        SortedOn m1.cells a (a + i + 1) := by
  intro j
  induction j with
  | zero =>
    intro m _ _ H1 H2
    refine ⟨m, rfl, Frame.refl _ _ _, ?_⟩
    intro u v x y h1 h2 h3 hx hy
    rcases eq_or_lt_of_le h2 with h | h
    · subst h
      rw [hx] at hy
      exact le_of_eq (Option.some.inj hy)
    · by_cases hu : u = a
      · subst hu
        exact H2 v x y (by simpa using h) (by omega) (by simpa using hx) hy
      · exact H1 u v x y h1 h (by omega) (by simpa using hu) (by simp; omega) hx hy
  | succ j ih =>
    intro m hji hlen H1 H2
    obtain ⟨c, hc⟩ : ∃ c : Int, c = a + ((j + 1 : Nat) : Int) := ⟨_, rfl⟩
    have hcj : c = a + j + 1 := by omega
    rw [← hc] at H1 H2
    rw [ins_inner_succ a j m c hc]
    obtain ⟨x, hx⟩ := cell_of_lt m.cells (c - 1) (by omega) (by omega)
    obtain ⟨y, hy⟩ := cell_of_lt m.cells c (by omega) (by omega)
    have hl1 := load_of_cell m hx
    have hl2 := load_of_cell (⟨m.cells, Ev.rd (c - 1).toNat :: m.log⟩ : Mem α) (p := c) hy
    obtain ⟨hf1, -, -⟩ := frame_load (a) (a + i + 1) hl1 (by omega) (by omega)
    obtain ⟨hf2, -, -⟩ := frame_load (a) (a + i + 1) hl2 (by omega) (by omega)
    have hf12 := hf1.trans hf2
    rw [hl1]; simp only []
    rw [hl2]; simp only []
    by_cases hxy : x > y
    · rw [if_pos hxy]
      obtain ⟨m3, hm3, hsw⟩ : ∃ m3 : Mem α,
          m3.cells = (m.cells.set c.toNat x).set (c - 1).toNat y ∧
          swap (⟨m.cells, Ev.rd c.toNat :: Ev.rd (c - 1).toNat :: m.log⟩ : Mem α) c (c - 1)
            = some m3 := ⟨_, rfl, swap_of_cell _ hy hx⟩
      have hf3 := frame_swap (a) (a + i + 1) hsw (by omega) (by omega)
      have hcs := cell_set_set m.cells hy hx
      rw [hsw]; simp only []
      obtain ⟨m1, hm1, hfr, hso⟩ := ih m3 (by omega) (by rw [hm3]; simpa using hlen)
        (by
          intro u v p q h1 h2 h3 h4 h5 hp hq
          rw [hm3, hcs] at hp hq
          have hu1 : ¬ u = c - 1 := by omega
          have hv1 : ¬ v = c - 1 := by omega
          rw [if_neg hu1] at hp
          rw [if_neg hv1] at hq
          by_cases hu : u = c
          · have hv : ¬ v = c := by omega
            rw [if_pos hu] at hp
            rw [if_neg hv] at hq
            cases Option.some.inj hp
            exact H1 (c - 1) v x q (by omega) (by omega) h3 (by omega) hv hx hq
          · rw [if_neg hu] at hp
            by_cases hv : v = c
            · rw [if_pos hv] at hq
              cases Option.some.inj hq
              exact H1 u (c - 1) p x h1 (by omega) (by omega) hu (by omega) hp hx
            · rw [if_neg hv] at hq
              exact H1 u v p q h1 h2 h3 hu hv hp hq)
        (by
          intro v p q h1 h2 hp hq
          rw [hm3, hcs] at hp hq
          rw [if_pos (by omega)] at hp
          have hv1 : ¬ v = c - 1 := by omega
          rw [if_neg hv1] at hq
          cases Option.some.inj hp
          by_cases hv : v = c
          · rw [if_pos hv] at hq
            cases Option.some.inj hq
            exact le_of_lt hxy
          · rw [if_neg hv] at hq
            exact H2 v _ q (by omega) h2 hy hq)
      exact ⟨m1, hm1, (hf12.trans hf3).trans hfr, hso⟩
    · rw [if_neg hxy]
      refine ⟨_, rfl, hf12, ?_⟩
      intro u v p q h1 h2 h3 hp hq
      rcases eq_or_lt_of_le h2 with h | h
      · subst h
        rw [hp] at hq
        exact le_of_eq (Option.some.inj hq)
      · by_cases hu : u = c
        · subst hu
          exact H2 v p q h (by omega) hp hq
        · by_cases hv : v = c
          · subst hv
            rw [hy] at hq
            cases Option.some.inj hq
            by_cases hu2 : u = v - 1
            · subst hu2
              rw [hx] at hp
              cases Option.some.inj hp
              exact le_of_not_lt hxy
            · have := H1 u (v - 1) p x h1 (by omega) (by omega) hu (by omega) hp hx
              exact le_trans this (le_of_not_lt hxy)
          · exact H1 u v p q h1 h (by omega) hu hv hp hq

theorem ins_outer_spec {α : Type} [LinearOrder α] (a : Int) (ha : 0 ≤ a) :
    ∀ (k i : Nat) (m : Mem α), 1 ≤ i → a + i + k ≤ m.cells.length →
      SortedOn m.cells a (a + i) →
      ∃ m1, ins_outer a k i m = some m1 ∧ Frame a (a + i + k) m m1 ∧
        SortedOn m1.cells a (a + i + k) := by
  intro k
  induction k with
  | zero =>
    intro i m _ _ hs
    exact ⟨m, rfl, Frame.refl _ _ _, by simpa using hs⟩
  | succ k ih =>
    intro i m hi hlen hs
    obtain ⟨m1, hm1, hf1, hs1⟩ := ins_inner_spec a i ha i m (le_refl _) (by omega)
      (fun u v x y h1 h2 h3 _ h5 hx hy => hs u v x y h1 (le_of_lt h2) (by omega) hx hy)
      (fun v x y h1 h2 _ _ => by omega)
    obtain ⟨m2, hm2, hf2, hs2⟩ := ih (i + 1) m1 (by omega)
      (by rw [hf1.length_eq]; push_cast at hlen ⊢; omega)
      (by
        have e : a + ((i + 1 : Nat) : Int) = a + i + 1 := by push_cast; omega
        rw [e]; exact hs1)
    refine ⟨m2, ?_, ?_, ?_⟩
    · simp only [ins_outer, hm1, hm2]
    · have e : a + ↑(i + 1) + ↑k = a + ↑i + ↑(k + 1) := by push_cast; omega
      rw [e] at hf2
      exact (hf1.mono (le_refl _) (by push_cast; omega)).trans hf2
    · have e : a + ↑(i + 1) + ↑k = a + ↑i + ↑(k + 1) := by push_cast; omega
      rw [e] at hs2
      exact hs2

theorem ins_sort_spec {α : Type} [LinearOrder α] (m : Mem α) (a n : Int) (ha : 0 ≤ a)
    (hn : 0 ≤ n) (hlen : a + n ≤ m.cells.length) :
    ∃ m1, ins_sort m a n = some m1 ∧ Frame a (a + n) m m1 ∧ SortedOn m1.cells a (a + n) := by
  unfold ins_sort
  by_cases h1 : n ≤ 1
  · have : (n - 1).toNat = 0 := by omega
    rw [this]
    exact ⟨m, rfl, Frame.refl _ _ _, sortedOn_of_le_one _ _ _ (by omega)⟩
  · obtain ⟨m1, hm1, hf, hs⟩ := ins_outer_spec a ha (n - 1).toNat 1 m (le_refl _)
      (by omega) (sortedOn_of_le_one _ _ _ (by simp))
    have e : a + ((1 : Nat) : Int) + ((n - 1).toNat : Int) = a + n := by omega
    rw [e] at hf hs
    exact ⟨m1, hm1, hf, hs⟩


/-! ## The two scans of partition -/

theorem scan_up_spec {α : Type} [LinearOrder α] (a : Int) (p : α) (k : Int) :
    ∀ (fuel : Nat) (m : Mem α) (i : Int), 0 ≤ a + i → i ≤ k → (k - i).toNat < fuel →
      (∃ z, cell m.cells (a + k) = some z ∧ ¬ z < p) →
      ∃ i1 m1, scan_up a p fuel m i = some (i1, m1) ∧ i ≤ i1 ∧ i1 ≤ k ∧
        m1.cells = m.cells ∧ Frame (a + i) (a + i1 + 1) m m1 ∧
        (∀ (u : Int) (x : α), i ≤ u → u < i1 → cell m.cells (a + u) = some x → x < p) ∧
        (∃ x, cell m.cells (a + i1) = some x ∧ ¬ x < p) := by
  intro fuel
  induction fuel with
  | zero => intro m i _ _ h; omega
  | succ fuel ih =>
    intro m i h0 hik hfuel hz
    obtain ⟨z, hz1, hz2⟩ := hz
    obtain ⟨-, hk1, -⟩ := cell_eq_some hz1
    obtain ⟨x, hx⟩ := cell_of_lt m.cells (a + i) h0 (by omega)
    have hl := load_of_cell m hx
    obtain ⟨hf, -, -⟩ := frame_load (a + i) (a + i + 1) hl (le_refl _) (by omega)
    simp only [scan_up, hl]
    by_cases hxp : x < p
    · rw [if_pos hxp]
      have hne : i ≠ k := by
        rintro rfl
        rw [hx] at hz1
        cases Option.some.inj hz1
        exact hz2 hxp
      obtain ⟨i1, m1, h1, h2, h3, h4, h5, h6, h7⟩ :=
        ih (⟨m.cells, Ev.rd (a + i).toNat :: m.log⟩ : Mem α) (i + 1) (by omega) (by omega)
          (by omega) ⟨z, hz1, hz2⟩
      refine ⟨i1, m1, h1, by omega, h3, h4, ?_, ?_, h7⟩
      · exact (hf.mono (le_refl _) (by omega)).trans (h5.mono (by omega) (le_refl _))
      · intro u y hu1 hu2 hy
        by_cases hui : u = i
        · subst hui
          rw [hx] at hy
          cases Option.some.inj hy
          exact hxp
        · exact h6 u y (by omega) hu2 hy
    · rw [if_neg hxp]
      exact ⟨i, _, rfl, le_refl _, hik, rfl, hf, fun u y h1 h2 => by omega, x, hx, hxp⟩

theorem scan_down_spec {α : Type} [LinearOrder α] (a : Int) (p : α) (k : Int) :
    ∀ (fuel : Nat) (m : Mem α) (j : Int), a + j < m.cells.length → k ≤ j →
      (j - k).toNat < fuel →
      (∃ z, cell m.cells (a + k) = some z ∧ ¬ z > p) →
      ∃ j1 m1, scan_down a p fuel m j = some (j1, m1) ∧ k ≤ j1 ∧ j1 ≤ j ∧
        m1.cells = m.cells ∧ Frame (a + j1) (a + j + 1) m m1 ∧
        (∀ (u : Int) (x : α), j1 < u → u ≤ j → cell m.cells (a + u) = some x → x > p) ∧
        (∃ x, cell m.cells (a + j1) = some x ∧ ¬ x > p) := by
  intro fuel
  induction fuel with
  | zero => intro m j _ _ h; omega
  | succ fuel ih =>
    intro m j h0 hkj hfuel hz
    obtain ⟨z, hz1, hz2⟩ := hz
    obtain ⟨hk0, -, -⟩ := cell_eq_some hz1
    obtain ⟨x, hx⟩ := cell_of_lt m.cells (a + j) (by omega) h0
    have hl := load_of_cell m hx
    obtain ⟨hf, -, -⟩ := frame_load (a + j) (a + j + 1) hl (le_refl _) (by omega)
    simp only [scan_down, hl]
    by_cases hxp : x > p
    · rw [if_pos hxp]
      have hne : j ≠ k := by
        rintro rfl
        rw [hx] at hz1
        cases Option.some.inj hz1
        exact hz2 hxp
      obtain ⟨j1, m1, h1, h2, h3, h4, h5, h6, h7⟩ :=
        ih (⟨m.cells, Ev.rd (a + j).toNat :: m.log⟩ : Mem α) (j - 1) (by simp only []; omega)
          (by omega) (by omega) ⟨z, hz1, hz2⟩
      refine ⟨j1, m1, h1, h2, by omega, h4, ?_, ?_, h7⟩
      · have e : a + (j - 1) + 1 = a + j := by omega
        rw [e] at h5
        exact (hf.mono (by omega) (le_refl _)).trans (h5.mono (le_refl _) (by omega))
      · intro u y hu1 hu2 hy
        by_cases huj : u = j
        · subst huj
          rw [hx] at hy
          cases Option.some.inj hy
          exact hxp
        · exact h6 u y hu1 (by omega) hy
    · rw [if_neg hxp]
      exact ⟨j, _, rfl, hkj, le_refl _, rfl, hf, fun u y h1 h2 => by omega, x, hx, hxp⟩


/-! ## The loop of partition -/

theorem partition_loop_spec {α : Type} [LinearOrder α] (a n : Int) (p : α) (ha : 0 ≤ a) :
    ∀ (fuel : Nat) (m : Mem α) (i j : Int), a + n ≤ m.cells.length → 1 ≤ i → j ≤ n - 2 →
      (j + 1 - i).toNat < fuel →
      (∀ (u : Int) (x : α), 0 ≤ u → u < i → cell m.cells (a + u) = some x → x ≤ p) →
      (∀ (u : Int) (x : α), j < u → u < n → cell m.cells (a + u) = some x → p ≤ x) →
      (∃ k z, i ≤ k ∧ k ≤ n - 1 ∧ cell m.cells (a + k) = some z ∧ p ≤ z) →
      (∃ k z, 0 ≤ k ∧ k ≤ j ∧ cell m.cells (a + k) = some z ∧ z ≤ p) →
      ∃ r m1, partition_loop a p fuel m i j = some (r, m1) ∧ Frame a (a + n) m m1 ∧
        i ≤ r ∧ r ≤ n - 1 ∧
        (∀ (u : Int) (x : α), 0 ≤ u → u < r → cell m1.cells (a + u) = some x → x ≤ p) ∧
        (∀ (u : Int) (x : α), r ≤ u → u < n → cell m1.cells (a + u) = some x → p ≤ x) := by
  intro fuel
  induction fuel with
  | zero => intro m i j _ _ _ h; omega
  | succ fuel ih =>
    intro m i j hlen hi hj hfuel HL HR hup hdown
    obtain ⟨ku, zu, hku1, hku2, hku3, hku4⟩ := hup
    obtain ⟨kd, zd, hkd1, hkd2, hkd3, hkd4⟩ := hdown
    obtain ⟨-, hku5, -⟩ := cell_eq_some hku3
    obtain ⟨i1, m1, hs1, hi1a, hi1b, hc1, hf1, hlt1, xi, hxi, hxip⟩ :=
      scan_up_spec a p ku (m.cells.length + 1) m i (by omega) hku1 (by omega)
        ⟨zu, hku3, not_lt_of_le hku4⟩
    obtain ⟨j1, m2, hs2, hj1a, hj1b, hc2, hf2, hgt2, xj, hxj, hxjp⟩ :=
      scan_down_spec a p kd (m1.cells.length + 1) m1 j (by rw [hc1]; omega) hkd2
        (by rw [hc1]; omega) ⟨zd, by rw [hc1]; exact hkd3, not_lt_of_le hkd4⟩
    rw [hc1] at hgt2 hxj
    have hc12 : m2.cells = m.cells := by rw [hc2, hc1]
    have hf12 : Frame a (a + n) m m2 :=
      (hf1.mono (by omega) (by omega)).trans (hf2.mono (by omega) (by omega))
    simp only [partition_loop]
    rw [hs1]
    simp only []
    rw [hc1] at hs2
    rw [hs2]
    simp only []
    by_cases hij : i1 ≥ j1
    · rw [if_pos hij]
      refine ⟨i1, m2, rfl, hf12, hi1a, by omega, ?_, ?_⟩
      · intro u x hu0 hu1 hx
        rw [hc12] at hx
        by_cases hui : u < i
        · exact HL u x hu0 hui hx
        · exact le_of_lt (hlt1 u x (by omega) hu1 hx)
      · intro u x hu0 hu1 hx
        rw [hc12] at hx
        by_cases huj : j < u
        · exact HR u x huj hu1 hx
        · by_cases huj1 : j1 < u
          · exact le_of_lt (hgt2 u x huj1 (by omega) hx)
          · have e : u = i1 := by omega
            subst e
            rw [hxi] at hx
            cases Option.some.inj hx
            exact le_of_not_lt hxip
    · rw [if_neg hij]
      have hij2 : i1 < j1 := by omega
      obtain ⟨m3, hm3, hsw⟩ : ∃ m3 : Mem α,
          m3.cells = (m2.cells.set (a + i1).toNat xj).set (a + j1).toNat xi ∧
          swap m2 (a + i1) (a + j1) = some m3 :=
        ⟨_, rfl, swap_of_cell _ (by rw [hc12]; exact hxi) (by rw [hc12]; exact hxj)⟩
      have hf3 := frame_swap (a) (a + n) hsw (by omega) (by omega)
      have hcs := cell_set_set m.cells hxi hxj
      rw [hc12] at hm3
      rw [hsw]
      simp only []
      obtain ⟨r, m4, hr1, hr2, hr3, hr4, hr5, hr6⟩ := ih m3 (i1 + 1) (j1 - 1)
        (by rw [hf3.length_eq, hf12.length_eq]; exact hlen) (by omega) (by omega) (by omega)
        (by
          intro u x hu0 hu1 hx
          rw [hm3, hcs] at hx
          have h1 : ¬ a + u = a + j1 := by omega
          rw [if_neg h1] at hx
          by_cases h2 : u = i1
          · rw [if_pos (by omega)] at hx
            cases Option.some.inj hx
            exact le_of_not_lt hxjp
          · rw [if_neg (by omega)] at hx
            by_cases hui : u < i
            · exact HL u x hu0 hui hx
            · exact le_of_lt (hlt1 u x (by omega) (by omega) hx))
        (by
          intro u x hu0 hu1 hx
          rw [hm3, hcs] at hx
          by_cases h1 : u = j1
          · rw [if_pos (by omega)] at hx
            cases Option.some.inj hx
            exact le_of_not_lt hxip
          · rw [if_neg (by omega), if_neg (by omega)] at hx
            by_cases huj : j < u
            · exact HR u x huj hu1 hx
            · exact le_of_lt (hgt2 u x (by omega) (by omega) hx))
        ⟨j1, xi, by omega, by omega, by rw [hm3, hcs, if_pos rfl], le_of_not_lt hxip⟩
        ⟨i1, xj, by omega, by omega,
          by rw [hm3, hcs, if_neg (by omega), if_pos rfl], le_of_not_lt hxjp⟩
      exact ⟨r, m4, hr1, (hf12.trans hf3).trans hr2, by omega, hr4, hr5, hr6⟩

/-! ## Pivot selection -/

theorem swap_if_gt_spec {α : Type} [LinearOrder α] (lo hi : Int) (m : Mem α) (p q : Int)
    (x y : α) (hp : cell m.cells p = some x) (hq : cell m.cells q = some y)
    (hpr : lo ≤ p ∧ p < hi) (hqr : lo ≤ q ∧ q < hi) :
    ∃ m1, swap_if_gt m p q = some m1 ∧ Frame lo hi m m1 ∧
      (∀ k : Int, k ≠ p → k ≠ q → cell m1.cells k = cell m.cells k) ∧
      ((cell m1.cells p = some x ∧ cell m1.cells q = some y ∧ x ≤ y) ∨
       (cell m1.cells p = some y ∧ cell m1.cells q = some x ∧ y ≤ x)) := by
  have hl1 := load_of_cell m hp
  have hl2 := load_of_cell (⟨m.cells, Ev.rd p.toNat :: m.log⟩ : Mem α) (p := q) hq
  obtain ⟨hf1, -, -⟩ := frame_load (lo) (hi) hl1 hpr.1 hpr.2
  obtain ⟨hf2, -, -⟩ := frame_load (lo) (hi) hl2 hqr.1 hqr.2
  simp only [swap_if_gt, hl1, hl2]
  by_cases hxy : x > y
  · rw [if_pos hxy]
    obtain ⟨m3, hm3, hsw⟩ : ∃ m3 : Mem α,
        m3.cells = (m.cells.set p.toNat y).set q.toNat x ∧
        swap (⟨m.cells, Ev.rd q.toNat :: Ev.rd p.toNat :: m.log⟩ : Mem α) p q = some m3 :=
      ⟨_, rfl, swap_of_cell _ hp hq⟩
    have hf3 := frame_swap (lo) (hi) hsw hpr hqr
    have hcs := cell_set_set m.cells hp hq
    have hne : p ≠ q := by
      rintro rfl
      rw [hp] at hq
      cases Option.some.inj hq
      exact lt_irrefl _ hxy
    refine ⟨m3, hsw, (hf1.trans hf2).trans hf3, ?_, Or.inr ⟨?_, ?_, le_of_lt hxy⟩⟩
    · intro k h1 h2
      rw [hm3, hcs, if_neg h2, if_neg h1]
    · rw [hm3, hcs, if_neg hne, if_pos rfl]
    · rw [hm3, hcs, if_pos rfl]
  · rw [if_neg hxy]
    exact ⟨_, rfl, hf1.trans hf2, fun k _ _ => rfl, Or.inl ⟨hp, hq, le_of_not_lt hxy⟩⟩

theorem choose_pivot_spec {α : Type} [LinearOrder α] (m : Mem α) (a n : Int) (ha : 0 ≤ a)
    (hn : 2 ≤ n) (hlen : a + n ≤ m.cells.length) :
    ∃ m1 x p z, choose_pivot m a n = some m1 ∧ Frame a (a + n) m m1 ∧
      cell m1.cells a = some x ∧ cell m1.cells (a + n / 2) = some p ∧
      cell m1.cells (a + n - 1) = some z ∧ x ≤ p ∧ p ≤ z := by
  have hdiv : Int.tdiv n 2 = n / 2 := Int.tdiv_eq_ediv (by omega) (by omega)
  obtain ⟨x0, hx0⟩ := cell_of_lt m.cells (a + 0) (by omega) (by omega)
  obtain ⟨y0, hy0⟩ := cell_of_lt m.cells (a + n / 2) (by omega) (by omega)
  obtain ⟨z0, hz0⟩ := cell_of_lt m.cells (a + (n - 1)) (by omega) (by omega)
  obtain ⟨m1, hs1, hf1, ho1, hc1⟩ := swap_if_gt_spec a (a + n) m (a + 0) (a + n / 2) x0 y0
    hx0 hy0 (by omega) (by omega)
  have hz1 : cell m1.cells (a + (n - 1)) = some z0 ∨
      (a + (n - 1) = a + n / 2) := by
    by_cases h : a + (n - 1) = a + n / 2
    · exact Or.inr h
    · left; rw [ho1 _ (by omega) h]; exact hz0
  obtain ⟨x1, y1, hx1, hy1, hxy1⟩ : ∃ x1 y1, cell m1.cells (a + 0) = some x1 ∧
      cell m1.cells (a + n / 2) = some y1 ∧ x1 ≤ y1 := by
    rcases hc1 with ⟨h1, h2, h3⟩ | ⟨h1, h2, h3⟩
    · exact ⟨_, _, h1, h2, h3⟩
    · exact ⟨_, _, h1, h2, h3⟩
  obtain ⟨z1, hz1⟩ : ∃ z1, cell m1.cells (a + (n - 1)) = some z1 := by
    rcases hz1 with h | h
    · exact ⟨_, h⟩
    · rw [h]; exact ⟨_, hy1⟩
  obtain ⟨m2, hs2, hf2, ho2, hc2⟩ := swap_if_gt_spec a (a + n) m1 (a + n / 2) (a + (n - 1))
    y1 z1 hy1 hz1 (by omega) (by omega)
  have hx2 : cell m2.cells (a + 0) = some x1 := by
    rw [ho2 _ (by omega) (by omega)]; exact hx1
  obtain ⟨y2, z2, hy2, hz2, hyz2, hxz2⟩ : ∃ y2 z2, cell m2.cells (a + n / 2) = some y2 ∧
      cell m2.cells (a + (n - 1)) = some z2 ∧ y2 ≤ z2 ∧ x1 ≤ z2 := by
    rcases hc2 with ⟨h1, h2, h3⟩ | ⟨h1, h2, h3⟩
    · exact ⟨_, _, h1, h2, h3, le_trans hxy1 h3⟩
    · exact ⟨_, _, h1, h2, h3, hxy1⟩
  obtain ⟨m3, hs3, hf3, ho3, hc3⟩ := swap_if_gt_spec a (a + n) m2 (a + 0) (a + n / 2)
    x1 y2 hx2 hy2 (by omega) (by omega)
  have hfr : Frame a (a + n) m m3 := (hf1.trans hf2).trans hf3
  have hcp : choose_pivot m a n = some m3 := by
    simp only [choose_pivot, hdiv, hs1, Option.some_bind, hs2, hs3]
  obtain ⟨x3, y3, hx3, hy3, hxy3, hy3z⟩ : ∃ x3 y3, cell m3.cells (a + 0) = some x3 ∧
      cell m3.cells (a + n / 2) = some y3 ∧ x3 ≤ y3 ∧ y3 ≤ z2 := by
    rcases hc3 with ⟨h1, h2, h3⟩ | ⟨h1, h2, h3⟩
    · exact ⟨_, _, h1, h2, h3, hyz2⟩
    · exact ⟨_, _, h1, h2, h3, hxz2⟩
  have e0 : a + 0 = a := by omega
  have e1 : a + (n - 1) = a + n - 1 := by omega
  rw [e0] at hx3
  by_cases hml : a + (n - 1) = a + n / 2
  · refine ⟨m3, x3, y3, y3, hcp, hfr, hx3, hy3, ?_, hxy3, le_refl _⟩
    rw [← e1, hml]; exact hy3
  · refine ⟨m3, x3, y3, z2, hcp, hfr, hx3, hy3, ?_, hxy3, hy3z⟩
    rw [← e1, ho3 _ (by omega) hml]; exact hz2

/-! ## Partition -/

theorem partition_spec {α : Type} [LinearOrder α] (m : Mem α) (a n : Int) (ha : 0 ≤ a)
    (hn : 2 ≤ n) (hlen : a + n ≤ m.cells.length) :
    ∃ k m1, partition m a n = some (k, m1) ∧ Frame a (a + n) m m1 ∧ 1 ≤ k ∧ k ≤ n - 1 ∧
      ∀ (u v : Int) (x y : α), 0 ≤ u → u < k → k ≤ v → v < n →
        cell m1.cells (a + u) = some x → cell m1.cells (a + v) = some y → x ≤ y := by
  have hdiv : Int.tdiv n 2 = n / 2 := Int.tdiv_eq_ediv (by omega) (by omega)
  obtain ⟨m1, x, p, z, hcp, hf1, hx, hp, hz, hxp, hpz⟩ := choose_pivot_spec m a n ha hn hlen
  have hl := load_of_cell m1 hp
  obtain ⟨hf2, -, -⟩ := frame_load (a) (a + n) hl (by omega) (by omega)
  have hlen1 : m1.cells.length = m.cells.length := hf1.length_eq
  obtain ⟨k, m3, hk, hf3, hk1, hk2, hL, hR⟩ := partition_loop_spec a n p ha
    (m1.cells.length + 1) (⟨m1.cells, Ev.rd (a + n / 2).toNat :: m1.log⟩ : Mem α) 1 (n - 2)
    (by simp only []; omega) (le_refl _) (le_refl _) (by omega)
    (by
      intro u y h0 h1 hy
      have e : a + u = a := by omega
      rw [e] at hy
      simp only [] at hy
      rw [hx] at hy
      cases Option.some.inj hy
      exact hxp)
    (by
      intro u y h0 h1 hy
      have e : a + u = a + n - 1 := by omega
      rw [e] at hy
      simp only [] at hy
      rw [hz] at hy
      cases Option.some.inj hy
      exact hpz)
    ⟨n - 1, z, by omega, le_refl _, by
      have e : a + (n - 1) = a + n - 1 := by omega
      rw [e]; exact hz, hpz⟩
    ⟨0, x, le_refl _, by omega, by
      have e : a + 0 = a := by omega
      rw [e]; exact hx, hxp⟩
  refine ⟨k, m3, ?_, (hf1.trans hf2).trans hf3, hk1, hk2, ?_⟩
  · simp only [partition, hcp, hdiv, hl]
    exact hk
  · intro u v x1 y1 h0 h1 h2 h3 hx1 hy1
    exact le_trans (hL u x1 h0 h1 hx1) (hR v y1 h2 h3 hy1)


/-! ## The ring buffer -/

theorem contents_length (N : Nat) (c : Chan) : (c.contents N).length = c.m_count := by
  simp [Chan.contents]

theorem wf_init (N : Nat) : (Chan.init N).wf N := by
  refine ⟨by simp [Chan.init], Nat.zero_le _, fun hN => hN, ?_⟩
  simp [Chan.init]

theorem contents_init (N : Nat) : (Chan.init N).contents N = [] := by
  simp [Chan.contents, Chan.init]

theorem ring_index_ne {N q k m : Nat} (hk : k < m) (hm : m < N) :
    (q + m) % N ≠ (q + k) % N := by
  intro h
  have h1 : (q + m) ≡ (q + k) [MOD N] := h
  have h2 : m ≡ k [MOD N] := Nat.ModEq.add_left_cancel' q h1
  have h3 : m = k := Nat.ModEq.eq_of_lt_of_lt h2 hm (by omega)
  omega

theorem send_blocked (N : Nat) (c : Chan) (t s e : Int) (h : N ≤ c.m_count) :
    send N c t s e = none := by
  simp [send, h]

theorem send_spec (N : Nat) (c : Chan) (t s e : Int) (hwf : c.wf N) (h : c.m_count < N) :
    ∃ c1, send N c t s e = some c1 ∧ c1.wf N ∧
      c1.contents N = c.contents N ++ [⟨t, s, e⟩] ∧ c1.m_count = c.m_count + 1 := by
  obtain ⟨h1, h2, h3, h4⟩ := hwf
  have hN : 0 < N := by omega
  have h3 := h3 hN
  have hin : c.q_in < c.mqueue.length := by rw [h1, h4]; exact Nat.mod_lt _ hN
  refine ⟨⟨c.mqueue.set c.q_in ⟨t, s, e⟩, (c.q_in + 1) % N, c.q_out, c.m_count + 1⟩, ?_, ?_, ?_, rfl⟩
  · simp [send, Nat.not_le.mpr h, hin]
  · refine ⟨by simp [h1], h, fun _ => h3, ?_⟩
    simp only [h4]
    rw [Nat.mod_add_mod, Nat.add_assoc]
  · simp only [Chan.contents, List.range_succ, List.map_append, List.map_cons, List.map_nil]
    congr 1
    · apply List.map_congr_left
      intro k hk
      have hk2 : k < c.m_count := List.mem_range.mp hk
      have hne : c.q_in ≠ (c.q_out + k) % N := by
        rw [h4]; exact ring_index_ne hk2 h
      simp [List.getD_eq_getElem?_getD, List.getElem?_set_ne hne]
    · rw [← h4]
      simp [List.getD_eq_getElem?_getD, List.getElem?_set_self, hin]

theorem recv_blocked (N : Nat) (c : Chan) (h : c.m_count = 0) : recv N c = none := by
  simp [recv, h]

theorem recv_spec (N : Nat) (c : Chan) (hwf : c.wf N) (h : 1 ≤ c.m_count) :
    ∃ msg c1, recv N c = some (msg, c1) ∧ c1.wf N ∧
      c.contents N = msg :: c1.contents N ∧ c1.m_count + 1 = c.m_count := by
  obtain ⟨h1, h2, h3, h4⟩ := hwf
  have hN : 0 < N := by omega
  have h3 := h3 hN
  have hout : c.q_out < c.mqueue.length := by rw [h1]; exact h3
  refine ⟨c.mqueue[c.q_out], ⟨c.mqueue, c.q_in, (c.q_out + 1) % N, c.m_count - 1⟩, ?_, ?_, ?_, ?_⟩
  · have : ¬ c.m_count < 1 := by omega
    simp [recv, this, List.getElem?_eq_getElem hout]
  · refine ⟨h1, by simp only []; omega, fun _ => Nat.mod_lt _ hN, ?_⟩
    simp only [h4]
    rw [Nat.mod_add_mod]
    congr 1; omega
  · obtain ⟨k, hk⟩ : ∃ k, c.m_count = k + 1 := ⟨c.m_count - 1, by omega⟩
    simp only [Chan.contents, hk, List.range_succ_eq_map, List.map_cons, List.map_map,
      Nat.add_sub_cancel]
    congr 1
    · simp [Nat.mod_eq_of_lt h3, List.getD_eq_getElem?_getD, List.getElem?_eq_getElem hout]
    · apply List.map_congr_left
      intro j _
      simp only [Function.comp]
      rw [Nat.mod_add_mod]
      congr 2; omega
  · simp only []; omega

theorem fifo_exec_sent (N : Nat) :
    ∀ (ops : List Op) (q q1 out : List Message),
      fifo_exec N ops q = some (q1, out) → out ++ q1 = q ++ Op.sent ops := by
  intro ops
  induction ops with
  | nil =>
    intro q q1 out h
    simp only [fifo_exec, Option.some.injEq, Prod.mk.injEq] at h
    obtain ⟨rfl, rfl⟩ := h
    simp [Op.sent]
  | cons op ops ih =>
    intro q q1 out h
    cases op with
    | send msg =>
      simp only [fifo_exec, fifo_send] at h
      split at h
      · cases h
      · rename_i q2 hq2
        split at hq2
        · cases hq2
        · cases Option.some.inj hq2
          rw [ih _ _ _ h]
          simp [Op.sent]
    | recv =>
      cases q with
      | nil => simp [fifo_exec, fifo_receive] at h
      | cons msg rest =>
        simp only [fifo_exec, fifo_receive] at h
        cases hr : fifo_exec N ops rest with
        | none => simp [hr] at h
        | some r =>
          obtain ⟨r1, r2⟩ := r
          simp only [hr, Option.map_some', Option.some.injEq, Prod.mk.injEq] at h
          obtain ⟨rfl, rfl⟩ := h
          have := ih _ _ _ hr
          simp [Op.sent, this]

theorem exec_refines (N : Nat) :
    ∀ (ops : List Op) (c : Chan), c.wf N →
      (exec N ops c).map (fun r => (r.1.contents N, r.2)) = fifo_exec N ops (c.contents N) := by
  intro ops
  induction ops with
  | nil => intro c _; simp [exec, fifo_exec]
  | cons op ops ih =>
    intro c hwf
    cases op with
    | send msg =>
      by_cases h : c.m_count < N
      · obtain ⟨c1, hs, hwf1, hc1, -⟩ := send_spec N c msg.type msg.start msg.end_ hwf h
        have hf : fifo_send N (c.contents N) msg = some (c1.contents N) := by
          simp [fifo_send, contents_length, h, hc1]
        simp only [exec, fifo_exec, hs, hf]
        exact ih c1 hwf1
      · have hs := send_blocked N c msg.type msg.start msg.end_ (by omega)
        have hf : fifo_send N (c.contents N) msg = none := by
          simp [fifo_send, contents_length]; omega
        simp only [exec, fifo_exec, hs, hf, Option.map_none']
    | recv =>
      by_cases h : 1 ≤ c.m_count
      · obtain ⟨msg, c1, hr, hwf1, hc1, -⟩ := recv_spec N c hwf h
        simp only [exec, fifo_exec, hr, hc1, fifo_receive]
        rw [← ih c1 hwf1]
        cases exec N ops c1 <;> simp
      · have hr := recv_blocked N c (by omega)
        have hc : c.contents N = [] := by
          apply List.eq_nil_of_length_eq_zero
          rw [contents_length]; omega
        simp only [exec, fifo_exec, hr, hc, fifo_receive, Option.map_none']


/-! ## Every run of the array code permutes the array -/

theorem swap_perm {α : Type} [DecidableEq α] {m m1 : Mem α} {a b : Int}
    (h : swap m a b = some m1) : m1.cells.Perm m.cells := by
  obtain ⟨x, y, hx, hy, rfl⟩ := swap_some h
  exact set_set_perm_of_cell _ hx hy

theorem load_cells {α : Type} {m m1 : Mem α} {p : Int} {x : α}
    (h : load m p = some (x, m1)) : m1.cells = m.cells := by
  obtain ⟨-, rfl⟩ := load_some h
  rfl

theorem swap_if_gt_perm {α : Type} [LinearOrder α] {m m1 : Mem α} {p q : Int}
    (h : swap_if_gt m p q = some m1) : m1.cells.Perm m.cells := by
  unfold swap_if_gt at h
  split at h
  · cases h
  · rename_i x m2 h2
    split at h
    · cases h
    · rename_i y m3 h3
      have e2 := load_cells h2
      have e3 := load_cells h3
      split at h
      · have := swap_perm h
        rw [e3, e2] at this
        exact this
      · cases Option.some.inj h
        rw [e3, e2]

theorem scan_up_cells {α : Type} [LinearOrder α] (a : Int) (p : α) :
    ∀ (fuel : Nat) (m : Mem α) (i i1 : Int) (m1 : Mem α),
      scan_up a p fuel m i = some (i1, m1) → m1.cells = m.cells := by
  intro fuel
  induction fuel with
  | zero => intro m i i1 m1 h; cases h
  | succ fuel ih =>
    intro m i i1 m1 h
    simp only [scan_up] at h
    split at h
    · cases h
    · rename_i x m2 h2
      have e2 := load_cells h2
      split at h
      · rw [ih _ _ _ _ h, e2]
      · cases Option.some.inj h
        exact e2

theorem scan_down_cells {α : Type} [LinearOrder α] (a : Int) (p : α) :
    ∀ (fuel : Nat) (m : Mem α) (j j1 : Int) (m1 : Mem α),
      scan_down a p fuel m j = some (j1, m1) → m1.cells = m.cells := by
  intro fuel
  induction fuel with
  | zero => intro m j j1 m1 h; cases h
  | succ fuel ih =>
    intro m j j1 m1 h
    simp only [scan_down] at h
    split at h
    · cases h
    · rename_i x m2 h2
      have e2 := load_cells h2
      split at h
      · rw [ih _ _ _ _ h, e2]
      · cases Option.some.inj h
        exact e2

theorem partition_loop_perm {α : Type} [LinearOrder α] (a : Int) (p : α) :
    ∀ (fuel : Nat) (m : Mem α) (i j r : Int) (m1 : Mem α),
      partition_loop a p fuel m i j = some (r, m1) → m1.cells.Perm m.cells := by
  intro fuel
  induction fuel with
  | zero => intro m i j r m1 h; cases h
  | succ fuel ih =>
    intro m i j r m1 h
    simp only [partition_loop] at h
    split at h
    · cases h
    · rename_i i1 m2 h2
      have e2 := scan_up_cells _ _ _ _ _ _ _ h2
      split at h
      · cases h
      · rename_i j1 m3 h3
        have e3 := scan_down_cells _ _ _ _ _ _ _ h3
        split at h
        · cases Option.some.inj h
          rw [e3, e2]
        · split at h
          · cases h
          · rename_i m4 h4
            have e4 := swap_perm h4
            rw [e3, e2] at e4
            exact (ih _ _ _ _ _ h).trans e4

theorem choose_pivot_perm {α : Type} [LinearOrder α] {m m1 : Mem α} {a n : Int}
    (h : choose_pivot m a n = some m1) : m1.cells.Perm m.cells := by
  unfold choose_pivot at h
  obtain ⟨m2, h1, h⟩ := Option.bind_eq_some.mp h
  obtain ⟨m3, h2, h3⟩ := Option.bind_eq_some.mp h
  exact ((swap_if_gt_perm h3).trans (swap_if_gt_perm h2)).trans (swap_if_gt_perm h1)

theorem partition_perm {α : Type} [LinearOrder α] {m m1 : Mem α} {a n k : Int}
    (h : partition m a n = some (k, m1)) : m1.cells.Perm m.cells := by
  simp only [partition] at h
  split at h
  · cases h
  · rename_i m2 h2
    split at h
    · cases h
    · rename_i p m3 h3
      have e3 := load_cells h3
      have := partition_loop_perm _ _ _ _ _ _ _ _ h
      rw [e3] at this
      exact this.trans (choose_pivot_perm h2)

theorem ins_inner_perm {α : Type} [LinearOrder α] (a : Int) :
    ∀ (j : Nat) (m m1 : Mem α), ins_inner a j m = some m1 → m1.cells.Perm m.cells := by
  intro j
  induction j with
  | zero =>
    intro m m1 h
    cases Option.some.inj h
    exact List.Perm.refl _
  | succ j ih =>
    intro m m1 h
    simp only [ins_inner] at h
    split at h
    · cases h
    · rename_i x m2 h2
      have e2 := load_cells h2
      split at h
      · cases h
      · rename_i y m3 h3
        have e3 := load_cells h3
        split at h
        · split at h
          · cases h
          · rename_i m4 h4
            have e4 := swap_perm h4
            rw [e3, e2] at e4
            exact (ih _ _ h).trans e4
        · cases Option.some.inj h
          rw [e3, e2]

theorem ins_outer_perm {α : Type} [LinearOrder α] (a : Int) :
    ∀ (k i : Nat) (m m1 : Mem α), ins_outer a k i m = some m1 → m1.cells.Perm m.cells := by
  intro k
  induction k with
  | zero =>
    intro i m m1 h
    cases Option.some.inj h
    exact List.Perm.refl _
  | succ k ih =>
    intro i m m1 h
    simp only [ins_outer] at h
    split at h
    · cases h
    · rename_i m2 h2
      exact (ih _ _ _ h).trans (ins_inner_perm a _ _ _ h2)

theorem ins_sort_perm {α : Type} [LinearOrder α] {m m1 : Mem α} {a n : Int}
    (h : ins_sort m a n = some m1) : m1.cells.Perm m.cells :=
  ins_outer_perm a _ _ _ _ h

theorem thread_body_perm {α : Type} [LinearOrder α] {THRESHOLD : Int} {N : Nat}
    {m m1 : Mem α} {c c1 : Chan} {t s e : Int}
    (h : thread_body THRESHOLD N m c t s e = some (m1, c1)) : m1.cells.Perm m.cells := by
  unfold thread_body at h
  split at h
  · cases hs : send N c DONE s e with
    | none => simp [hs] at h
    | some c2 =>
      simp only [hs, Option.map_some', Option.some.injEq, Prod.mk.injEq] at h
      rw [← h.1]
  · split at h
    · split at h
      · split at h
        · cases h
        · rename_i m2 h2
          cases hs : send N c DONE s e with
          | none => simp [hs] at h
          | some c2 =>
            simp only [hs, Option.map_some', Option.some.injEq, Prod.mk.injEq] at h
            rw [← h.1]
            exact ins_sort_perm h2
      · split at h
        · cases h
        · rename_i p m2 h2
          cases hs : send N c WORK s (s + p) with
          | none => simp [hs] at h
          | some c2 =>
            simp only [hs, Option.some_bind] at h
            cases hs2 : send N c2 WORK (s + p) e with
            | none => simp [hs2] at h
            | some c3 =>
              simp only [hs2, Option.map_some', Option.some.injEq, Prod.mk.injEq] at h
              rw [← h.1]
              exact partition_perm h2
    · simp only [Option.some.injEq, Prod.mk.injEq] at h
      rw [← h.1]

theorem worker_step_perm {α : Type} [LinearOrder α] {THRESHOLD : Int} {N : Nat}
    {st st1 : Sys α} (h : worker_step THRESHOLD N st = some st1) :
    st1.mem.cells.Perm st.mem.cells := by
  unfold worker_step at h
  split at h
  · cases h
  · split at h
    · cases h
    · rename_i msg c1 hr
      split at h
      · cases hs : send N c1 SHUTDOWN 0 0 with
        | none => simp [hs] at h
        | some c2 =>
          simp only [hs, Option.map_some', Option.some.injEq] at h
          rw [← h]
      · cases hb : thread_body THRESHOLD N st.mem c1 msg.type msg.start msg.end_ with
        | none => simp [hb] at h
        | some r =>
          obtain ⟨m2, c2⟩ := r
          simp only [hb, Option.map_some', Option.some.injEq] at h
          rw [← h]
          exact thread_body_perm hb

theorem main_step_cells {α : Type} {SIZE : Int} {N : Nat} {st st1 : Sys α}
    (h : main_step SIZE N st = some st1) : st1.mem = st.mem := by
  unfold main_step at h
  split at h
  · split at h
    · cases h
    · rename_i msg c1 hr
      split at h
      · simp only [Option.some.injEq] at h
        rw [← h]
      · cases hs : send N c1 msg.type msg.start msg.end_ with
        | none => simp [hs] at h
        | some c2 =>
          simp only [hs, Option.map_some', Option.some.injEq] at h
          rw [← h]
  · cases hs : send N st.chan SHUTDOWN 0 0 with
    | none => simp [hs] at h
    | some c2 =>
      simp only [hs, Option.map_some', Option.some.injEq] at h
      rw [← h]
  · cases h

theorem step_perm {α : Type} [LinearOrder α] {SIZE THRESHOLD : Int} {N : Nat} {l : Label}
    {st st1 : Sys α} (h : step SIZE THRESHOLD N l st = some st1) :
    st1.mem.cells.Perm st.mem.cells := by
  cases l with
  | worker => exact worker_step_perm h
  | coord =>
    have := @main_step_cells α SIZE N st st1 h
    rw [this]


/-! ## Slices -/

theorem slice_length {α : Type} (l : List α) (s e : Int) (hs : 0 ≤ s) (hse : s ≤ e)
    (he : e ≤ l.length) : ((slice l s e).length : Int) = e - s := by
  simp only [slice, List.length_take, List.length_drop]
  omega

theorem cell_slice {α : Type} (l : List α) (s e i : Int) (hs : 0 ≤ s)
    (hi0 : 0 ≤ i) (hi1 : i < e - s) : cell (slice l s e) i = cell l (s + i) := by
  have h1 : i.toNat < (e - s).toNat := by omega
  have h2 : (s + i).toNat = s.toNat + i.toNat := by omega
  simp only [cell, hi0, if_true, slice, show 0 ≤ s + i by omega]
  rw [List.getElem?_take_of_lt h1, List.getElem?_drop, h2]

theorem sortedOn_slice {α : Type} [LinearOrder α] (l : List α) (s e : Int) (hs : 0 ≤ s)
    (hse : s ≤ e) (he : e ≤ l.length) (h : SortedOn l s e) :
    List.Sorted (fun x y => x ≤ y) (slice l s e) := by
  rw [List.Sorted, List.pairwise_iff_getElem]
  intro i j hi hj hij
  have hlen := slice_length l s e hs hse he
  have hci : cell (slice l s e) (i : Int) = some (slice l s e)[i] := by
    simp [cell, List.getElem?_eq_getElem hi]
  have hcj : cell (slice l s e) (j : Int) = some (slice l s e)[j] := by
    simp [cell, List.getElem?_eq_getElem hj]
  rw [cell_slice l s e i hs (by omega) (by omega)] at hci
  rw [cell_slice l s e j hs (by omega) (by omega)] at hcj
  exact h (s + i) (s + j) _ _ (by omega) (by omega) (by omega) hci hcj

theorem take_eq_of_cells {α : Type} (l l1 : List α) (s : Nat) (hlen : l1.length = l.length)
    (h : ∀ k : Int, k < s → cell l1 k = cell l k) : l1.take s = l.take s := by
  apply List.ext_getElem?
  intro i
  by_cases hi : i < s
  · rw [List.getElem?_take_of_lt hi, List.getElem?_take_of_lt hi]
    have := h (i : Int) (by omega)
    simpa [cell] using this
  · rw [List.getElem?_eq_none_iff.mpr, List.getElem?_eq_none_iff.mpr]
    · simp only [List.length_take]; omega
    · simp only [List.length_take]; omega

theorem drop_eq_of_cells {α : Type} (l l1 : List α) (e : Nat)
    (h : ∀ k : Int, (e : Int) ≤ k → cell l1 k = cell l k) : l1.drop e = l.drop e := by
  apply List.ext_getElem?
  intro i
  rw [List.getElem?_drop, List.getElem?_drop]
  have := h ((e + i : Nat) : Int) (by omega)
  simpa [cell] using this

theorem slice_decomp {α : Type} (l : List α) (s e : Int) (hs : 0 ≤ s) (hse : s ≤ e) :
    l = l.take s.toNat ++ (slice l s e ++ l.drop e.toNat) := by
  have h1 : e.toNat = s.toNat + (e - s).toNat := by omega
  rw [slice, h1, ← List.drop_drop, List.take_append_drop, List.take_append_drop]

theorem frame_slice_perm {α : Type} {m m1 : Mem α} {s e : Int} (h : Frame s e m m1)
    (hs : 0 ≤ s) (hse : s ≤ e) :
    (slice m1.cells s e).Perm (slice m.cells s e) := by
  have ht : m1.cells.take s.toNat = m.cells.take s.toNat :=
    take_eq_of_cells _ _ _ h.length_eq (fun k hk => h.outside k (by omega))
  have hd : m1.cells.drop e.toNat = m.cells.drop e.toNat :=
    drop_eq_of_cells _ _ _ (fun k hk => h.outside k (by omega))
  have hp := h.perm
  rw [slice_decomp m1.cells s e hs hse, slice_decomp m.cells s e hs hse, ht, hd] at hp
  exact (List.perm_append_right_iff _).mp ((List.perm_append_left_iff _).mp hp)


/-! ## What a step is made of -/

theorem send_some {N : Nat} {c c1 : Chan} {t s e : Int} (h : send N c t s e = some c1)
    (hwf : c.wf N) :
    c.m_count < N ∧ c1.wf N ∧ c1.contents N = c.contents N ++ [⟨t, s, e⟩] ∧
      c1.m_count = c.m_count + 1 := by
  by_cases hc : c.m_count < N
  · obtain ⟨c2, h2, h3, h4, h5⟩ := send_spec N c t s e hwf hc
    rw [h] at h2
    cases Option.some.inj h2
    exact ⟨hc, h3, h4, h5⟩
  · rw [send_blocked N c t s e (by omega)] at h
    cases h

theorem recv_some {N : Nat} {c c1 : Chan} {msg : Message} (h : recv N c = some (msg, c1))
    (hwf : c.wf N) :
    1 ≤ c.m_count ∧ c1.wf N ∧ c.contents N = msg :: c1.contents N ∧
      c1.m_count + 1 = c.m_count := by
  by_cases hc : 1 ≤ c.m_count
  · obtain ⟨msg2, c2, h2, h3, h4, h5⟩ := recv_spec N c hwf hc
    rw [h] at h2
    cases Option.some.inj h2
    exact ⟨hc, h3, h4, h5⟩
  · rw [recv_blocked N c (by omega)] at h
    cases h

theorem thread_body_cases {α : Type} [LinearOrder α] {THRESHOLD : Int} {N : Nat}
    {m m1 : Mem α} {c c1 : Chan} {t s e : Int}
    (h : thread_body THRESHOLD N m c t s e = some (m1, c1)) :
    (t = DONE ∧ m1 = m ∧ send N c DONE s e = some c1) ∨
    (t = WORK ∧ e - s ≤ THRESHOLD ∧ ins_sort m s (e - s) = some m1 ∧
      send N c DONE s e = some c1) ∨
    (t = WORK ∧ THRESHOLD < e - s ∧ ∃ p c2, partition m s (e - s) = some (p, m1) ∧
      send N c WORK s (s + p) = some c2 ∧ send N c2 WORK (s + p) e = some c1) ∨
    (t ≠ DONE ∧ t ≠ WORK ∧ m1 = m ∧ c1 = c) := by
  unfold thread_body at h
  rw [Int.zero_add] at h
  split at h
  · rename_i ht
    cases hs : send N c DONE s e with
    | none => simp [hs] at h
    | some c2 =>
      simp only [hs, Option.map_some', Option.some.injEq, Prod.mk.injEq] at h
      exact Or.inl ⟨ht, h.1.symm, by rw [h.2]⟩
  · rename_i ht
    split at h
    · rename_i htw
      split at h
      · rename_i hle
        split at h
        · cases h
        · rename_i m2 h2
          cases hs : send N c DONE s e with
          | none => simp [hs] at h
          | some c2 =>
            simp only [hs, Option.map_some', Option.some.injEq, Prod.mk.injEq] at h
            obtain ⟨rfl, rfl⟩ := h
            exact Or.inr (Or.inl ⟨htw, hle, h2, rfl⟩)
      · rename_i hle
        split at h
        · cases h
        · rename_i p m2 h2
          cases hs : send N c WORK s (s + p) with
          | none => simp [hs] at h
          | some c2 =>
            simp only [hs, Option.some_bind] at h
            cases hs2 : send N c2 WORK (s + p) e with
            | none => simp [hs2] at h
            | some c3 =>
              simp only [hs2, Option.map_some', Option.some.injEq, Prod.mk.injEq] at h
              obtain ⟨rfl, rfl⟩ := h
              exact Or.inr (Or.inr (Or.inl ⟨htw, by omega, p, c2, h2, hs, hs2⟩))
    · rename_i htw
      simp only [Option.some.injEq, Prod.mk.injEq] at h
      exact Or.inr (Or.inr (Or.inr ⟨ht, htw, h.1.symm, h.2.symm⟩))

theorem worker_step_cases {α : Type} [LinearOrder α] {THRESHOLD : Int} {N : Nat}
    {st st1 : Sys α} (h : worker_step THRESHOLD N st = some st1) :
    st.running ≠ 0 ∧ ∃ msg c1, recv N st.chan = some (msg, c1) ∧
      ((msg.type = SHUTDOWN ∧ ∃ c2, send N c1 SHUTDOWN 0 0 = some c2 ∧
          st1 = ⟨st.mem, c2, st.count, st.pc, st.running - 1, st.consumed⟩) ∨
       (msg.type ≠ SHUTDOWN ∧ ∃ m2 c2,
          thread_body THRESHOLD N st.mem c1 msg.type msg.start msg.end_ = some (m2, c2) ∧
          st1 = ⟨m2, c2, st.count, st.pc, st.running, st.consumed⟩)) := by
  unfold worker_step at h
  split at h
  · cases h
  · rename_i hrun
    refine ⟨hrun, ?_⟩
    split at h
    · cases h
    · rename_i msg c1 hr
      refine ⟨msg, c1, hr, ?_⟩
      split at h
      · rename_i ht
        cases hs : send N c1 SHUTDOWN 0 0 with
        | none => simp [hs] at h
        | some c2 =>
          simp only [hs, Option.map_some', Option.some.injEq] at h
          exact Or.inl ⟨ht, c2, rfl, h.symm⟩
      · rename_i ht
        cases hb : thread_body THRESHOLD N st.mem c1 msg.type msg.start msg.end_ with
        | none => simp [hb] at h
        | some r =>
          obtain ⟨m2, c2⟩ := r
          simp only [hb, Option.map_some', Option.some.injEq] at h
          exact Or.inr ⟨ht, m2, c2, rfl, h.symm⟩

theorem main_step_cases {α : Type} {SIZE : Int} {N : Nat} {st st1 : Sys α}
    (h : main_step SIZE N st = some st1) :
    (st.pc = Pc.loop ∧ ∃ msg c1, recv N st.chan = some (msg, c1) ∧
      ((msg.type = DONE ∧
          st1 = ⟨st.mem, c1, st.count + (msg.end_ - msg.start),
            if st.count + (msg.end_ - msg.start) = SIZE then Pc.exited else Pc.loop,
            st.running, (msg.start, msg.end_) :: st.consumed⟩) ∨
       (msg.type ≠ DONE ∧ ∃ c2, send N c1 msg.type msg.start msg.end_ = some c2 ∧
          st1 = ⟨st.mem, c2, st.count, st.pc, st.running, st.consumed⟩))) ∨
    (st.pc = Pc.exited ∧ ∃ c1, send N st.chan SHUTDOWN 0 0 = some c1 ∧
      st1 = ⟨st.mem, c1, st.count, Pc.joining, st.running, st.consumed⟩) := by
  unfold main_step at h
  split at h
  · rename_i hpc
    left
    refine ⟨hpc, ?_⟩
    split at h
    · cases h
    · rename_i msg c1 hr
      refine ⟨msg, c1, hr, ?_⟩
      split at h
      · rename_i ht
        simp only [Option.some.injEq] at h
        exact Or.inl ⟨ht, h.symm⟩
      · rename_i ht
        cases hs : send N c1 msg.type msg.start msg.end_ with
        | none => simp [hs] at h
        | some c2 =>
          simp only [hs, Option.map_some', Option.some.injEq] at h
          exact Or.inr ⟨ht, c2, rfl, h.symm⟩
  · rename_i hpc
    right
    refine ⟨hpc, ?_⟩
    cases hs : send N st.chan SHUTDOWN 0 0 with
    | none => simp [hs] at h
    | some c2 =>
      simp only [hs, Option.map_some', Option.some.injEq] at h
      exact ⟨c2, rfl, h.symm⟩
  · cases h

/-! ## Ranges of a queue -/

theorem ranges_of_cons (t : Int) (msg : Message) (q : List Message) :
    ranges_of t (msg :: q) =
      if msg.type = t then (msg.start, msg.end_) :: ranges_of t q else ranges_of t q := by
  unfold ranges_of
  by_cases h : msg.type = t <;> simp [List.filter_cons, h]

theorem ranges_of_append (t : Int) (q1 q2 : List Message) :
    ranges_of t (q1 ++ q2) = ranges_of t q1 ++ ranges_of t q2 := by
  simp [ranges_of]

theorem ranges_of_single (t : Int) (msg : Message) :
    ranges_of t [msg] = if msg.type = t then [(msg.start, msg.end_)] else [] := by
  rw [ranges_of_cons]
  by_cases h : msg.type = t <;> simp [h, ranges_of]

theorem cover_append (R1 R2 : List (Int × Int)) (x : Int) :
    cover (R1 ++ R2) x = cover R1 x + cover R2 x := by
  simp [cover, List.countP_append]

theorem cover_cons (r : Int × Int) (R : List (Int × Int)) (x : Int) :
    cover (r :: R) x = (if r.1 ≤ x ∧ x < r.2 then 1 else 0) + cover R x := by
  simp only [cover, List.countP_cons, decide_eq_true_eq]
  omega

theorem cover_perm {R1 R2 : List (Int × Int)} (h : R1.Perm R2) (x : Int) :
    cover R1 x = cover R2 x :=
  h.countP_eq _

theorem cover_pos {R : List (Int × Int)} {r : Int × Int} {x : Int} (hr : r ∈ R)
    (h1 : r.1 ≤ x) (h2 : x < r.2) : 0 < cover R x :=
  List.countP_pos_iff.mpr ⟨r, hr, by simp [h1, h2]⟩

theorem cover_exists {R : List (Int × Int)} {x : Int} (h : 0 < cover R x) :
    ∃ r ∈ R, r.1 ≤ x ∧ x < r.2 := by
  obtain ⟨r, hr, h1⟩ := List.countP_pos_iff.mp h
  exact ⟨r, hr, by simpa using h1⟩

theorem total_append (R1 R2 : List (Int × Int)) : total (R1 ++ R2) = total R1 + total R2 := by
  simp [total, List.sum_append]

theorem total_cons (r : Int × Int) (R : List (Int × Int)) :
    total (r :: R) = (r.2 - r.1) + total R := by
  simp [total]

theorem total_perm {R1 R2 : List (Int × Int)} (h : R1.Perm R2) : total R1 = total R2 :=
  (h.map _).sum_eq

theorem total_nonneg {R : List (Int × Int)} (h : ∀ r ∈ R, r.1 < r.2) : 0 ≤ total R := by
  induction R with
  | nil => simp [total]
  | cons r R ih =>
    rw [total_cons]
    have := h r (List.mem_cons_self _ _)
    have := ih (fun r1 hr1 => h r1 (List.mem_cons_of_mem _ hr1))
    omega

theorem eq_nil_of_total_le {R : List (Int × Int)} (h : ∀ r ∈ R, r.1 < r.2)
    (ht : total R ≤ 0) : R = [] := by
  cases R with
  | nil => rfl
  | cons r R =>
    rw [total_cons] at ht
    have := h r (List.mem_cons_self _ _)
    have := total_nonneg (fun r1 hr1 => h r1 (List.mem_cons_of_mem _ hr1))
    omega


/-! ## The invariant of the ranges -/

theorem sortedOn_congr {α : Type} [LinearOrder α] {l l1 : List α} {lo hi : Int}
    (h : ∀ k : Int, lo ≤ k → k < hi → cell l1 k = cell l k) (hs : SortedOn l lo hi) :
    SortedOn l1 lo hi := by
  intro u v x y h1 h2 h3 hx hy
  rw [h u h1 (by omega)] at hx
  rw [h v (by omega) h3] at hy
  exact hs u v x y h1 h2 h3 hx hy

theorem cut_frame {α : Type} [LinearOrder α] {m m1 : Mem α} {s e c : Int}
    (hf : Frame s e m m1) (hc : c ≤ s ∨ e ≤ c) (h : Cut m.cells c) : Cut m1.cells c := by
  intro u v x y hu hv hx hy
  obtain ⟨u1, hu1, hx1⟩ : ∃ u1 : Int, u1 < c ∧ cell m.cells u1 = some x := by
    by_cases hin : s ≤ u ∧ u < e
    · obtain ⟨k, h1, h2, h3⟩ := hf.inside u x hin.1 hin.2 hx
      exact ⟨k, by omega, h3⟩
    · rw [hf.outside u (by omega)] at hx
      exact ⟨u, hu, hx⟩
  obtain ⟨v1, hv1, hy1⟩ : ∃ v1 : Int, c ≤ v1 ∧ cell m.cells v1 = some y := by
    by_cases hin : s ≤ v ∧ v < e
    · obtain ⟨k, h1, h2, h3⟩ := hf.inside v y hin.1 hin.2 hy
      exact ⟨k, by omega, h3⟩
    · rw [hf.outside v (by omega)] at hy
      exact ⟨v, hv, hy⟩
  exact h u1 v1 x y hu1 hv1 hx1 hy1

theorem cut_split {α : Type} [LinearOrder α] {m m1 : Mem α} {s e k : Int}
    (hf : Frame s e m m1) (hs : Cut m.cells s) (he : Cut m.cells e)
    (hk : s ≤ k ∧ k ≤ e)
    (hp : ∀ (u v : Int) (x y : α), s ≤ u → u < k → k ≤ v → v < e →
      cell m1.cells u = some x → cell m1.cells v = some y → x ≤ y) :
    Cut m1.cells k := by
  intro u v x y hu hv hx hy
  by_cases hus : u < s
  · exact cut_frame hf (Or.inl (le_refl _)) hs u v x y hus (by omega) hx hy
  · by_cases hve : v < e
    · exact hp u v x y (by omega) hu hv hve hx hy
    · exact cut_frame hf (Or.inr (le_refl _)) he u v x y (by omega) (by omega) hx hy

theorem RInv.perm {α : Type} [LinearOrder α] {SIZE : Int} {l : List α}
    {Rw Rd Rw1 Rd1 : List (Int × Int)} (h : RInv SIZE l Rw Rd) (hw : Rw.Perm Rw1)
    (hd : Rd.Perm Rd1) : RInv SIZE l Rw1 Rd1 := by
  have hall : (Rw ++ Rd).Perm (Rw1 ++ Rd1) := hw.append hd
  refine ⟨?_, ?_, ?_, ?_, ?_⟩
  · intro r hr
    exact h.valid r (hall.mem_iff.mpr hr)
  · intro x h0 h1
    rw [← cover_perm hall x]
    exact h.once x h0 h1
  · rw [← total_perm hall]
    exact h.sum
  · intro r hr
    exact h.sorted r (hd.mem_iff.mpr hr)
  · intro r hr
    exact h.cuts r (hall.mem_iff.mpr hr)

theorem rinv_apart {α : Type} [LinearOrder α] {SIZE : Int} {l : List α} {r : Int × Int}
    {Rw Rd : List (Int × Int)} (h : RInv SIZE l (r :: Rw) Rd) :
    ∀ r1 ∈ Rw ++ Rd, Apart r r1 := by
  intro r1 hr1
  by_contra hcon
  unfold Apart at hcon
  have hv := h.valid r (by simp)
  have hv1 := h.valid r1 (by simp only [List.cons_append, List.mem_cons]; exact Or.inr hr1)
  obtain ⟨x, hx1, hx2, hx3, hx4⟩ : ∃ x : Int, r.1 ≤ x ∧ x < r.2 ∧ r1.1 ≤ x ∧ x < r1.2 :=
    ⟨max r.1 r1.1, by omega, by omega, by omega, by omega⟩
  have hone := h.once x (by omega) (by omega)
  rw [List.cons_append, cover_cons, if_pos ⟨hx1, hx2⟩] at hone
  have := cover_pos hr1 hx3 hx4
  omega

theorem rinv_leaf {α : Type} [LinearOrder α] {SIZE : Int} {m m1 : Mem α} {s e : Int}
    {Rw Rd : List (Int × Int)} (h : RInv SIZE m.cells ((s, e) :: Rw) Rd)
    (hf : Frame s e m m1) (hs : SortedOn m1.cells s e) :
    RInv SIZE m1.cells Rw ((s, e) :: Rd) := by
  have hap := rinv_apart h
  have hall : (((s, e) :: Rw) ++ Rd).Perm (Rw ++ ((s, e) :: Rd)) := by
    simp only [List.cons_append]
    exact List.perm_middle.symm
  refine ⟨?_, ?_, ?_, ?_, ?_⟩
  · intro r hr
    exact h.valid r (hall.mem_iff.mpr hr)
  · intro x h0 h1
    rw [← cover_perm hall x]
    exact h.once x h0 h1
  · rw [← total_perm hall]
    exact h.sum
  · intro r hr
    rcases List.mem_cons.mp hr with rfl | hr
    · exact hs
    · have := hap r (List.mem_append_right _ hr)
      unfold Apart at this
      simp only [] at this
      exact sortedOn_congr (fun k h1 h2 => hf.outside k (by omega)) (h.sorted r hr)
  · intro r hr
    have hr0 := hall.mem_iff.mpr hr
    have hc := h.cuts r hr0
    have hv := h.valid r hr0
    have hin : r = (s, e) ∨ r ∈ Rw ++ Rd := by
      simpa using hr0
    rcases hin with rfl | hin
    · exact ⟨cut_frame hf (Or.inl (le_refl _)) hc.1, cut_frame hf (Or.inr (le_refl _)) hc.2⟩
    · have := hap r hin
      unfold Apart at this
      simp only [] at this
      exact ⟨cut_frame hf (by omega) hc.1, cut_frame hf (by omega) hc.2⟩

theorem rinv_split {α : Type} [LinearOrder α] {SIZE : Int} {m m1 : Mem α} {s e k : Int}
    {Rw Rd : List (Int × Int)} (h : RInv SIZE m.cells ((s, e) :: Rw) Rd)
    (hf : Frame s e m m1) (hk : s < k ∧ k < e)
    (hp : ∀ (u v : Int) (x y : α), s ≤ u → u < k → k ≤ v → v < e →
      cell m1.cells u = some x → cell m1.cells v = some y → x ≤ y) :
    RInv SIZE m1.cells ((s, k) :: (k, e) :: Rw) Rd := by
  have hap := rinv_apart h
  have hv0 := h.valid (s, e) (by simp)
  have hc0 := h.cuts (s, e) (by simp)
  simp only [] at hv0 hc0
  refine ⟨?_, ?_, ?_, ?_, ?_⟩
  · intro r hr
    simp only [List.cons_append, List.mem_cons] at hr
    rcases hr with rfl | rfl | hr
    · simp only []; omega
    · simp only []; omega
    · exact h.valid r (by simp only [List.cons_append, List.mem_cons]; exact Or.inr hr)
  · intro x h0 h1
    have := h.once x h0 h1
    simp only [List.cons_append, cover_cons] at this ⊢
    by_cases hx : s ≤ x ∧ x < e
    · rw [if_pos hx] at this
      by_cases hxk : x < k
      · rw [if_pos ⟨hx.1, hxk⟩, if_neg (by omega)]; omega
      · rw [if_neg (by omega), if_pos ⟨by omega, hx.2⟩]; omega
    · rw [if_neg hx] at this
      rw [if_neg (by omega), if_neg (by omega)]; omega
  · have := h.sum
    simp only [List.cons_append, total_cons] at this ⊢
    omega
  · intro r hr
    have := hap r (List.mem_append_right _ hr)
    unfold Apart at this
    simp only [] at this
    exact sortedOn_congr (fun k h1 h2 => hf.outside k (by omega)) (h.sorted r hr)
  · intro r hr
    simp only [List.cons_append, List.mem_cons] at hr
    have hks : Cut m1.cells k := cut_split hf hc0.1 hc0.2 ⟨by omega, by omega⟩ hp
    rcases hr with rfl | rfl | hr
    · exact ⟨cut_frame hf (Or.inl (le_refl _)) hc0.1, hks⟩
    · exact ⟨hks, cut_frame hf (Or.inr (le_refl _)) hc0.2⟩
    · have hc := h.cuts r (by simp only [List.cons_append, List.mem_cons]; exact Or.inr hr)
      have := hap r hr
      unfold Apart at this
      simp only [] at this
      have hv := h.valid r (by simp only [List.cons_append, List.mem_cons]; exact Or.inr hr)
      exact ⟨cut_frame hf (by omega) hc.1, cut_frame hf (by omega) hc.2⟩

theorem rinv_boot {α : Type} [LinearOrder α] (SIZE : Int) (l : List α) (hS : 1 ≤ SIZE)
    (hlen : (l.length : Int) = SIZE) : RInv SIZE l [(0, SIZE)] [] := by
  refine ⟨?_, ?_, ?_, ?_, ?_⟩
  · intro r hr
    simp only [List.append_nil, List.mem_singleton] at hr
    subst hr
    simp only []; omega
  · intro x h0 h1
    simp [cover, h0, h1]
  · simp [total]
  · intro r hr
    cases hr
  · intro r hr
    simp only [List.append_nil, List.mem_singleton] at hr
    subst hr
    constructor
    · intro u v x y hu hv hx hy
      rw [cell_eq_none_of_neg l u hu] at hx
      cases hx
    · intro u v x y hu hv hx hy
      rw [cell_eq_none_of_ge l v (by omega)] at hy
      cases hy

theorem rinv_adjacent {α : Type} [LinearOrder α] {SIZE : Int} {l : List α}
    {Rd : List (Int × Int)} (h : RInv SIZE l [] Rd) (hlen : (l.length : Int) = SIZE)
    (i : Int) (h0 : 0 ≤ i) (h1 : i < SIZE - 1) :
    ∃ x y, cell l i = some x ∧ cell l (i + 1) = some y ∧ x ≤ y := by
  obtain ⟨x, hx⟩ := cell_of_lt l i h0 (by omega)
  obtain ⟨y, hy⟩ := cell_of_lt l (i + 1) (by omega) (by omega)
  refine ⟨x, y, hx, hy, ?_⟩
  have hone := h.once (i + 1) (by omega) (by omega)
  obtain ⟨r, hr, hr1, hr2⟩ := cover_exists (by omega : 0 < cover ([] ++ Rd) (i + 1))
  by_cases hri : r.1 ≤ i
  · exact h.sorted r (by simpa using hr) i (i + 1) x y hri (by omega) hr2 hx hy
  · have hc := (h.cuts r hr).1
    exact hc i (i + 1) x y (by omega) hr1 hx hy


/-! ## The invariant of the program -/

theorem ranges_of_rotate (t : Int) (msg : Message) (q : List Message) :
    (ranges_of t (msg :: q)).Perm (ranges_of t (q ++ [msg])) := by
  rw [ranges_of_append, ranges_of_single, ranges_of_cons]
  by_cases h : msg.type = t
  · simp only [h, if_true]
    exact (List.perm_append_singleton _ _).symm
  · simp [h]

theorem ranges_of_snoc_ne (t : Int) (q : List Message) (t1 s e : Int) (h : t1 ≠ t) :
    ranges_of t (q ++ [⟨t1, s, e⟩]) = ranges_of t q := by
  rw [ranges_of_append, ranges_of_single]
  simp [h]

theorem ranges_of_snoc_eq (t : Int) (q : List Message) (s e : Int) :
    ranges_of t (q ++ [⟨t, s, e⟩]) = ranges_of t q ++ [(s, e)] := by
  rw [ranges_of_append, ranges_of_single]
  simp

theorem ranges_of_cons_ne (t : Int) (q : List Message) (msg : Message) (h : msg.type ≠ t) :
    ranges_of t (msg :: q) = ranges_of t q := by
  rw [ranges_of_cons, if_neg h]

theorem ranges_of_cons_eq (t : Int) (q : List Message) (msg : Message) (h : msg.type = t) :
    ranges_of t (msg :: q) = (msg.start, msg.end_) :: ranges_of t q := by
  rw [ranges_of_cons, if_pos h]

theorem inv_boot {α : Type} [LinearOrder α] (SIZE : Int) (N THREADS : Nat) (a0 : List α)
    (hS : 1 ≤ SIZE) (hlen : (a0.length : Int) = SIZE) (st : Sys α)
    (h : boot SIZE N THREADS a0 = some st) : Inv SIZE N a0 st := by
  unfold boot at h
  cases hs : send N (Chan.init N) WORK 0 SIZE with
  | none => simp [hs] at h
  | some c =>
    simp only [hs, Option.map_some', Option.some.injEq] at h
    subst h
    obtain ⟨-, hwf, hc, -⟩ := send_some hs (wf_init N)
    rw [contents_init, List.nil_append] at hc
    refine ⟨hwf, hlen, List.Perm.refl _, ?_, by simp [total], ?_⟩
    · simp only [Sys.done, hc, ranges_of_single]
      simp only [WORK, DONE]
      simpa using rinv_boot SIZE a0 hS hlen
    · simp only [true_iff]
      omega

theorem inv_worker_step {α : Type} [LinearOrder α] (SIZE THRESHOLD : Int) (N : Nat)
    (a0 : List α) (hT : 1 ≤ THRESHOLD) (st st1 : Sys α) (hinv : Inv SIZE N a0 st)
    (h : worker_step THRESHOLD N st = some st1) : Inv SIZE N a0 st1 := by
  have hperm := worker_step_perm h
  obtain ⟨-, msg, c1, hr, hcase⟩ := worker_step_cases h
  obtain ⟨-, hwf1, hq, -⟩ := recv_some hr hinv.wf
  have hri := hinv.rinv
  simp only [Sys.done, hq] at hri
  have hlen1 : (st1.mem.cells.length : Int) = SIZE := by
    rw [hperm.length_eq]; exact hinv.length_eq
  rcases hcase with ⟨ht, c2, hs, rfl⟩ | ⟨ht, m2, c2, hb, rfl⟩
  · -- SHUTDOWN is passed on
    obtain ⟨-, hwf2, hq2, -⟩ := send_some hs hwf1
    refine ⟨hwf2, hinv.length_eq, hinv.perm, ?_, hinv.count_eq, hinv.pc_loop⟩
    simp only [Sys.done, hq2]
    rw [ranges_of_snoc_ne _ _ _ _ _ (by decide), ranges_of_snoc_ne _ _ _ _ _ (by decide)]
    rw [ranges_of_cons_ne _ _ _ (by rw [ht]; decide),
      ranges_of_cons_ne _ _ _ (by rw [ht]; decide)] at hri
    exact hri
  · rcases thread_body_cases hb with ⟨htd, rfl, hs⟩ | ⟨htw, hle, hins, hs⟩ |
      ⟨htw, hgt, p, c3, hpart, hs1, hs2⟩ | ⟨htd, htw, rfl, rfl⟩
    · -- DONE is forwarded
      obtain ⟨-, hwf2, hq2, -⟩ := send_some hs hwf1
      refine ⟨hwf2, hinv.length_eq, hinv.perm, ?_, hinv.count_eq, hinv.pc_loop⟩
      simp only [Sys.done, hq2]
      rw [ranges_of_snoc_ne _ _ _ _ _ (by decide), ranges_of_snoc_eq]
      rw [ranges_of_cons_ne _ _ _ (by rw [htd]; decide),
        ranges_of_cons_eq _ _ _ htd] at hri
      refine hri.perm (List.Perm.refl _) ?_
      rw [List.append_assoc]
      exact List.perm_middle.symm
    · -- a leaf
      obtain ⟨-, hwf2, hq2, -⟩ := send_some hs hwf1
      rw [ranges_of_cons_eq _ _ _ htw,
        ranges_of_cons_ne _ _ _ (by rw [htw]; decide)] at hri
      have hv := hri.valid (msg.start, msg.end_) (by simp)
      simp only [] at hv
      obtain ⟨m3, hm3, hf, hso⟩ := ins_sort_spec st.mem msg.start (msg.end_ - msg.start)
        hv.1 (by omega) (by have := hinv.length_eq; omega)
      rw [hins] at hm3
      cases Option.some.inj hm3
      have e : msg.start + (msg.end_ - msg.start) = msg.end_ := by omega
      rw [e] at hf hso
      refine ⟨hwf2, hlen1, hperm.trans hinv.perm, ?_, hinv.count_eq, hinv.pc_loop⟩
      simp only [Sys.done, hq2]
      rw [ranges_of_snoc_ne _ _ _ _ _ (by decide), ranges_of_snoc_eq]
      refine (rinv_leaf hri hf hso).perm (List.Perm.refl _) ?_
      rw [List.append_assoc]
      exact List.perm_middle.symm
    · -- a split
      obtain ⟨-, hwf3, hq3, -⟩ := send_some hs1 hwf1
      obtain ⟨-, hwf2, hq2, -⟩ := send_some hs2 hwf3
      rw [ranges_of_cons_eq _ _ _ htw,
        ranges_of_cons_ne _ _ _ (by rw [htw]; decide)] at hri
      have hv := hri.valid (msg.start, msg.end_) (by simp)
      simp only [] at hv
      obtain ⟨k, m3, hm3, hf, hk1, hk2, hpp⟩ := partition_spec st.mem msg.start
        (msg.end_ - msg.start) hv.1 (by omega) (by have := hinv.length_eq; omega)
      rw [hpart] at hm3
      cases Option.some.inj hm3
      have e : msg.start + (msg.end_ - msg.start) = msg.end_ := by omega
      rw [e] at hf
      refine ⟨hwf2, hlen1, hperm.trans hinv.perm, ?_, hinv.count_eq, hinv.pc_loop⟩
      simp only [Sys.done, hq2, hq3]
      rw [ranges_of_snoc_eq, ranges_of_snoc_eq, ranges_of_snoc_ne _ _ _ _ _ (by decide),
        ranges_of_snoc_ne _ _ _ _ _ (by decide)]
      have hsp := rinv_split (k := msg.start + p) hri hf (by omega) (by
        intro u v x y h1 h2 h3 h4 hx hy
        have := hpp (u - msg.start) (v - msg.start) x y (by omega) (by omega) (by omega)
          (by omega) (by
            have e1 : msg.start + (u - msg.start) = u := by omega
            rw [e1]; exact hx) (by
            have e1 : msg.start + (v - msg.start) = v := by omega
            rw [e1]; exact hy)
        exact this)
      refine hsp.perm ?_ (List.Perm.refl _)
      rw [List.append_assoc]
      simp only [List.singleton_append]
      exact @List.perm_append_comm _ [(msg.start, msg.start + p), (msg.start + p, msg.end_)] _
    · -- a message of another type is dropped
      refine ⟨hwf1, hinv.length_eq, hinv.perm, ?_, hinv.count_eq, hinv.pc_loop⟩
      simp only [Sys.done]
      rw [ranges_of_cons_ne _ _ _ htw, ranges_of_cons_ne _ _ _ htd] at hri
      exact hri

theorem inv_main_step {α : Type} [LinearOrder α] (SIZE : Int) (N : Nat)
    (a0 : List α) (st st1 : Sys α) (hinv : Inv SIZE N a0 st)
    (h : main_step SIZE N st = some st1) : Inv SIZE N a0 st1 := by
  rcases main_step_cases h with ⟨hpc, msg, c1, hr, hcase⟩ | ⟨hpc, c1, hs, rfl⟩
  · obtain ⟨-, hwf1, hq, -⟩ := recv_some hr hinv.wf
    have hri := hinv.rinv
    simp only [Sys.done, hq] at hri
    rcases hcase with ⟨ht, rfl⟩ | ⟨ht, c2, hs, rfl⟩
    · -- a DONE message is counted
      refine ⟨hwf1, hinv.length_eq, hinv.perm, ?_, ?_, ?_⟩
      · simp only [Sys.done]
        rw [ranges_of_cons_ne _ _ _ (by rw [ht]; decide), ranges_of_cons_eq _ _ _ ht] at hri
        refine hri.perm (List.Perm.refl _) ?_
        exact List.perm_middle.symm
      · simp only [total_cons]
        have := hinv.count_eq
        omega
      · simp only []
        split <;> simp_all
    · -- another message is forwarded
      obtain ⟨-, hwf2, hq2, -⟩ := send_some hs hwf1
      refine ⟨hwf2, hinv.length_eq, hinv.perm, ?_, hinv.count_eq, hinv.pc_loop⟩
      simp only [Sys.done, hq2]
      have e : (⟨msg.type, msg.start, msg.end_⟩ : Message) = msg := rfl
      rw [e]
      refine hri.perm (ranges_of_rotate _ _ _) ?_
      exact (ranges_of_rotate _ _ _).append_right _
  · -- SHUTDOWN is sent
    obtain ⟨-, hwf2, hq2, -⟩ := send_some hs hinv.wf
    have hcnt : st.count = SIZE := by
      by_contra hne
      have := hinv.pc_loop.mpr hne
      rw [hpc] at this
      cases this
    refine ⟨hwf2, hinv.length_eq, hinv.perm, ?_, hinv.count_eq, ?_⟩
    · simp only [Sys.done, hq2]
      rw [ranges_of_snoc_ne _ _ _ _ _ (by decide), ranges_of_snoc_ne _ _ _ _ _ (by decide)]
      exact hinv.rinv
    · simp only []
      constructor
      · intro h1; cases h1
      · intro h1; exact absurd hcnt h1

theorem inv_reachable {α : Type} [LinearOrder α] (SIZE THRESHOLD : Int) (N THREADS : Nat)
    (a0 : List α) (hS : 1 ≤ SIZE) (hT : 1 ≤ THRESHOLD) (hlen : (a0.length : Int) = SIZE)
    (st : Sys α) (h : Reachable SIZE THRESHOLD N THREADS a0 st) : Inv SIZE N a0 st := by
  induction h with
  | boot st hb => exact inv_boot SIZE N THREADS a0 hS hlen st hb
  | step l st st1 _ hstep ih =>
    cases l with
    | worker => exact inv_worker_step SIZE THRESHOLD N a0 hT st st1 ih hstep
    | coord => exact inv_main_step SIZE N a0 st st1 ih hstep


/-! ## Consequences of the invariant -/

theorem pairwise_apart_of_cover (SIZE : Int) :
    ∀ R : List (Int × Int), (∀ r ∈ R, 0 ≤ r.1 ∧ r.1 < r.2 ∧ r.2 ≤ SIZE) →
      (∀ x : Int, 0 ≤ x → x < SIZE → cover R x ≤ 1) → List.Pairwise Apart R := by
  intro R
  induction R with
  | nil => intro _ _; exact List.Pairwise.nil
  | cons r R ih =>
    intro hv hc
    refine List.Pairwise.cons ?_ (ih (fun r1 hr1 => hv r1 (List.mem_cons_of_mem _ hr1)) ?_)
    · intro r1 hr1
      by_contra hcon
      unfold Apart at hcon
      have h0 := hv r (List.mem_cons_self _ _)
      have h1 := hv r1 (List.mem_cons_of_mem _ hr1)
      obtain ⟨x, hx1, hx2, hx3, hx4⟩ : ∃ x : Int, r.1 ≤ x ∧ x < r.2 ∧ r1.1 ≤ x ∧ x < r1.2 :=
        ⟨max r.1 r1.1, by omega, by omega, by omega, by omega⟩
      have hone := hc x (by omega) (by omega)
      rw [cover_cons, if_pos ⟨hx1, hx2⟩] at hone
      have := cover_pos hr1 hx3 hx4
      omega
    · intro x h0 h1
      have := hc x h0 h1
      rw [cover_cons] at this
      omega

theorem pairwise_apart_sublist {R1 R2 : List (Int × Int)} (h : List.Pairwise Apart (R1 ++ R2)) :
    List.Pairwise Apart R1 :=
  (List.pairwise_append.mp h).1

theorem sortedOn_of_adjacent {α : Type} [LinearOrder α] (l : List α) (lo hi : Int)
    (hlo : 0 ≤ lo) (hhi : hi ≤ l.length)
    (h : ∀ i : Int, lo ≤ i → i + 1 < hi →
      ∃ x y, cell l i = some x ∧ cell l (i + 1) = some y ∧ x ≤ y) :
    SortedOn l lo hi := by
  have key : ∀ (d : Nat) (u : Int) (x y : α), lo ≤ u → u + d < hi →
      cell l u = some x → cell l (u + d) = some y → x ≤ y := by
    intro d
    induction d with
    | zero =>
      intro u x y _ _ hx hy
      simp only [Nat.cast_zero, add_zero] at hy
      rw [hx] at hy
      exact le_of_eq (Option.some.inj hy)
    | succ d ih =>
      intro u x y h1 h2 hx hy
      obtain ⟨z, hz⟩ := cell_of_lt l (u + d) (by omega) (by omega)
      have hxz := ih u x z h1 (by omega) hx hz
      obtain ⟨z1, y1, hz1, hy1, hzy⟩ := h (u + d) (by omega) (by omega)
      rw [hz] at hz1
      cases Option.some.inj hz1
      have e : u + ((d + 1 : Nat) : Int) = u + d + 1 := by push_cast; omega
      rw [e, hy1] at hy
      cases Option.some.inj hy
      exact le_trans hxz hzy
  intro u v x y h1 h2 h3 hx hy
  have e : v = u + ((v - u).toNat : Int) := by omega
  rw [e] at hy
  exact key (v - u).toNat u x y h1 (by omega) hx hy

theorem slice_all {α : Type} (l : List α) : slice l 0 l.length = l := by
  simp [slice]

theorem sorted_of_adjacent {α : Type} [LinearOrder α] (l : List α)
    (h : ∀ i : Int, 0 ≤ i → i + 1 < l.length →
      ∃ x y, cell l i = some x ∧ cell l (i + 1) = some y ∧ x ≤ y) :
    List.Sorted (fun x y => x ≤ y) l := by
  have := sortedOn_slice l 0 l.length (le_refl _) (by omega) (le_refl _)
    (sortedOn_of_adjacent l 0 l.length (le_refl _) (le_refl _) h)
  rw [slice_all] at this
  exact this

theorem reachable_of_run {α : Type} [LinearOrder α] (SIZE THRESHOLD : Int) (N THREADS : Nat)
    (a0 : List α) :
    ∀ (ls : List Label) (st st1 : Sys α), Reachable SIZE THRESHOLD N THREADS a0 st →
      run SIZE THRESHOLD N ls st = some st1 → Reachable SIZE THRESHOLD N THREADS a0 st1 := by
  intro ls
  induction ls with
  | nil =>
    intro st st1 hr h
    cases Option.some.inj h
    exact hr
  | cons l ls ih =>
    intro st st1 hr h
    simp only [run] at h
    split at h
    · cases h
    · rename_i st2 h2
      exact ih st2 st1 (Reachable.step l st st2 hr h2) h

theorem reachable_of_boot_run {α : Type} [LinearOrder α] (SIZE THRESHOLD : Int)
    (N THREADS : Nat) (a0 : List α) (ls : List Label) (st : Sys α)
    (h : (boot SIZE N THREADS a0).bind (run SIZE THRESHOLD N ls) = some st) :
    Reachable SIZE THRESHOLD N THREADS a0 st := by
  obtain ⟨st0, h0, h1⟩ := Option.bind_eq_some.mp h
  exact reachable_of_run SIZE THRESHOLD N THREADS a0 ls st0 st (Reachable.boot st0 h0) h1

theorem count_stable {α : Type} [LinearOrder α] (SIZE THRESHOLD : Int) (N : Nat)
    (a0 : List α) (st st1 : Sys α) (hinv : Inv SIZE N a0 st) (l : Label)
    (h : step SIZE THRESHOLD N l st = some st1) (hc : st.count = SIZE) :
    st1.count = SIZE := by
  cases l with
  | worker =>
    obtain ⟨-, msg, c1, -, hcase⟩ := worker_step_cases h
    rcases hcase with ⟨-, c2, -, rfl⟩ | ⟨-, m2, c2, -, rfl⟩ <;> exact hc
  | coord =>
    rcases main_step_cases h with ⟨hpc, -⟩ | ⟨-, c1, -, rfl⟩
    · exact absurd hc (hinv.pc_loop.mp hpc)
    · exact hc

theorem inv_step {α : Type} [LinearOrder α] (SIZE THRESHOLD : Int) (N : Nat)
    (a0 : List α) (hT : 1 ≤ THRESHOLD) (st st1 : Sys α) (hinv : Inv SIZE N a0 st) (l : Label)
    (h : step SIZE THRESHOLD N l st = some st1) : Inv SIZE N a0 st1 := by
  cases l with
  | worker => exact inv_worker_step SIZE THRESHOLD N a0 hT st st1 hinv h
  | coord => exact inv_main_step SIZE N a0 st st1 hinv h

theorem arrivals_eq {α : Type} [LinearOrder α] (SIZE THRESHOLD : Int) (N : Nat)
    (a0 : List α) (hT : 1 ≤ THRESHOLD) :
    ∀ (ls : List Label) (st st1 : Sys α), Inv SIZE N a0 st →
      run SIZE THRESHOLD N ls st = some st1 →
      arrivals SIZE THRESHOLD N ls st = (if st.count ≠ SIZE ∧ st1.count = SIZE then 1 else 0) ∧
      (st.count = SIZE → st1.count = SIZE) := by
  intro ls
  induction ls with
  | nil =>
    intro st st1 _ h
    cases Option.some.inj h
    refine ⟨?_, fun h => h⟩
    simp only [arrivals]
    rw [if_neg]
    intro hc
    exact hc.1 hc.2
  | cons l ls ih =>
    intro st st1 hinv h
    simp only [run] at h
    split at h
    · cases h
    · rename_i st2 h2
      have hinv2 := inv_step SIZE THRESHOLD N a0 hT st st2 hinv l h2
      obtain ⟨ih1, ih2⟩ := ih st2 st1 hinv2 h
      have hst := count_stable SIZE THRESHOLD N a0 st st2 hinv l h2
      refine ⟨?_, fun hc => ih2 (hst hc)⟩
      simp only [arrivals, h2, ih1]
      by_cases c0 : st.count = SIZE
      · have c2 := hst c0
        have c1 := ih2 c2
        simp [c0, c2, c1]
      · by_cases c2 : st2.count = SIZE
        · have c1 := ih2 c2
          simp [c0, c2, c1]
        · simp [c0, c2]


/-! ## The end of the sort -/

theorem ranges_of_eq_nil (t : Int) (q : List Message) :
    ranges_of t q = [] ↔ ∀ msg ∈ q, msg.type ≠ t := by
  simp [ranges_of, List.filter_eq_nil_iff]

theorem inv_count_le {α : Type} [LinearOrder α] {SIZE : Int} {N : Nat} {a0 : List α}
    {st : Sys α} (hinv : Inv SIZE N a0 st) :
    0 ≤ st.count ∧ st.count ≤ SIZE ∧
      (st.count = SIZE ↔
        ranges_of WORK (st.chan.contents N) = [] ∧ ranges_of DONE (st.chan.contents N) = []) := by
  have hri := hinv.rinv
  have hsum := hri.sum
  simp only [Sys.done, total_append] at hsum
  have hvw : ∀ r ∈ ranges_of WORK (st.chan.contents N), r.1 < r.2 := fun r hr =>
    (hri.valid r (List.mem_append_left _ hr)).2.1
  have hvd : ∀ r ∈ ranges_of DONE (st.chan.contents N), r.1 < r.2 := fun r hr =>
    (hri.valid r (List.mem_append_right _ (List.mem_append_left _ hr))).2.1
  have hvc : ∀ r ∈ st.consumed, r.1 < r.2 := fun r hr =>
    (hri.valid r (List.mem_append_right _ (List.mem_append_right _ hr))).2.1
  have h1 := total_nonneg hvw
  have h2 := total_nonneg hvd
  have h3 := total_nonneg hvc
  have hc := hinv.count_eq
  refine ⟨by omega, by omega, ?_, ?_⟩
  · intro h
    exact ⟨eq_nil_of_total_le hvw (by omega), eq_nil_of_total_le hvd (by omega)⟩
  · rintro ⟨hw, hd⟩
    rw [hw, hd] at hsum
    have e : total ([] : List (Int × Int)) = 0 := rfl
    rw [e] at hsum
    omega

/-! ## The two ways a worker handles a WORK message -/

theorem thread_body_work_leaf {α : Type} [LinearOrder α] (THRESHOLD : Int) (N : Nat)
    (m : Mem α) (c : Chan) (s e : Int) (hle : e - s ≤ THRESHOLD) :
    thread_body THRESHOLD N m c WORK s e =
      (ins_sort m s (e - s)).bind fun m1 => (send N c DONE s e).map fun c1 => (m1, c1) := by
  unfold thread_body
  rw [Int.zero_add, if_neg (by decide), if_pos rfl, if_pos hle]
  cases ins_sort m s (e - s) <;> rfl

theorem thread_body_work_split {α : Type} [LinearOrder α] (THRESHOLD : Int) (N : Nat)
    (m : Mem α) (c : Chan) (s e : Int) (hgt : THRESHOLD < e - s) :
    thread_body THRESHOLD N m c WORK s e =
      (partition m s (e - s)).bind fun r =>
        (send N c WORK s (s + r.1)).bind fun c1 =>
        (send N c1 WORK (s + r.1) e).map fun c2 => (r.2, c2) := by
  unfold thread_body
  rw [Int.zero_add, if_neg (by decide), if_pos rfl, if_neg (by omega)]
  cases partition m s (e - s) <;> rfl


/-! ## Progress: steps neither fault nor wait on a full queue -/

theorem length_le_total {R : List (Int × Int)} (h : ∀ r ∈ R, r.1 < r.2) :
    (R.length : Int) ≤ total R := by
  induction R with
  | nil => simp [total]
  | cons r R ih =>
    rw [total_cons]
    have := h r (List.mem_cons_self _ _)
    have := ih (fun r1 hr1 => h r1 (List.mem_cons_of_mem _ hr1))
    simp only [List.length_cons, Nat.cast_add, Nat.cast_one]
    omega

theorem others_cons (msg : Message) (q : List Message) :
    others (msg :: q) =
      if msg.type = WORK ∨ msg.type = DONE then others q else msg :: others q := by
  unfold others
  by_cases h : msg.type = WORK ∨ msg.type = DONE
  · rw [if_pos h, List.filter_cons, if_neg (by simp only [decide_eq_true_eq, not_not]; exact h)]
  · rw [if_neg h, List.filter_cons, if_pos (by simp only [decide_eq_true_eq]; exact h)]

theorem others_snoc (q : List Message) (t s e : Int) :
    others (q ++ [⟨t, s, e⟩]) =
      if t = WORK ∨ t = DONE then others q else others q ++ [⟨t, s, e⟩] := by
  unfold others
  by_cases h : t = WORK ∨ t = DONE
  · rw [if_pos h, List.filter_append, List.filter_cons, if_neg (by simp only [decide_eq_true_eq, not_not]; exact h)]
    simp
  · rw [if_neg h, List.filter_append, List.filter_cons, if_pos (by simp only [decide_eq_true_eq]; exact h)]
    simp

theorem length_split (q : List Message) :
    q.length = (ranges_of WORK q).length + (ranges_of DONE q).length + (others q).length := by
  induction q with
  | nil => simp [ranges_of, others]
  | cons msg q ih =>
    rw [ranges_of_cons, ranges_of_cons, others_cons]
    by_cases hw : msg.type = WORK
    · have hd : ¬ msg.type = DONE := by rw [hw]; decide
      rw [if_pos hw, if_neg hd, if_pos (Or.inl hw)]
      simp only [List.length_cons]
      omega
    · by_cases hd : msg.type = DONE
      · rw [if_neg hw, if_pos hd, if_pos (Or.inr hd)]
        simp only [List.length_cons]
        omega
      · rw [if_neg hw, if_neg hd, if_neg (by rintro (h | h); exact hw h; exact hd h)]
        simp only [List.length_cons]
        omega

theorem contents_nil_of_exited {α : Type} [LinearOrder α] {SIZE : Int} {N THREADS : Nat}
    {a0 : List α} {st : Sys α} (hinv : Inv SIZE N a0 st) (hq : QInv N THREADS st)
    (hpc : st.pc = Pc.exited) : st.chan.contents N = [] := by
  have hc : st.count = SIZE := by
    by_contra hne
    have := hinv.pc_loop.mpr hne
    rw [hpc] at this
    cases this
  obtain ⟨hw, hd⟩ := (inv_count_le hinv).2.2.mp hc
  have ho := (hq.before (by rw [hpc]; decide)).1
  apply List.eq_nil_of_length_eq_zero
  rw [length_split, hw, hd, ho]
  rfl

theorem qinv_boot {α : Type} (SIZE : Int) (N THREADS : Nat) (a0 : List α) (st : Sys α)
    (h : boot SIZE N THREADS a0 = some st) : QInv N THREADS st := by
  unfold boot at h
  cases hs : send N (Chan.init N) WORK 0 SIZE with
  | none => simp [hs] at h
  | some c =>
    simp only [hs, Option.map_some', Option.some.injEq] at h
    subst h
    obtain ⟨-, -, hc, -⟩ := send_some hs (wf_init N)
    rw [contents_init, List.nil_append] at hc
    refine ⟨fun _ => ⟨?_, rfl⟩, fun h => by cases h⟩
    simp only [hc]
    rw [others_cons, if_pos (Or.inl rfl)]
    rfl

theorem qinv_worker_step {α : Type} [LinearOrder α] (SIZE THRESHOLD : Int) (N THREADS : Nat)
    (a0 : List α) (st st1 : Sys α) (hinv : Inv SIZE N a0 st) (hq : QInv N THREADS st)
    (h : worker_step THRESHOLD N st = some st1) : QInv N THREADS st1 := by
  obtain ⟨-, msg, c1, hr, hcase⟩ := worker_step_cases h
  obtain ⟨-, hwf1, hc, -⟩ := recv_some hr hinv.wf
  have hbefore := hq.before
  have hafter := hq.after
  rw [hc] at hbefore hafter
  rcases hcase with ⟨ht, c2, hs, rfl⟩ | ⟨ht, m2, c2, hb, rfl⟩
  · -- SHUTDOWN is passed on: the main thread has sent it
    obtain ⟨-, -, hc2, -⟩ := send_some hs hwf1
    have hj : st.pc = Pc.joining := by
      by_contra hne
      have := (hbefore hne).1
      rw [others_cons, if_neg (by rw [ht]; decide)] at this
      cases this
    obtain ⟨hlen, -⟩ := hafter hj
    have hnil : c1.contents N = [] := by
      apply List.eq_nil_of_length_eq_zero
      simp only [List.length_cons] at hlen
      omega
    refine ⟨fun hne => absurd hj hne, fun _ => ?_⟩
    simp only [hc2, hnil, List.nil_append, List.length_singleton, le_refl, List.mem_singleton,
      true_and]
    intro msg1 hm
    exact hm
  · have hnj : st.pc ≠ Pc.joining := by
      intro hj
      have := (hafter hj).2 msg (List.mem_cons_self _ _)
      rw [this] at ht
      exact ht rfl
    obtain ⟨ho, hrun⟩ := hbefore hnj
    refine ⟨fun _ => ⟨?_, hrun⟩, fun hj => absurd hj hnj⟩
    have hmsg : msg.type = WORK ∨ msg.type = DONE := by
      by_contra hcon
      rw [others_cons, if_neg hcon] at ho
      cases ho
    rw [others_cons, if_pos hmsg] at ho
    rcases thread_body_cases hb with ⟨-, -, hs⟩ | ⟨-, -, -, hs⟩ |
      ⟨-, -, p, c3, -, hs1, hs2⟩ | ⟨htd, htw, -, -⟩
    · obtain ⟨-, -, hc2, -⟩ := send_some hs hwf1
      simp only [hc2]
      rw [others_snoc, if_pos (Or.inr rfl)]
      exact ho
    · obtain ⟨-, -, hc2, -⟩ := send_some hs hwf1
      simp only [hc2]
      rw [others_snoc, if_pos (Or.inr rfl)]
      exact ho
    · obtain ⟨-, hwf3, hc3, -⟩ := send_some hs1 hwf1
      obtain ⟨-, -, hc2, -⟩ := send_some hs2 hwf3
      simp only [hc2, hc3]
      rw [others_snoc, if_pos (Or.inl rfl), others_snoc, if_pos (Or.inl rfl)]
      exact ho
    · rcases hmsg with h1 | h1
      · exact absurd h1 htw
      · exact absurd h1 htd

theorem qinv_main_step {α : Type} [LinearOrder α] (SIZE : Int) (N THREADS : Nat)
    (a0 : List α) (st st1 : Sys α) (hinv : Inv SIZE N a0 st) (hq : QInv N THREADS st)
    (h : main_step SIZE N st = some st1) : QInv N THREADS st1 := by
  rcases main_step_cases h with ⟨hpc, msg, c1, hr, hcase⟩ | ⟨hpc, c1, hs, rfl⟩
  · obtain ⟨-, hwf1, hc, -⟩ := recv_some hr hinv.wf
    obtain ⟨ho, hrun⟩ := hq.before (by rw [hpc]; decide)
    rw [hc] at ho
    have hmsg : msg.type = WORK ∨ msg.type = DONE := by
      by_contra hcon
      rw [others_cons, if_neg hcon] at ho
      cases ho
    rw [others_cons, if_pos hmsg] at ho
    rcases hcase with ⟨ht, rfl⟩ | ⟨ht, c2, hs, rfl⟩
    · refine ⟨fun _ => ⟨ho, hrun⟩, fun hj => ?_⟩
      simp only [] at hj
      split at hj <;> cases hj
    · obtain ⟨-, -, hc2, -⟩ := send_some hs hwf1
      refine ⟨fun _ => ⟨?_, hrun⟩, fun hj => ?_⟩
      · simp only [hc2]
        rw [others_snoc, if_pos hmsg]
        exact ho
      · simp only [] at hj
        rw [hpc] at hj
        cases hj
  · obtain ⟨-, -, hc2, -⟩ := send_some hs hinv.wf
    have hnil := contents_nil_of_exited hinv hq hpc
    refine ⟨fun hne => absurd rfl hne, fun _ => ?_⟩
    simp only [hc2, hnil, List.nil_append, List.length_singleton, le_refl, List.mem_singleton,
      true_and]
    intro msg1 hm
    exact hm

theorem inv_qinv_reachable {α : Type} [LinearOrder α] (SIZE THRESHOLD : Int) (N THREADS : Nat)
    (a0 : List α) (hS : 1 ≤ SIZE) (hT : 1 ≤ THRESHOLD) (hlen : (a0.length : Int) = SIZE)
    (st : Sys α) (h : Reachable SIZE THRESHOLD N THREADS a0 st) :
    Inv SIZE N a0 st ∧ QInv N THREADS st := by
  induction h with
  | boot st hb =>
    exact ⟨inv_boot SIZE N THREADS a0 hS hlen st hb, qinv_boot SIZE N THREADS a0 st hb⟩
  | step l st st1 _ hstep ih =>
    refine ⟨inv_step SIZE THRESHOLD N a0 hT st st1 ih.1 l hstep, ?_⟩
    cases l with
    | worker => exact qinv_worker_step SIZE THRESHOLD N THREADS a0 st st1 ih.1 ih.2 hstep
    | coord => exact qinv_main_step SIZE N THREADS a0 st st1 ih.1 ih.2 hstep


theorem m_count_le {α : Type} [LinearOrder α] {SIZE : Int} {N THREADS : Nat} {a0 : List α}
    {st : Sys α} (hS : 1 ≤ SIZE) (hinv : Inv SIZE N a0 st) (hq : QInv N THREADS st) :
    (st.chan.m_count : Int) ≤ SIZE := by
  rw [← contents_length N st.chan]
  by_cases hj : st.pc = Pc.joining
  · have := (hq.after hj).1
    omega
  · have ho := (hq.before hj).1
    have hri := hinv.rinv
    have hsum := hri.sum
    simp only [Sys.done, total_append] at hsum
    have hvw : ∀ r ∈ ranges_of WORK (st.chan.contents N), r.1 < r.2 := fun r hr =>
      (hri.valid r (List.mem_append_left _ hr)).2.1
    have hvd : ∀ r ∈ ranges_of DONE (st.chan.contents N), r.1 < r.2 := fun r hr =>
      (hri.valid r (List.mem_append_right _ (List.mem_append_left _ hr))).2.1
    have hvc : ∀ r ∈ st.consumed, r.1 < r.2 := fun r hr =>
      (hri.valid r (List.mem_append_right _ (List.mem_append_right _ hr))).2.1
    have h1 := length_le_total hvw
    have h2 := length_le_total hvd
    have h3 := total_nonneg hvc
    rw [length_split, ho]
    simp only [List.length_nil, Nat.add_zero, Nat.cast_add]
    omega

theorem thread_body_progress {α : Type} [LinearOrder α] (SIZE THRESHOLD : Int) (N : Nat)
    (hT : 1 ≤ THRESHOLD) (m : Mem α) (c : Chan) (t s e : Int)
    (hlen : (m.cells.length : Int) = SIZE) (hwf : c.wf N) (hroom : c.m_count + 2 ≤ N)
    (hv : t = WORK → 0 ≤ s ∧ s < e ∧ e ≤ SIZE) :
    ∃ r, thread_body THRESHOLD N m c t s e = some r := by
  by_cases htd : t = DONE
  · obtain ⟨c1, hc1, -⟩ := send_spec N c DONE s e hwf (by omega)
    exact ⟨(m, c1), by simp [thread_body, htd, hc1]⟩
  · by_cases htw : t = WORK
    · obtain ⟨h0, h1, h2⟩ := hv htw
      subst htw
      by_cases hle : e - s ≤ THRESHOLD
      · obtain ⟨m1, hm1, -⟩ := ins_sort_spec m s (e - s) h0 (by omega) (by omega)
        obtain ⟨c1, hc1, -⟩ := send_spec N c DONE s e hwf (by omega)
        refine ⟨(m1, c1), ?_⟩
        rw [thread_body_work_leaf THRESHOLD N m c s e hle, hm1]
        simp only [Option.some_bind, hc1, Option.map_some']
      · obtain ⟨p, m1, hm1, -⟩ := partition_spec m s (e - s) h0 (by omega) (by omega)
        obtain ⟨c1, hc1, hwf1, -, hcnt⟩ := send_spec N c WORK s (s + p) hwf (by omega)
        obtain ⟨c2, hc2, -⟩ := send_spec N c1 WORK (s + p) e hwf1 (by omega)
        refine ⟨(m1, c2), ?_⟩
        rw [thread_body_work_split THRESHOLD N m c s e (by omega), hm1]
        simp only [hc1, Option.some_bind, hc2, Option.map_some']
    · exact ⟨(m, c), by simp [thread_body, htd, htw]⟩

theorem head_work_valid {α : Type} [LinearOrder α] {SIZE : Int} {N : Nat} {a0 : List α}
    {st : Sys α} (hinv : Inv SIZE N a0 st) {msg : Message} {q : List Message}
    (hc : st.chan.contents N = msg :: q) (ht : msg.type = WORK) :
    0 ≤ msg.start ∧ msg.start < msg.end_ ∧ msg.end_ ≤ SIZE := by
  have hri := hinv.rinv
  rw [hc, ranges_of_cons_eq _ _ _ ht] at hri
  exact hri.valid (msg.start, msg.end_) (by simp)

theorem worker_progress {α : Type} [LinearOrder α] (SIZE THRESHOLD : Int) (N THREADS : Nat)
    (a0 : List α) (hS : 1 ≤ SIZE) (hT : 1 ≤ THRESHOLD) (hN : SIZE + 1 ≤ N) (st : Sys α)
    (hinv : Inv SIZE N a0 st) (hq : QInv N THREADS st)
    (hne : st.chan.contents N ≠ []) (hrun : st.running ≠ 0) :
    ∃ st1, worker_step THRESHOLD N st = some st1 := by
  have hcnt := m_count_le hS hinv hq
  have hpos : 1 ≤ st.chan.m_count := by
    rw [← contents_length N st.chan]
    cases h : st.chan.contents N with
    | nil => exact absurd h hne
    | cons x xs => simp
  obtain ⟨msg, c1, hr, hwf1, hc, hm⟩ := recv_spec N st.chan hinv.wf hpos
  by_cases ht : msg.type = SHUTDOWN
  · obtain ⟨c2, hc2, -⟩ := send_spec N c1 SHUTDOWN 0 0 hwf1 (by omega)
    rw [← Option.isSome_iff_exists]
    simp [worker_step, hrun, hr, ht, hc2]
  · obtain ⟨r, hb⟩ := thread_body_progress SIZE THRESHOLD N hT st.mem c1 msg.type msg.start
      msg.end_ hinv.length_eq hwf1 (by omega) (fun htw => head_work_valid hinv hc htw)
    rw [← Option.isSome_iff_exists]
    simp [worker_step, hrun, hr, ht, hb]

theorem main_progress {α : Type} [LinearOrder α] (SIZE : Int) (N THREADS : Nat)
    (a0 : List α) (hS : 1 ≤ SIZE) (hN : SIZE + 1 ≤ N) (st : Sys α)
    (hinv : Inv SIZE N a0 st) (hq : QInv N THREADS st) :
    (st.chan.contents N ≠ [] → st.pc = Pc.loop → ∃ st1, main_step SIZE N st = some st1) ∧
    (st.pc = Pc.exited → ∃ st1, main_step SIZE N st = some st1) := by
  have hcnt := m_count_le hS hinv hq
  constructor
  · intro hne hpc
    have hpos : 1 ≤ st.chan.m_count := by
      rw [← contents_length N st.chan]
      cases h : st.chan.contents N with
      | nil => exact absurd h hne
      | cons x xs => simp
    obtain ⟨msg, c1, hr, hwf1, hc, hm⟩ := recv_spec N st.chan hinv.wf hpos
    by_cases ht : msg.type = DONE
    · rw [← Option.isSome_iff_exists]
      simp [main_step, hpc, hr, ht]
    · obtain ⟨c2, hc2, -⟩ := send_spec N c1 msg.type msg.start msg.end_ hwf1 (by omega)
      rw [← Option.isSome_iff_exists]
      simp [main_step, hpc, hr, ht, hc2]
  · intro hpc
    obtain ⟨c2, hc2, -⟩ := send_spec N st.chan SHUTDOWN 0 0 hinv.wf (by omega)
    rw [← Option.isSome_iff_exists]
    simp [main_step, hpc, hc2]


/-! ## Every reachable state can complete the sort -/

theorem work_left_cons (msg : Message) (q : List Message) :
    work_left (msg :: q) = weight msg + work_left q := by
  simp [work_left]

theorem work_left_snoc (q : List Message) (msg : Message) :
    work_left (q ++ [msg]) = work_left q + weight msg := by
  simp [work_left]

theorem scheduled_step {α : Type} [LinearOrder α] (SIZE THRESHOLD : Int) (N THREADS : Nat)
    (a0 : List α) (hS : 1 ≤ SIZE) (hT : 1 ≤ THRESHOLD) (hN : SIZE + 1 ≤ N)
    (hW : 1 ≤ THREADS) (st : Sys α) (hinv : Inv SIZE N a0 st) (hq : QInv N THREADS st)
    (hpc : st.pc = Pc.loop) :
    ∃ l st1, step SIZE THRESHOLD N l st = some st1 ∧
      work_left (st1.chan.contents N) < work_left (st.chan.contents N) := by
  obtain ⟨ho, hrun⟩ := hq.before (by rw [hpc]; decide)
  have hcount : st.count ≠ SIZE := hinv.pc_loop.mp hpc
  have hne : st.chan.contents N ≠ [] := by
    intro hnil
    apply hcount
    apply (inv_count_le hinv).2.2.mpr
    rw [hnil]
    exact ⟨rfl, rfl⟩
  have hpos : 1 ≤ st.chan.m_count := by
    rw [← contents_length N st.chan]
    cases h : st.chan.contents N with
    | nil => exact absurd h hne
    | cons x xs => simp
  obtain ⟨msg, c1, hr, hwf1, hc, -⟩ := recv_spec N st.chan hinv.wf hpos
  rw [hc, others_cons] at ho
  have hmsg : msg.type = WORK ∨ msg.type = DONE := by
    by_contra hcon
    rw [if_neg hcon] at ho
    cases ho
  rcases hmsg with htw | htd
  · -- a worker takes the WORK message
    obtain ⟨st1, hst1⟩ := worker_progress SIZE THRESHOLD N THREADS a0 hS hT hN st hinv hq hne
      (by omega)
    refine ⟨Label.worker, st1, hst1, ?_⟩
    obtain ⟨h0, h1, h2⟩ := head_work_valid hinv hc htw
    obtain ⟨-, msg1, c2, hr1, hcase⟩ := worker_step_cases hst1
    rw [hr] at hr1
    cases Option.some.inj hr1
    rw [hc, work_left_cons]
    have hwm : weight msg = 3 * (msg.end_ - msg.start).toNat - 1 := by
      simp [weight, htw]
    rcases hcase with ⟨ht, -⟩ | ⟨-, m2, c3, hb, rfl⟩
    · rw [htw] at ht
      exact absurd ht (by decide)
    · rcases thread_body_cases hb with ⟨htd, -, -⟩ | ⟨-, -, -, hs⟩ |
        ⟨-, hgt, p, c4, hpart, hs1, hs2⟩ | ⟨-, hnw, -, -⟩
      · rw [htw] at htd
        exact absurd htd (by decide)
      · obtain ⟨-, -, hc3, -⟩ := send_some hs hwf1
        simp only [hc3, work_left_snoc]
        have : weight ⟨DONE, msg.start, msg.end_⟩ = 1 := by simp [weight, DONE, WORK]
        rw [this, hwm]
        omega
      · obtain ⟨-, hwf4, hc4, -⟩ := send_some hs1 hwf1
        obtain ⟨-, -, hc3, -⟩ := send_some hs2 hwf4
        obtain ⟨k, m3, hm3, -, hk1, hk2, -⟩ := partition_spec st.mem msg.start
          (msg.end_ - msg.start) h0 (by omega) (by have := hinv.length_eq; omega)
        rw [hpart] at hm3
        cases Option.some.inj hm3
        simp only [hc3, hc4, work_left_snoc]
        have e1 : weight ⟨WORK, msg.start, msg.start + p⟩ =
            3 * (msg.start + p - msg.start).toNat - 1 := by simp [weight]
        have e2 : weight ⟨WORK, msg.start + p, msg.end_⟩ =
            3 * (msg.end_ - (msg.start + p)).toNat - 1 := by simp [weight]
        rw [e1, e2, hwm]
        omega
      · exact absurd htw hnw
  · -- the main thread counts the DONE message
    obtain ⟨st1, hst1⟩ := (main_progress SIZE N THREADS a0 hS hN st hinv hq).1 hne hpc
    refine ⟨Label.coord, st1, hst1, ?_⟩
    rcases main_step_cases hst1 with ⟨-, msg1, c2, hr1, hcase⟩ | ⟨hex, -⟩
    · rw [hr] at hr1
      cases Option.some.inj hr1
      rw [hc, work_left_cons]
      have hwm : weight msg = 1 := by
        have hnw : ¬ msg.type = WORK := by rw [htd]; decide
        unfold weight
        rw [if_neg hnw, if_pos htd]
      rcases hcase with ⟨-, rfl⟩ | ⟨hnd, -⟩
      · simp only [hwm]
        omega
      · exact absurd htd hnd
    · rw [hpc] at hex
      cases hex

theorem can_complete_aux {α : Type} [LinearOrder α] (SIZE THRESHOLD : Int) (N THREADS : Nat)
    (a0 : List α) (hS : 1 ≤ SIZE) (hT : 1 ≤ THRESHOLD) (hN : SIZE + 1 ≤ N)
    (hW : 1 ≤ THREADS) :
    ∀ (n : Nat) (st : Sys α), Inv SIZE N a0 st → QInv N THREADS st →
      work_left (st.chan.contents N) ≤ n →
      ∃ ls st1, run SIZE THRESHOLD N ls st = some st1 ∧ st1.pc ≠ Pc.loop := by
  intro n
  induction n with
  | zero =>
    intro st hinv hq hle
    by_cases hpc : st.pc = Pc.loop
    · obtain ⟨l, st1, -, hlt⟩ :=
        scheduled_step SIZE THRESHOLD N THREADS a0 hS hT hN hW st hinv hq hpc
      omega
    · exact ⟨[], st, rfl, hpc⟩
  | succ n ih =>
    intro st hinv hq hle
    by_cases hpc : st.pc = Pc.loop
    · obtain ⟨l, st1, hstep, hlt⟩ :=
        scheduled_step SIZE THRESHOLD N THREADS a0 hS hT hN hW st hinv hq hpc
      have hinv1 := inv_step SIZE THRESHOLD N a0 hT st st1 hinv l hstep
      have hq1 : QInv N THREADS st1 := by
        cases l with
        | worker => exact qinv_worker_step SIZE THRESHOLD N THREADS a0 st st1 hinv hq hstep
        | coord => exact qinv_main_step SIZE N THREADS a0 st st1 hinv hq hstep
      obtain ⟨ls, st2, hrun, hpc2⟩ := ih st1 hinv1 hq1 (by omega)
      exact ⟨l :: ls, st2, by simp only [run, hstep]; exact hrun, hpc2⟩
    · exact ⟨[], st, rfl, hpc⟩

theorem can_complete {α : Type} [LinearOrder α] (SIZE THRESHOLD : Int) (N THREADS : Nat)
    (a0 : List α) (hS : 1 ≤ SIZE) (hT : 1 ≤ THRESHOLD) (hlen : (a0.length : Int) = SIZE)
    (hN : SIZE + 1 ≤ N) (hW : 1 ≤ THREADS) (st : Sys α)
    (hr : Reachable SIZE THRESHOLD N THREADS a0 st) :
    ∃ ls st1, run SIZE THRESHOLD N ls st = some st1 ∧ st1.pc ≠ Pc.loop ∧ st1.count = SIZE := by
  obtain ⟨hinv, hq⟩ := inv_qinv_reachable SIZE THRESHOLD N THREADS a0 hS hT hlen st hr
  obtain ⟨ls, st1, hrun, hpc⟩ := can_complete_aux SIZE THRESHOLD N THREADS a0 hS hT hN hW
    (work_left (st.chan.contents N)) st hinv hq (le_refl _)
  have hr1 := reachable_of_run SIZE THRESHOLD N THREADS a0 ls st st1 hr hrun
  have hinv1 := inv_reachable SIZE THRESHOLD N THREADS a0 hS hT hlen st1 hr1
  refine ⟨ls, st1, hrun, hpc, ?_⟩
  by_contra hne
  exact hpc (hinv1.pc_loop.mpr hne)

/-- The constants of the source satisfy what the theorems ask of `SIZE`,
`THRESHOLD`, `N` and `THREADS`. -/
theorem source_constants :
    1 ≤ SIZE_c ∧ 1 ≤ THRESHOLD_c ∧ SIZE_c + 1 ≤ (N_c : Int) ∧ 1 ≤ THREADS_c := by
  decide


/-- C1. Sortedness of the whole sort.  For every array `a0` of length `SIZE`
(`SIZE ≥ 1` and `THRESHOLD ≥ 1`, as the source's 100 and 10 are) and every
interleaving of worker and main-thread message-handling steps from the queue
that holds only `WORK(0, SIZE)`: once the main thread has left its loop,
`count == SIZE` and `a[i] ≤ a[i+1]` for every `0 ≤ i < SIZE-1`, that is, the
array is sorted. -/
theorem sort_sorted {α : Type} [LinearOrder α] (SIZE THRESHOLD : Int) (N THREADS : Nat)
    (a0 : List α) (hS : 1 ≤ SIZE) (hT : 1 ≤ THRESHOLD) (hlen : (a0.length : Int) = SIZE)
    (st : Sys α) (hr : Reachable SIZE THRESHOLD N THREADS a0 st) (hpc : st.pc ≠ Pc.loop) :
    st.count = SIZE ∧
    (∀ i : Int, 0 ≤ i → i < SIZE - 1 →
      ∃ x y, cell st.mem.cells i = some x ∧ cell st.mem.cells (i + 1) = some y ∧ x ≤ y) ∧
    List.Sorted (fun x y => x ≤ y) st.mem.cells := by
  have hinv := inv_reachable SIZE THRESHOLD N THREADS a0 hS hT hlen st hr
  have hc : st.count = SIZE := by
    by_contra hne
    exact hpc (hinv.pc_loop.mpr hne)
  obtain ⟨hw, hd⟩ := (inv_count_le hinv).2.2.mp hc
  have hri := hinv.rinv
  rw [hw] at hri
  have hadj := rinv_adjacent hri hinv.length_eq
  refine ⟨hc, hadj, sorted_of_adjacent _ ?_⟩
  intro i h0 h1
  exact hadj i h0 (by have := hinv.length_eq; omega)

/-- Witness of C1: the run of the example ends sorted. -/
theorem sort_sorted_witness :
    demo_final.count = 6 ∧
    (∀ i : Int, 0 ≤ i → i < 6 - 1 →
      ∃ x y, cell demo_final.mem.cells i = some x ∧
        cell demo_final.mem.cells (i + 1) = some y ∧ x ≤ y) ∧
    List.Sorted (fun x y => x ≤ y) demo_final.mem.cells :=
  sort_sorted 6 3 4 2 demo_array (by decide) (by decide) (by decide) demo_final
    (reachable_of_boot_run 6 3 4 2 demo_array demo_labels demo_final (by decide)) (by decide)

/-- C2. Conservation.  Every run of `ins_sort` and of `partition`, hence every
message-handling step of a worker, leaves the array a permutation of what it
was; so in every reachable state, and in particular after the sort completes,
the array is a permutation of the initial array and has the same multiset of
values. -/
theorem conservation {α : Type} [LinearOrder α] (SIZE THRESHOLD : Int) (N THREADS : Nat)
    (a0 : List α) :
    (∀ (m m1 : Mem α) (a n : Int), ins_sort m a n = some m1 → m1.cells.Perm m.cells) ∧
    (∀ (m m1 : Mem α) (a n k : Int), partition m a n = some (k, m1) →
      m1.cells.Perm m.cells) ∧
    (∀ (l : Label) (st st1 : Sys α), step SIZE THRESHOLD N l st = some st1 →
      st1.mem.cells.Perm st.mem.cells) ∧
    (∀ st : Sys α, Reachable SIZE THRESHOLD N THREADS a0 st →
      st.mem.cells.Perm a0 ∧ (st.mem.cells : Multiset α) = (a0 : Multiset α)) := by
  refine ⟨fun m m1 a n h => ins_sort_perm h, fun m m1 a n k h => partition_perm h,
    fun l st st1 h => step_perm h, ?_⟩
  have key : ∀ st : Sys α, Reachable SIZE THRESHOLD N THREADS a0 st → st.mem.cells.Perm a0 := by
    intro st hr
    induction hr with
    | boot st hb =>
      unfold boot at hb
      cases hs : send N (Chan.init N) WORK 0 SIZE with
      | none => simp [hs] at hb
      | some c =>
        simp only [hs, Option.map_some', Option.some.injEq] at hb
        subst hb
        exact List.Perm.refl _
    | step l st st1 _ hstep ih => exact (step_perm hstep).trans ih
  intro st hr
  exact ⟨key st hr, Multiset.coe_eq_coe.mpr (key st hr)⟩

/-- Witness of C2: the final array of the example is a permutation of its
initial array. -/
theorem conservation_witness :
    demo_final.mem.cells.Perm demo_array ∧
      (demo_final.mem.cells : Multiset Int) = (demo_array : Multiset Int) :=
  (conservation 6 3 4 2 demo_array).2.2.2 demo_final
    (reachable_of_boot_run 6 3 4 2 demo_array demo_labels demo_final (by decide))

/-- C3. Partition correctness.  For every array and every range of it of
length `n ≥ 3` that starts at the pointer `a`, `partition(a, n)` returns an
index `k` with `1 ≤ k ≤ n-1`, so that `[0,k)` and `[k,n)` are non-empty, and
in the array it leaves every element of `[0,k)` is at most every element of
`[k,n)`. -/
theorem partition_correct {α : Type} [LinearOrder α] (m : Mem α) (a n : Int) (ha : 0 ≤ a)
    (hn : 3 ≤ n) (hlen : a + n ≤ m.cells.length) :
    ∃ k m1, partition m a n = some (k, m1) ∧ 1 ≤ k ∧ k ≤ n - 1 ∧
      m1.cells.length = m.cells.length ∧
      ∀ (u v : Int), 0 ≤ u → u < k → k ≤ v → v < n →
        ∃ x y, cell m1.cells (a + u) = some x ∧ cell m1.cells (a + v) = some y ∧ x ≤ y := by
  obtain ⟨k, m1, h1, hf, h2, h3, h4⟩ := partition_spec m a n ha (by omega) hlen
  refine ⟨k, m1, h1, h2, h3, hf.length_eq, ?_⟩
  intro u v hu0 hu1 hv0 hv1
  have hl := hf.length_eq
  obtain ⟨x, hx⟩ := cell_of_lt m1.cells (a + u) (by omega) (by omega)
  obtain ⟨y, hy⟩ := cell_of_lt m1.cells (a + v) (by omega) (by omega)
  exact ⟨x, y, hx, hy, h4 u v x y hu0 hu1 hv0 hv1 hx hy⟩

/-- Witness of C3: `partition` on the six elements of the example. -/
theorem partition_correct_witness :
    ∃ k m1, partition (⟨demo_array, []⟩ : Mem Int) 0 6 = some (k, m1) ∧ 1 ≤ k ∧ k ≤ 6 - 1 ∧
      m1.cells.length = demo_array.length ∧
      ∀ (u v : Int), 0 ≤ u → u < k → k ≤ v → v < 6 →
        ∃ x y, cell m1.cells (0 + u) = some x ∧ cell m1.cells (0 + v) = some y ∧ x ≤ y :=
  partition_correct ⟨demo_array, []⟩ 0 6 (by decide) (by decide) (by decide)

/-- C4. Insertion sort sorts.  For every array and every range of it of length
`n ≥ 0` that starts at the pointer `a`, `ins_sort(a, n)` returns, and after it
`a[i] ≤ a[i+1]` for all `0 ≤ i < n-1`; hence the whole range is sorted. -/
theorem ins_sort_sorts {α : Type} [LinearOrder α] (m : Mem α) (a n : Int) (ha : 0 ≤ a)
    (hn : 0 ≤ n) (hlen : a + n ≤ m.cells.length) :
    ∃ m1, ins_sort m a n = some m1 ∧
      (∀ i : Int, 0 ≤ i → i < n - 1 →
        ∃ x y, cell m1.cells (a + i) = some x ∧ cell m1.cells (a + i + 1) = some y ∧ x ≤ y) ∧
      List.Sorted (fun x y => x ≤ y) (slice m1.cells a (a + n)) := by
  obtain ⟨m1, h1, hf, hs⟩ := ins_sort_spec m a n ha hn hlen
  have hl := hf.length_eq
  refine ⟨m1, h1, ?_, sortedOn_slice m1.cells a (a + n) ha (by omega) (by omega) hs⟩
  intro i h0 h2
  obtain ⟨x, hx⟩ := cell_of_lt m1.cells (a + i) (by omega) (by omega)
  obtain ⟨y, hy⟩ := cell_of_lt m1.cells (a + i + 1) (by omega) (by omega)
  exact ⟨x, y, hx, hy, hs (a + i) (a + i + 1) x y (by omega) (by omega) (by omega) hx hy⟩

/-- Witness of C4: `ins_sort` on the six elements of the example. -/
theorem ins_sort_sorts_witness :
    ∃ m1, ins_sort (⟨demo_array, []⟩ : Mem Int) 0 6 = some m1 ∧
      (∀ i : Int, 0 ≤ i → i < 6 - 1 →
        ∃ x y, cell m1.cells (0 + i) = some x ∧ cell m1.cells (0 + i + 1) = some y ∧ x ≤ y) ∧
      List.Sorted (fun x y => x ≤ y) (slice m1.cells 0 (0 + 6)) :=
  ins_sort_sorts ⟨demo_array, []⟩ 0 6 (by decide) (by decide) (by decide)


/-- C5. Disjointness invariant.  In every state reachable from the queue that
holds only `WORK(0, SIZE)` (with `SIZE ≥ 1`) the ranges of the `WORK` messages
in flight are pairwise disjoint, as are all the ranges of the state (those in
flight and those reported `DONE`, queued or counted); every index of
`[0, SIZE)` is in exactly one range of the state; and every range `[s, e)` of
the state satisfies `0 ≤ s < e ≤ SIZE`. -/
theorem disjointness_invariant {α : Type} [LinearOrder α] (SIZE THRESHOLD : Int)
    (N THREADS : Nat) (a0 : List α) (hS : 1 ≤ SIZE) (hT : 1 ≤ THRESHOLD)
    (hlen : (a0.length : Int) = SIZE) (st : Sys α)
    (hr : Reachable SIZE THRESHOLD N THREADS a0 st) :
    List.Pairwise Apart (ranges_of WORK (st.chan.contents N)) ∧
    List.Pairwise Apart (st.ranges N) ∧
    (∀ x : Int, 0 ≤ x → x < SIZE → cover (st.ranges N) x = 1) ∧
    (∀ r ∈ st.ranges N, 0 ≤ r.1 ∧ r.1 < r.2 ∧ r.2 ≤ SIZE) := by
  have hinv := inv_reachable SIZE THRESHOLD N THREADS a0 hS hT hlen st hr
  have hri := hinv.rinv
  have hp : List.Pairwise Apart (st.ranges N) :=
    pairwise_apart_of_cover SIZE _ hri.valid (fun x h0 h1 => le_of_eq (hri.once x h0 h1))
  exact ⟨pairwise_apart_sublist hp, hp, hri.once, hri.valid⟩

/-- Witness of C5: the state of the example with `DONE(0,2)`, `WORK(2,4)` and
`WORK(4,6)` in the queue. -/
theorem disjointness_invariant_witness :
    List.Pairwise Apart (ranges_of WORK (demo_mid.chan.contents 4)) ∧
    List.Pairwise Apart (demo_mid.ranges 4) ∧
    (∀ x : Int, 0 ≤ x → x < 6 → cover (demo_mid.ranges 4) x = 1) ∧
    (∀ r ∈ demo_mid.ranges 4, 0 ≤ r.1 ∧ r.1 < r.2 ∧ r.2 ≤ 6) :=
  disjointness_invariant 6 3 4 2 demo_array (by decide) (by decide) (by decide) demo_mid
    (reachable_of_boot_run 6 3 4 2 demo_array [Label.worker, Label.worker, Label.worker]
      demo_mid (by decide))

/-- C6. Completion counter.  In every reachable state `count` is the sum of the
lengths `e - s` of the `DONE` messages the main thread has consumed and
`0 ≤ count ≤ SIZE`; `count == SIZE` holds exactly when the queue holds no
`WORK` and no `DONE` message, and exactly when the main thread has left its
loop; from then on `count` stays `SIZE`, so that in every run the number of
steps at which `count` becomes `SIZE` is one if the run ends with
`count == SIZE` and zero otherwise; and with at least one worker and a queue
of more than `SIZE` slots every reachable state has a continuation that
reaches `count == SIZE`. -/
theorem completion_counter {α : Type} [LinearOrder α] (SIZE THRESHOLD : Int)
    (N THREADS : Nat) (a0 : List α) (hS : 1 ≤ SIZE) (hT : 1 ≤ THRESHOLD)
    (hlen : (a0.length : Int) = SIZE) (st : Sys α)
    (hr : Reachable SIZE THRESHOLD N THREADS a0 st) :
    st.count = total st.consumed ∧ 0 ≤ st.count ∧ st.count ≤ SIZE ∧
    (st.count = SIZE ↔ ∀ msg ∈ st.chan.contents N, msg.type ≠ WORK ∧ msg.type ≠ DONE) ∧
    (st.count = SIZE ↔ st.pc ≠ Pc.loop) ∧
    (∀ (ls : List Label) (st1 : Sys α), run SIZE THRESHOLD N ls st = some st1 →
      (st.count = SIZE → st1.count = SIZE) ∧
      arrivals SIZE THRESHOLD N ls st =
        (if st.count ≠ SIZE ∧ st1.count = SIZE then 1 else 0)) ∧
    (∀ (st0 : Sys α) (ls : List Label) (st1 : Sys α), boot SIZE N THREADS a0 = some st0 →
      run SIZE THRESHOLD N ls st0 = some st1 →
      arrivals SIZE THRESHOLD N ls st0 = (if st1.count = SIZE then 1 else 0)) ∧
    (1 ≤ THREADS → SIZE + 1 ≤ (N : Int) →
      ∃ ls st1, run SIZE THRESHOLD N ls st = some st1 ∧ st1.count = SIZE) := by
  have hinv := inv_reachable SIZE THRESHOLD N THREADS a0 hS hT hlen st hr
  obtain ⟨h0, h1, h2⟩ := inv_count_le hinv
  refine ⟨hinv.count_eq, h0, h1, ?_, ?_, ?_, ?_, ?_⟩
  · rw [h2, ranges_of_eq_nil, ranges_of_eq_nil]
    constructor
    · rintro ⟨hw, hd⟩ msg hmsg
      exact ⟨hw msg hmsg, hd msg hmsg⟩
    · intro h
      exact ⟨fun msg hmsg => (h msg hmsg).1, fun msg hmsg => (h msg hmsg).2⟩
  · constructor
    · intro hc hpc
      exact hinv.pc_loop.mp hpc hc
    · intro hpc
      by_contra hne
      exact hpc (hinv.pc_loop.mpr hne)
  · intro ls st1 hrun
    obtain ⟨ha, hb⟩ := arrivals_eq SIZE THRESHOLD N a0 hT ls st st1 hinv hrun
    exact ⟨hb, ha⟩
  · intro st0 ls st1 hb hrun
    have hinv0 := inv_boot SIZE N THREADS a0 hS hlen st0 hb
    obtain ⟨ha, -⟩ := arrivals_eq SIZE THRESHOLD N a0 hT ls st0 st1 hinv0 hrun
    have hne : st0.count ≠ SIZE := hinv0.pc_loop.mp (by
      unfold boot at hb
      cases hs : send N (Chan.init N) WORK 0 SIZE with
      | none => simp [hs] at hb
      | some c =>
        simp only [hs, Option.map_some', Option.some.injEq] at hb
        subst hb
        rfl)
    rw [ha]
    simp [hne]
  · intro hW hN
    obtain ⟨ls, st1, hrun, -, hc⟩ :=
      can_complete SIZE THRESHOLD N THREADS a0 hS hT hlen hN hW st hr
    exact ⟨ls, st1, hrun, hc⟩

/-- Witness of C6: the state of the example when the main thread leaves its
loop. -/
theorem completion_counter_witness :
    demo_final.count = total demo_final.consumed ∧ 0 ≤ demo_final.count ∧
    demo_final.count ≤ 6 ∧
    (demo_final.count = 6 ↔
      ∀ msg ∈ demo_final.chan.contents 4, msg.type ≠ WORK ∧ msg.type ≠ DONE) ∧
    (demo_final.count = 6 ↔ demo_final.pc ≠ Pc.loop) :=
  have h := completion_counter 6 3 4 2 demo_array (by decide) (by decide) (by decide)
    demo_final
    (reachable_of_boot_run 6 3 4 2 demo_array demo_labels demo_final (by decide))
  ⟨h.1, h.2.1, h.2.2.1, h.2.2.2.1, h.2.2.2.2.1⟩

/-- C7. Channel FIFO.  The ring buffer `(mqueue, q_in, q_out, m_count)` behaves
as the bounded FIFO queue of the spec: every sequence of `send` and `recv`
operations, run from the initial globals with `send` going ahead only when
`m_count < N` and `recv` only when `m_count ≥ 1`, goes ahead exactly when the
same sequence does on the FIFO queue, returns the same messages and leaves the
same pending messages; each `recv` returns the oldest message sent and not yet
received; and the received messages followed by the pending ones are the sent
messages in order, so the received messages are an initial segment of the sent
ones with nothing lost, duplicated or reordered. -/
theorem chan_fifo (N : Nat) (ops : List Op) :
    (exec N ops (Chan.init N)).map (fun r => (r.1.contents N, r.2)) = fifo_exec N ops [] ∧
    (∀ (c : Chan) (out : List Message), exec N ops (Chan.init N) = some (c, out) →
      out ++ c.contents N = Op.sent ops ∧ out <+: Op.sent ops) ∧
    (∀ (c c1 : Chan) (msg : Message), c.wf N → recv N c = some (msg, c1) →
      c.contents N = msg :: c1.contents N ∧ c1.wf N) ∧
    (∀ (c c1 : Chan) (t s e : Int), c.wf N → send N c t s e = some c1 →
      c1.contents N = c.contents N ++ [⟨t, s, e⟩] ∧ c1.wf N) := by
  have href := exec_refines N ops (Chan.init N) (wf_init N)
  rw [contents_init] at href
  refine ⟨href, ?_, ?_, ?_⟩
  · intro c out h
    rw [h] at href
    simp only [Option.map_some'] at href
    have := fifo_exec_sent N ops [] _ _ href.symm
    rw [List.nil_append] at this
    exact ⟨this, ⟨c.contents N, this⟩⟩
  · intro c c1 msg hwf h
    obtain ⟨-, h1, h2, -⟩ := recv_some h hwf
    exact ⟨h2, h1⟩
  · intro c c1 t s e hwf h
    obtain ⟨-, h1, h2, -⟩ := send_some h hwf
    exact ⟨h2, h1⟩

/-- Witness of C7: two messages sent and one received on a queue of two slots;
a third `send` after the two is blocked. -/
theorem chan_fifo_witness :
    exec 2 [Op.send ⟨0, 0, 4⟩, Op.send ⟨1, 0, 2⟩, Op.recv] (Chan.init 2) =
        some (⟨[⟨0, 0, 4⟩, ⟨1, 0, 2⟩], 0, 1, 1⟩, [⟨0, 0, 4⟩]) ∧
      exec 2 [Op.send ⟨0, 0, 4⟩, Op.send ⟨1, 0, 2⟩, Op.send ⟨1, 2, 4⟩] (Chan.init 2) = none ∧
      [⟨0, 0, 4⟩] ++ (⟨[⟨0, 0, 4⟩, ⟨1, 0, 2⟩], 0, 1, 1⟩ : Chan).contents 2 =
        Op.sent [Op.send ⟨0, 0, 4⟩, Op.send ⟨1, 0, 2⟩, Op.recv] :=
  ⟨by decide, by decide,
    ((chan_fifo 2 [Op.send ⟨0, 0, 4⟩, Op.send ⟨1, 0, 2⟩, Op.recv]).2.1 _ _ (by decide)).1⟩


/-! ## The steps of a worker -/

/-- C8. Worker leaf step.  For every `WORK(s, e)` with `0 ≤ s ≤ e ≤ SIZE` and
`e - s ≤ THRESHOLD`, and a queue in a state its operations keep (`Chan.wf`)
with a free slot, so that `send` does not wait, the worker's handling of the
message leaves `a[s..e)` sorted in non-decreasing order and a permutation of
its previous content, and enqueues exactly one message, `DONE(s, e)`.  On the
array `[5,3,8,1]` with `WORK(0,4)` and the source's threshold it gives the
array `[1,3,5,8]` and the single message `DONE(0,4)`. -/
theorem worker_leaf :
    (∀ (α : Type) [LinearOrder α] (SIZE THRESHOLD : Int) (N : Nat) (m : Mem α) (c : Chan)
      (s e : Int), (m.cells.length : Int) = SIZE → 0 ≤ s → s ≤ e → e ≤ SIZE →
      e - s ≤ THRESHOLD → c.wf N → c.m_count < N →
      ∃ m1 c1, thread_body THRESHOLD N m c WORK s e = some (m1, c1) ∧
        List.Sorted (fun x y => x ≤ y) (slice m1.cells s e) ∧
        (slice m1.cells s e).Perm (slice m.cells s e) ∧
        c1.contents N = c.contents N ++ [⟨DONE, s, e⟩]) ∧
    (thread_body THRESHOLD_c 4 (⟨[5, 3, 8, 1], []⟩ : Mem Int) (Chan.init 4) WORK 0 4).map
        (fun r => (r.1.cells, r.2.contents 4)) = some ([1, 3, 5, 8], [⟨DONE, 0, 4⟩]) := by
  refine ⟨?_, by decide⟩
  intro α _ SIZE THRESHOLD N m c s e hlen hs hse he hle hwf hroom
  obtain ⟨m1, h1, hf, hso⟩ := ins_sort_spec m s (e - s) hs (by omega) (by omega)
  have e1 : s + (e - s) = e := by omega
  rw [e1] at hf hso
  obtain ⟨c1, hc1, -, hc2, -⟩ := send_spec N c DONE s e hwf hroom
  refine ⟨m1, c1, ?_, ?_, frame_slice_perm hf hs hse, hc2⟩
  · rw [thread_body_work_leaf THRESHOLD N m c s e hle, h1]
    simp only [Option.some_bind, hc1, Option.map_some']
  · have hl := hf.length_eq
    exact sortedOn_slice m1.cells s e hs hse (by omega) hso

/-- Witness of C8: the leaf `WORK(2,4)` of the example. -/
theorem worker_leaf_witness :
    ∃ m1 c1, thread_body 3 4 (⟨[1, 2, 5, 3, 8, 9], []⟩ : Mem Int) (Chan.init 4) WORK 2 4 =
        some (m1, c1) ∧
      List.Sorted (fun x y => x ≤ y) (slice m1.cells 2 4) ∧
      (slice m1.cells 2 4).Perm (slice [1, 2, 5, 3, 8, 9] 2 4) ∧
      c1.contents 4 = (Chan.init 4).contents 4 ++ [⟨DONE, 2, 4⟩] :=
  worker_leaf.1 Int 6 3 4 ⟨[1, 2, 5, 3, 8, 9], []⟩ (Chan.init 4) 2 4 (by decide) (by decide)
    (by decide) (by decide) (by decide) (wf_init 4) (by decide)

/-- C9. Worker split step.  For every `WORK(s, e)` with `0 ≤ s`, `e ≤ SIZE` and
`e - s > THRESHOLD` (and `THRESHOLD ≥ 1`, as the source's 10 is), and a queue
in a state its operations keep (`Chan.wf`) with two free slots, so that `send`
does not wait, the worker's handling of the message enqueues exactly two
messages, `WORK(s, k)` followed by `WORK(k, e)`, where
`k = s + partition(a+s, e-s)` satisfies `s < k < e`; the two new ranges are
disjoint and their union is `[s, e)`. -/
theorem worker_split {α : Type} [LinearOrder α] (SIZE THRESHOLD : Int) (N : Nat)
    (hT : 1 ≤ THRESHOLD) (m : Mem α) (c : Chan) (s e : Int)
    (hlen : (m.cells.length : Int) = SIZE) (hs : 0 ≤ s) (he : e ≤ SIZE)
    (hgt : THRESHOLD < e - s) (hwf : c.wf N) (hroom : c.m_count + 2 ≤ N) :
    ∃ p m1 c1, partition m s (e - s) = some (p, m1) ∧
      thread_body THRESHOLD N m c WORK s e = some (m1, c1) ∧
      c1.contents N = c.contents N ++ [⟨WORK, s, s + p⟩, ⟨WORK, s + p, e⟩] ∧
      s < s + p ∧ s + p < e ∧ Apart (s, s + p) (s + p, e) ∧
      ∀ x : Int, (s ≤ x ∧ x < e) ↔ ((s ≤ x ∧ x < s + p) ∨ (s + p ≤ x ∧ x < e)) := by
  obtain ⟨p, m1, h1, -, hp1, hp2, -⟩ := partition_spec m s (e - s) hs (by omega) (by omega)
  obtain ⟨c1, hc1, hwf1, hq1, hm1⟩ := send_spec N c WORK s (s + p) hwf (by omega)
  obtain ⟨c2, hc2, -, hq2, -⟩ := send_spec N c1 WORK (s + p) e hwf1 (by omega)
  refine ⟨p, m1, c2, h1, ?_, ?_, by omega, by omega, Or.inl (le_refl _), ?_⟩
  · rw [thread_body_work_split THRESHOLD N m c s e hgt, h1]
    simp only [hc1, Option.some_bind, hc2, Option.map_some']
  · rw [hq2, hq1, List.append_assoc]
    rfl
  · intro x
    omega

/-- Witness of C9: the split of `WORK(0,6)` in the example. -/
theorem worker_split_witness :
    ∃ p m1 c1, partition (⟨demo_array, []⟩ : Mem Int) 0 (6 - 0) = some (p, m1) ∧
      thread_body 3 4 (⟨demo_array, []⟩ : Mem Int) (Chan.init 4) WORK 0 6 = some (m1, c1) ∧
      c1.contents 4 = (Chan.init 4).contents 4 ++ [⟨WORK, 0, 0 + p⟩, ⟨WORK, 0 + p, 6⟩] ∧
      0 < 0 + p ∧ 0 + p < 6 ∧ Apart (0, 0 + p) (0 + p, 6) ∧
      ∀ x : Int, (0 ≤ x ∧ x < 6) ↔ ((0 ≤ x ∧ x < 0 + p) ∨ (0 + p ≤ x ∧ x < 6)) :=
  worker_split 6 3 4 (by decide) ⟨demo_array, []⟩ (Chan.init 4) 0 6 (by decide) (by decide)
    (by decide) (by decide) (wf_init 4) (by decide)

/-- C10. Worker frame.  For every `WORK(s, e)` with `0 ≤ s ≤ e ≤ SIZE` (and
`THRESHOLD ≥ 1`), the handling of the message, by `ins_sort` when
`e - s ≤ THRESHOLD` and by `partition` otherwise, runs without fault, every
access it makes to the array (read or swap) is to a cell of `[s, e)`, and every
cell outside `[s, e)` keeps its content. -/
theorem worker_frame {α : Type} [LinearOrder α] (SIZE THRESHOLD : Int) (N : Nat)
    (hT : 1 ≤ THRESHOLD) (m : Mem α) (c : Chan) (s e : Int)
    (hlen : (m.cells.length : Int) = SIZE) (hs : 0 ≤ s) (hse : s ≤ e) (he : e ≤ SIZE) :
    (e - s ≤ THRESHOLD → ∃ m1, ins_sort m s (e - s) = some m1 ∧ Frame s e m m1) ∧
    (THRESHOLD < e - s → ∃ p m1, partition m s (e - s) = some (p, m1) ∧ Frame s e m m1) ∧
    (∀ (m1 : Mem α) (c1 : Chan), thread_body THRESHOLD N m c WORK s e = some (m1, c1) →
      (∃ evs, m1.log = evs ++ m.log ∧
        ∀ ev ∈ evs, ∀ i ∈ ev.cells, s ≤ (i : Int) ∧ (i : Int) < e) ∧
      (∀ k : Int, k < s ∨ e ≤ k → cell m1.cells k = cell m.cells k) ∧
      m1.cells.length = m.cells.length) := by
  have e1 : s + (e - s) = e := by omega
  have hleaf : e - s ≤ THRESHOLD → ∃ m1, ins_sort m s (e - s) = some m1 ∧ Frame s e m m1 := by
    intro hle
    obtain ⟨m1, h1, hf, -⟩ := ins_sort_spec m s (e - s) hs (by omega) (by omega)
    rw [e1] at hf
    exact ⟨m1, h1, hf⟩
  have hsplit : THRESHOLD < e - s →
      ∃ p m1, partition m s (e - s) = some (p, m1) ∧ Frame s e m m1 := by
    intro hgt
    obtain ⟨p, m1, h1, hf, -⟩ := partition_spec m s (e - s) hs (by omega) (by omega)
    rw [e1] at hf
    exact ⟨p, m1, h1, hf⟩
  refine ⟨hleaf, hsplit, ?_⟩
  intro m1 c1 h
  have hf : Frame s e m m1 := by
    rcases thread_body_cases h with ⟨htd, -, -⟩ | ⟨-, hle, hins, -⟩ |
      ⟨-, hgt, p, c2, hpart, -, -⟩ | ⟨-, htw, -, -⟩
    · exact absurd htd (by decide)
    · obtain ⟨m2, h2, hf⟩ := hleaf hle
      rw [hins] at h2
      cases Option.some.inj h2
      exact hf
    · obtain ⟨p2, m2, h2, hf⟩ := hsplit hgt
      rw [hpart] at h2
      cases Option.some.inj h2
      exact hf
    · exact absurd rfl htw
  exact ⟨hf.log, hf.outside, hf.length_eq⟩

/-- Witness of C10: the split of `WORK(2,6)` in the example touches only the
cells 2 to 5. -/
theorem worker_frame_witness :
    (∃ evs, demo_after.log = evs ++ demo_before.log ∧
      ∀ ev ∈ evs, ∀ i ∈ ev.cells, (2 : Int) ≤ (i : Int) ∧ (i : Int) < 6) ∧
    (∀ k : Int, k < 2 ∨ 6 ≤ k → cell demo_after.cells k = cell demo_before.cells k) ∧
    demo_after.cells.length = demo_before.cells.length :=
  (worker_frame 6 3 4 (by decide) demo_before (Chan.init 4) 2 6
    (by decide) (by decide) (by decide) (by decide)).2.2 demo_after
    ⟨[⟨0, 2, 4⟩, ⟨0, 4, 6⟩, ⟨0, 0, 0⟩, ⟨0, 0, 0⟩], 2, 0, 2⟩ (by decide)


/-! ## The scan loop with its accesses is the scan loop -/

theorem scan_up_acc_eq {α : Type} [LinearOrder α] (a : Int) (p : α) :
    ∀ (fuel : Nat) (m : Mem α) (i : Int),
      (scan_up_acc a p fuel m i).map (fun r => (r.1, r.2.1)) = scan_up a p fuel m i := by
  intro fuel
  induction fuel with
  | zero => intro m i; rfl
  | succ fuel ih =>
    intro m i
    simp only [scan_up_acc, scan_up]
    cases load m (a + i) with
    | none => rfl
    | some r =>
      obtain ⟨x, m1⟩ := r
      simp only []
      by_cases hx : x < p
      · rw [if_pos hx, if_pos hx, ← ih m1 (i + 1)]
        cases scan_up_acc a p fuel m1 (i + 1) <;> rfl
      · rw [if_neg hx, if_neg hx]
        rfl

theorem scan_down_acc_eq {α : Type} [LinearOrder α] (a : Int) (p : α) :
    ∀ (fuel : Nat) (m : Mem α) (j : Int),
      (scan_down_acc a p fuel m j).map (fun r => (r.1, r.2.1)) = scan_down a p fuel m j := by
  intro fuel
  induction fuel with
  | zero => intro m j; rfl
  | succ fuel ih =>
    intro m j
    simp only [scan_down_acc, scan_down]
    cases load m (a + j) with
    | none => rfl
    | some r =>
      obtain ⟨x, m1⟩ := r
      simp only []
      by_cases hx : x > p
      · rw [if_pos hx, if_pos hx, ← ih m1 (j - 1)]
        cases scan_down_acc a p fuel m1 (j - 1) <;> rfl
      · rw [if_neg hx, if_neg hx]
        rfl

theorem acc_of_erased {β γ : Type} {o : Option (β × γ × List Acc)} {x : β} {y : γ}
    (h : o.map (fun r => (r.1, r.2.1)) = some (x, y)) : ∃ t, o = some (x, y, t) := by
  cases o with
  | none => cases h
  | some r =>
    obtain ⟨r1, r2, r3⟩ := r
    simp only [Option.map_some', Option.some.injEq, Prod.mk.injEq] at h
    obtain ⟨rfl, rfl⟩ := h
    exact ⟨r3, rfl⟩

theorem scan_up_acc_trace {α : Type} [LinearOrder α] (a : Int) (p : α) :
    ∀ (fuel : Nat) (m : Mem α) (i i1 : Int) (m1 : Mem α) (t : List Acc),
      scan_up_acc a p fuel m i = some (i1, m1, t) →
      i ≤ i1 ∧ ∀ acc ∈ t, ∃ u : Int, acc = Acc.left u ∧ i ≤ u ∧ u ≤ i1 := by
  intro fuel
  induction fuel with
  | zero => intro m i i1 m1 t h; cases h
  | succ fuel ih =>
    intro m i i1 m1 t h
    simp only [scan_up_acc] at h
    split at h
    · cases h
    · rename_i x m2 _
      split at h
      · cases hr : scan_up_acc a p fuel m2 (i + 1) with
        | none => simp [hr] at h
        | some r =>
          obtain ⟨r1, r2, r3⟩ := r
          simp only [hr, Option.map_some', Option.some.injEq, Prod.mk.injEq] at h
          obtain ⟨rfl, rfl, rfl⟩ := h
          obtain ⟨h1, h2⟩ := ih _ _ _ _ _ hr
          refine ⟨by omega, ?_⟩
          intro acc hacc
          rcases List.mem_cons.mp hacc with rfl | hacc
          · exact ⟨i, rfl, le_refl _, by omega⟩
          · obtain ⟨u, hu1, hu2, hu3⟩ := h2 acc hacc
            exact ⟨u, hu1, by omega, hu3⟩
      · simp only [Option.some.injEq, Prod.mk.injEq] at h
        obtain ⟨rfl, rfl, rfl⟩ := h
        refine ⟨le_refl _, ?_⟩
        intro acc hacc
        rw [List.mem_singleton] at hacc
        exact ⟨i, hacc, le_refl _, le_refl _⟩

theorem scan_down_acc_trace {α : Type} [LinearOrder α] (a : Int) (p : α) :
    ∀ (fuel : Nat) (m : Mem α) (j j1 : Int) (m1 : Mem α) (t : List Acc),
      scan_down_acc a p fuel m j = some (j1, m1, t) →
      j1 ≤ j ∧ ∀ acc ∈ t, ∃ u : Int, acc = Acc.right u ∧ j1 ≤ u ∧ u ≤ j := by
  intro fuel
  induction fuel with
  | zero => intro m j j1 m1 t h; cases h
  | succ fuel ih =>
    intro m j j1 m1 t h
    simp only [scan_down_acc] at h
    split at h
    · cases h
    · rename_i x m2 _
      split at h
      · cases hr : scan_down_acc a p fuel m2 (j - 1) with
        | none => simp [hr] at h
        | some r =>
          obtain ⟨r1, r2, r3⟩ := r
          simp only [hr, Option.map_some', Option.some.injEq, Prod.mk.injEq] at h
          obtain ⟨rfl, rfl, rfl⟩ := h
          obtain ⟨h1, h2⟩ := ih _ _ _ _ _ hr
          refine ⟨by omega, ?_⟩
          intro acc hacc
          rcases List.mem_cons.mp hacc with rfl | hacc
          · exact ⟨j, rfl, by omega, le_refl _⟩
          · obtain ⟨u, hu1, hu2, hu3⟩ := h2 acc hacc
            exact ⟨u, hu1, hu2, by omega⟩
      · simp only [Option.some.injEq, Prod.mk.injEq] at h
        obtain ⟨rfl, rfl, rfl⟩ := h
        refine ⟨le_refl _, ?_⟩
        intro acc hacc
        rw [List.mem_singleton] at hacc
        exact ⟨j, hacc, le_refl _, le_refl _⟩

theorem partition_loop_acc_eq {α : Type} [LinearOrder α] (a : Int) (p : α) :
    ∀ (fuel : Nat) (m : Mem α) (i j : Int),
      (partition_loop_acc a p fuel m i j).map (fun r => (r.1, r.2.1)) =
        partition_loop a p fuel m i j := by
  intro fuel
  induction fuel with
  | zero => intro m i j; rfl
  | succ fuel ih =>
    intro m i j
    simp only [partition_loop_acc, partition_loop]
    rw [← scan_up_acc_eq a p (m.cells.length + 1) m i]
    cases scan_up_acc a p (m.cells.length + 1) m i with
    | none => rfl
    | some r1 =>
      obtain ⟨i1, m1, t1⟩ := r1
      simp only [Option.map_some']
      rw [← scan_down_acc_eq a p (m.cells.length + 1) m1 j]
      cases scan_down_acc a p (m.cells.length + 1) m1 j with
      | none => rfl
      | some r2 =>
        obtain ⟨j1, m2, t2⟩ := r2
        simp only [Option.map_some']
        by_cases hij : i1 ≥ j1
        · rw [if_pos hij, if_pos hij]
          rfl
        · rw [if_neg hij, if_neg hij]
          cases swap m2 (a + i1) (a + j1) with
          | none => rfl
          | some m3 =>
            simp only []
            rw [← ih m3 (i1 + 1) (j1 - 1)]
            cases partition_loop_acc a p fuel m3 (i1 + 1) (j1 - 1) <;> rfl

theorem partition_acc_eq {α : Type} [LinearOrder α] (m : Mem α) (a n : Int) :
    (partition_acc m a n).map (fun r => (r.1, r.2.1)) = partition m a n := by
  simp only [partition_acc, partition]
  cases choose_pivot m a n with
  | none => rfl
  | some m1 =>
    simp only []
    cases load m1 (a + Int.tdiv n 2) with
    | none => rfl
    | some r =>
      obtain ⟨p, m2⟩ := r
      simp only []
      exact partition_loop_acc_eq a p _ m2 1 (n - 2)


/-! ## The pointers of the scan loop stay in bounds -/

theorem partition_loop_acc_spec {α : Type} [LinearOrder α] (a n : Int) (p : α) (ha : 0 ≤ a) :
    ∀ (fuel : Nat) (m : Mem α) (i j : Int), a + n ≤ m.cells.length → 1 ≤ i → j ≤ n - 2 →
      (j + 1 - i).toNat < fuel →
      (∀ (u : Int) (x : α), 0 ≤ u → u < i → cell m.cells (a + u) = some x → x ≤ p) →
      (∀ (u : Int) (x : α), j < u → u < n → cell m.cells (a + u) = some x → p ≤ x) →
      (∃ k z, i ≤ k ∧ k ≤ n - 1 ∧ cell m.cells (a + k) = some z ∧ p ≤ z) →
      (∃ k z, 0 ≤ k ∧ k ≤ j ∧ cell m.cells (a + k) = some z ∧ z ≤ p) →
      ∃ r m1 t, partition_loop_acc a p fuel m i j = some (r, m1, t) ∧
        ∀ acc ∈ t, Acc.in_bounds n acc := by
  intro fuel
  induction fuel with
  | zero => intro m i j _ _ _ h; omega
  | succ fuel ih =>
    intro m i j hlen hi hj hfuel HL HR hup hdown
    obtain ⟨ku, zu, hku1, hku2, hku3, hku4⟩ := hup
    obtain ⟨kd, zd, hkd1, hkd2, hkd3, hkd4⟩ := hdown
    obtain ⟨-, hku5, -⟩ := cell_eq_some hku3
    obtain ⟨i1, m1, hs1, hi1a, hi1b, hc1, hf1, hlt1, xi, hxi, hxip⟩ :=
      scan_up_spec a p ku (m.cells.length + 1) m i (by omega) hku1 (by omega)
        ⟨zu, hku3, not_lt_of_le hku4⟩
    obtain ⟨j1, m2, hs2, hj1a, hj1b, hc2, hf2, hgt2, xj, hxj, hxjp⟩ :=
      scan_down_spec a p kd (m1.cells.length + 1) m1 j (by rw [hc1]; omega) hkd2
        (by rw [hc1]; omega) ⟨zd, by rw [hc1]; exact hkd3, not_lt_of_le hkd4⟩
    rw [hc1] at hgt2 hxj hs2
    have hc12 : m2.cells = m.cells := by rw [hc2, hc1]
    have hf12 : Frame a (a + n) m m2 :=
      (hf1.mono (by omega) (by omega)).trans (hf2.mono (by omega) (by omega))
    rw [← scan_up_acc_eq] at hs1
    rw [← scan_down_acc_eq] at hs2
    obtain ⟨t1, ht1⟩ := acc_of_erased hs1
    obtain ⟨t2, ht2⟩ := acc_of_erased hs2
    obtain ⟨-, htr1⟩ := scan_up_acc_trace a p _ _ _ _ _ _ ht1
    obtain ⟨-, htr2⟩ := scan_down_acc_trace a p _ _ _ _ _ _ ht2
    have hb1 : ∀ acc ∈ t1, Acc.in_bounds n acc := by
      intro acc hacc
      obtain ⟨u, rfl, hu1, hu2⟩ := htr1 acc hacc
      exact ⟨by omega, by omega⟩
    have hb2 : ∀ acc ∈ t2, Acc.in_bounds n acc := by
      intro acc hacc
      obtain ⟨u, rfl, hu1, hu2⟩ := htr2 acc hacc
      exact ⟨by omega, by omega⟩
    simp only [partition_loop_acc]
    rw [ht1]
    simp only []
    rw [ht2]
    simp only []
    by_cases hij : i1 ≥ j1
    · rw [if_pos hij]
      refine ⟨i1, m2, t1 ++ t2, rfl, ?_⟩
      intro acc hacc
      rcases List.mem_append.mp hacc with h | h
      · exact hb1 acc h
      · exact hb2 acc h
    · rw [if_neg hij]
      have hij2 : i1 < j1 := by omega
      obtain ⟨m3, hm3, hsw⟩ : ∃ m3 : Mem α,
          m3.cells = (m2.cells.set (a + i1).toNat xj).set (a + j1).toNat xi ∧
          swap m2 (a + i1) (a + j1) = some m3 :=
        ⟨_, rfl, swap_of_cell _ (by rw [hc12]; exact hxi) (by rw [hc12]; exact hxj)⟩
      have hf3 := frame_swap a (a + n) hsw (by omega) (by omega)
      have hcs := cell_set_set m.cells hxi hxj
      rw [hc12] at hm3
      rw [hsw]
      simp only []
      obtain ⟨r, m4, t3, hr1, hr2⟩ := ih m3 (i1 + 1) (j1 - 1)
        (by rw [hf3.length_eq, hf12.length_eq]; exact hlen) (by omega) (by omega) (by omega)
        (by
          intro u x hu0 hu1 hx
          rw [hm3, hcs] at hx
          have h1 : ¬ a + u = a + j1 := by omega
          rw [if_neg h1] at hx
          by_cases h2 : u = i1
          · rw [if_pos (by omega)] at hx
            cases Option.some.inj hx
            exact le_of_not_lt hxjp
          · rw [if_neg (by omega)] at hx
            by_cases hui : u < i
            · exact HL u x hu0 hui hx
            · exact le_of_lt (hlt1 u x (by omega) (by omega) hx))
        (by
          intro u x hu0 hu1 hx
          rw [hm3, hcs] at hx
          by_cases h1 : u = j1
          · rw [if_pos (by omega)] at hx
            cases Option.some.inj hx
            exact le_of_not_lt hxip
          · rw [if_neg (by omega), if_neg (by omega)] at hx
            by_cases huj : j < u
            · exact HR u x huj hu1 hx
            · exact le_of_lt (hgt2 u x (by omega) (by omega) hx))
        ⟨j1, xi, by omega, by omega, by rw [hm3, hcs, if_pos rfl], le_of_not_lt hxip⟩
        ⟨i1, xj, by omega, by omega,
          by rw [hm3, hcs, if_neg (by omega), if_pos rfl], le_of_not_lt hxjp⟩
      refine ⟨r, m4, t1 ++ t2 ++ Acc.swap i1 j1 :: t3, by rw [hr1]; rfl, ?_⟩
      intro acc hacc
      rcases List.mem_append.mp hacc with h | h
      · rcases List.mem_append.mp h with h | h
        · exact hb1 acc h
        · exact hb2 acc h
      · rcases List.mem_cons.mp h with rfl | h
        · exact ⟨⟨by omega, by omega⟩, ⟨by omega, by omega⟩⟩
        · exact hr2 acc h

theorem partition_acc_spec {α : Type} [LinearOrder α] (m : Mem α) (a n : Int) (ha : 0 ≤ a)
    (hn : 2 ≤ n) (hlen : a + n ≤ m.cells.length) :
    ∃ k m1 t, partition_acc m a n = some (k, m1, t) ∧ ∀ acc ∈ t, Acc.in_bounds n acc := by
  have hdiv : Int.tdiv n 2 = n / 2 := Int.tdiv_eq_ediv (by omega) (by omega)
  obtain ⟨m1, x, p, z, hcp, hf1, hx, hp, hz, hxp, hpz⟩ := choose_pivot_spec m a n ha hn hlen
  have hl := load_of_cell m1 hp
  have hlen1 : m1.cells.length = m.cells.length := hf1.length_eq
  obtain ⟨k, m3, t, hk, hb⟩ := partition_loop_acc_spec a n p ha
    (m1.cells.length + 1) (⟨m1.cells, Ev.rd (a + n / 2).toNat :: m1.log⟩ : Mem α) 1 (n - 2)
    (by simp only []; omega) (le_refl _) (le_refl _) (by omega)
    (by
      intro u y h0 h1 hy
      have e : a + u = a := by omega
      rw [e] at hy
      simp only [] at hy
      rw [hx] at hy
      cases Option.some.inj hy
      exact hxp)
    (by
      intro u y h0 h1 hy
      have e : a + u = a + n - 1 := by omega
      rw [e] at hy
      simp only [] at hy
      rw [hz] at hy
      cases Option.some.inj hy
      exact hpz)
    ⟨n - 1, z, by omega, le_refl _, by
      have e : a + (n - 1) = a + n - 1 := by omega
      rw [e]; exact hz, hpz⟩
    ⟨0, x, le_refl _, by omega, by
      have e : a + 0 = a := by omega
      rw [e]; exact hx, hxp⟩
  refine ⟨k, m3, t, ?_, hb⟩
  simp only [partition_acc, hcp, hdiv, hl]
  exact hk


/-! ## Partition of a sorted range -/

theorem cells_eq_of_cell {α : Type} {l l1 : List α} (h : ∀ k : Int, cell l1 k = cell l k) :
    l1 = l := by
  apply List.ext_getElem?
  intro i
  have := h (i : Int)
  simpa [cell] using this

theorem set_set_same {α : Type} (l : List α) {a b : Int} {x : α}
    (ha : cell l a = some x) (hb : cell l b = some x) :
    (l.set a.toNat x).set b.toNat x = l := by
  apply cells_eq_of_cell
  intro k
  rw [cell_set_set l ha hb k]
  by_cases hkb : k = b
  · rw [if_pos hkb, hkb, hb]
  · rw [if_neg hkb]
    by_cases hka : k = a
    · rw [if_pos hka, hka, ha]
    · rw [if_neg hka]

theorem swap_if_gt_of_le {α : Type} [LinearOrder α] (m : Mem α) (p q : Int) (x y : α)
    (hp : cell m.cells p = some x) (hq : cell m.cells q = some y) (hxy : x ≤ y) :
    swap_if_gt m p q = some ⟨m.cells, Ev.rd q.toNat :: Ev.rd p.toNat :: m.log⟩ := by
  have hl1 := load_of_cell m hp
  have hl2 := load_of_cell (⟨m.cells, Ev.rd p.toNat :: m.log⟩ : Mem α) (p := q) hq
  simp only [swap_if_gt, hl1, hl2]
  rw [if_neg (not_lt_of_le hxy)]

theorem choose_pivot_sorted {α : Type} [LinearOrder α] (m : Mem α) (a n : Int) (ha : 0 ≤ a)
    (hn : 2 ≤ n) (hlen : a + n ≤ m.cells.length) (hs : SortedOn m.cells a (a + n)) :
    choose_pivot m a n = some ⟨m.cells,
      Ev.rd (a + n / 2).toNat :: Ev.rd (a + 0).toNat :: Ev.rd (a + (n - 1)).toNat ::
        Ev.rd (a + n / 2).toNat :: Ev.rd (a + n / 2).toNat :: Ev.rd (a + 0).toNat :: m.log⟩ := by
  have hdiv : Int.tdiv n 2 = n / 2 := Int.tdiv_eq_ediv (by omega) (by omega)
  obtain ⟨x, hx⟩ := cell_of_lt m.cells (a + 0) (by omega) (by omega)
  obtain ⟨y, hy⟩ := cell_of_lt m.cells (a + n / 2) (by omega) (by omega)
  obtain ⟨z, hz⟩ := cell_of_lt m.cells (a + (n - 1)) (by omega) (by omega)
  have hxy : x ≤ y := hs _ _ x y (by omega) (by omega) (by omega) hx hy
  have hyz : y ≤ z := hs _ _ y z (by omega) (by omega) (by omega) hy hz
  have h1 := swap_if_gt_of_le m (a + 0) (a + n / 2) x y hx hy hxy
  have h2 := swap_if_gt_of_le
    (⟨m.cells, Ev.rd (a + n / 2).toNat :: Ev.rd (a + 0).toNat :: m.log⟩ : Mem α)
    (a + n / 2) (a + (n - 1)) y z hy hz hyz
  have h3 := swap_if_gt_of_le
    (⟨m.cells, Ev.rd (a + (n - 1)).toNat :: Ev.rd (a + n / 2).toNat ::
      Ev.rd (a + n / 2).toNat :: Ev.rd (a + 0).toNat :: m.log⟩ : Mem α)
    (a + 0) (a + n / 2) x y hx hy hxy
  unfold choose_pivot
  simp only [hdiv]
  rw [h1, Option.some_bind, h2, Option.some_bind, h3]

theorem sortedOn_of_all_eq {α : Type} [LinearOrder α] (l : List α) (a n : Int) (v : α)
    (h : ∀ u : Int, 0 ≤ u → u < n → cell l (a + u) = some v) : SortedOn l a (a + n) := by
  intro u w x y h1 h2 h3 hx hy
  have hu := h (u - a) (by omega) (by omega)
  have hw := h (w - a) (by omega) (by omega)
  have e1 : a + (u - a) = u := by omega
  have e2 : a + (w - a) = w := by omega
  rw [e1, hx] at hu
  rw [e2, hy] at hw
  cases Option.some.inj hu
  cases Option.some.inj hw
  exact le_refl _

theorem partition_loop_equal {α : Type} [LinearOrder α] (a n : Int) (p : α) (ha : 0 ≤ a) :
    ∀ (fuel : Nat) (m : Mem α) (i j : Int), a + n ≤ m.cells.length →
      (∀ u : Int, 0 ≤ u → u < n → cell m.cells (a + u) = some p) →
      1 ≤ i → i ≤ j + 1 → i + j = n - 1 → (j + 1 - i).toNat < fuel →
      ∃ m1, partition_loop a p fuel m i j = some (n / 2, m1) ∧ m1.cells = m.cells := by
  intro fuel
  induction fuel with
  | zero => intro m i j _ _ _ _ _ h; omega
  | succ fuel ih =>
    intro m i j hlen hall hi hij hsum hfuel
    have hci := hall i (by omega) (by omega)
    have hcj := hall j (by omega) (by omega)
    obtain ⟨i1, m1, hs1, hi1a, hi1b, hc1, -⟩ :=
      scan_up_spec a p i (m.cells.length + 1) m i (by omega) (le_refl _) (by omega)
        ⟨p, hci, lt_irrefl p⟩
    obtain ⟨j1, m2, hs2, hj1a, hj1b, hc2, -⟩ :=
      scan_down_spec a p j (m1.cells.length + 1) m1 j (by rw [hc1]; omega) (le_refl _)
        (by omega) ⟨p, by rw [hc1]; exact hcj, lt_irrefl p⟩
    have e1 : i1 = i := by omega
    have e2 : j1 = j := by omega
    subst e1
    subst e2
    rw [hc1] at hs2
    have hc12 : m2.cells = m.cells := by rw [hc2, hc1]
    simp only [partition_loop]
    rw [hs1]
    simp only []
    rw [hs2]
    simp only []
    by_cases hge : i1 ≥ j1
    · rw [if_pos hge]
      have e : i1 = n / 2 := by omega
      rw [e]
      exact ⟨m2, rfl, hc12⟩
    · rw [if_neg hge]
      obtain ⟨m3, hm3, hsw⟩ : ∃ m3 : Mem α,
          m3.cells = (m2.cells.set (a + i1).toNat p).set (a + j1).toNat p ∧
          swap m2 (a + i1) (a + j1) = some m3 :=
        ⟨_, rfl, swap_of_cell _ (by rw [hc12]; exact hci) (by rw [hc12]; exact hcj)⟩
      rw [hc12, set_set_same m.cells hci hcj] at hm3
      rw [hsw]
      simp only []
      obtain ⟨m4, h4, hc4⟩ := ih m3 (i1 + 1) (j1 - 1) (by rw [hm3]; exact hlen)
        (by rw [hm3]; exact hall) (by omega) (by omega) (by omega) (by omega)
      exact ⟨m4, h4, by rw [hc4, hm3]⟩

theorem partition_equal {α : Type} [LinearOrder α] (m : Mem α) (a n : Int) (v : α)
    (ha : 0 ≤ a) (hn : 2 ≤ n) (hlen : a + n ≤ m.cells.length)
    (hall : ∀ u : Int, 0 ≤ u → u < n → cell m.cells (a + u) = some v) :
    ∃ m1, partition m a n = some (n / 2, m1) ∧ m1.cells = m.cells := by
  have hdiv : Int.tdiv n 2 = n / 2 := Int.tdiv_eq_ediv (by omega) (by omega)
  have hcp := choose_pivot_sorted m a n ha hn hlen (sortedOn_of_all_eq m.cells a n v hall)
  obtain ⟨m1, hcp1, hm1c⟩ : ∃ m1 : Mem α, choose_pivot m a n = some m1 ∧
      m1.cells = m.cells := ⟨_, hcp, rfl⟩
  have hp := hall (n / 2) (by omega) (by omega)
  have hl := load_of_cell m1 (p := a + n / 2) (by rw [hm1c]; exact hp)
  obtain ⟨m3, h3, hc3⟩ := partition_loop_equal a n v ha (m1.cells.length + 1)
    (⟨m1.cells, Ev.rd (a + n / 2).toNat :: m1.log⟩ : Mem α) 1 (n - 2)
    (by simp only []; rw [hm1c]; exact hlen) (by simp only []; rw [hm1c]; exact hall)
    (le_refl _) (by omega) (by omega) (by rw [hm1c]; omega)
  simp only [] at hc3
  refine ⟨m3, ?_, by rw [hc3, hm1c]⟩
  simp only [partition, hcp1, hdiv, hl]
  exact h3

/-! ## Insertion sort of a sorted range -/

theorem ins_inner_sorted {α : Type} [LinearOrder α] (a : Int) (ha : 0 ≤ a) (j : Nat)
    (m : Mem α) (hlen : a + j < m.cells.length) (hs : SortedOn m.cells a (a + j + 1)) :
    ∃ m1, ins_inner a j m = some m1 ∧ m1.cells = m.cells := by
  cases j with
  | zero => exact ⟨m, rfl, rfl⟩
  | succ j =>
    obtain ⟨c, hc⟩ : ∃ c : Int, c = a + ((j + 1 : Nat) : Int) := ⟨_, rfl⟩
    have hcj : c = a + j + 1 := by omega
    rw [ins_inner_succ a j m c hc]
    rw [← hc] at hlen hs
    obtain ⟨x, hx⟩ := cell_of_lt m.cells (c - 1) (by omega) (by omega)
    obtain ⟨y, hy⟩ := cell_of_lt m.cells c (by omega) (by omega)
    have hxy : x ≤ y := hs (c - 1) c x y (by omega) (by omega) (by omega) hx hy
    have hl1 := load_of_cell m hx
    have hl2 := load_of_cell (⟨m.cells, Ev.rd (c - 1).toNat :: m.log⟩ : Mem α) (p := c) hy
    rw [hl1]
    simp only []
    rw [hl2]
    simp only []
    rw [if_neg (not_lt_of_le hxy)]
    exact ⟨_, rfl, rfl⟩

theorem ins_outer_sorted {α : Type} [LinearOrder α] (a : Int) (ha : 0 ≤ a) :
    ∀ (k i : Nat) (m : Mem α), a + i + k ≤ m.cells.length →
      SortedOn m.cells a (a + i + k) →
      ∃ m1, ins_outer a k i m = some m1 ∧ m1.cells = m.cells := by
  intro k
  induction k with
  | zero => intro i m _ _; exact ⟨m, rfl, rfl⟩
  | succ k ih =>
    intro i m hlen hs
    obtain ⟨m1, h1, hc1⟩ := ins_inner_sorted a ha i m (by push_cast at hlen; omega)
      (fun u v x y h1 h2 h3 => hs u v x y h1 h2 (by push_cast; omega))
    obtain ⟨m2, h2, hc2⟩ := ih (i + 1) m1 (by rw [hc1]; push_cast at hlen ⊢; omega)
      (by
        rw [hc1]
        have e : a + ((i + 1 : Nat) : Int) + (k : Int) = a + i + ((k + 1 : Nat) : Int) := by
          push_cast; omega
        rw [e]; exact hs)
    exact ⟨m2, by simp only [ins_outer, h1, h2], by rw [hc2, hc1]⟩

theorem ins_sort_sorted {α : Type} [LinearOrder α] (m : Mem α) (a n : Int) (ha : 0 ≤ a)
    (hn : 0 ≤ n) (hlen : a + n ≤ m.cells.length) (hs : SortedOn m.cells a (a + n)) :
    ∃ m1, ins_sort m a n = some m1 ∧ m1.cells = m.cells := by
  unfold ins_sort
  by_cases h1 : n ≤ 1
  · have : (n - 1).toNat = 0 := by omega
    rw [this]
    exact ⟨m, rfl, rfl⟩
  · have e : a + ((1 : Nat) : Int) + ((n - 1).toNat : Int) = a + n := by omega
    exact ins_outer_sorted a ha (n - 1).toNat 1 m (by omega) (by rw [e]; exact hs)


/-! ## Pivot selection -/

theorem perm_min_max {α : Type} [LinearOrder α] (x y : α) :
    [min x y, max x y].Perm [x, y] := by
  rcases le_total x y with h | h
  · rw [min_eq_left h, max_eq_right h]
  · rw [min_eq_right h, max_eq_left h]
    exact List.Perm.swap _ _ _

theorem swap_if_gt_min_max {α : Type} [LinearOrder α] (lo hi : Int) (m : Mem α) (p q : Int)
    (x y : α) (hp : cell m.cells p = some x) (hq : cell m.cells q = some y)
    (hpr : lo ≤ p ∧ p < hi) (hqr : lo ≤ q ∧ q < hi) :
    ∃ m1, swap_if_gt m p q = some m1 ∧ Frame lo hi m m1 ∧
      (∀ k : Int, k ≠ p → k ≠ q → cell m1.cells k = cell m.cells k) ∧
      cell m1.cells p = some (min x y) ∧ cell m1.cells q = some (max x y) := by
  obtain ⟨m1, h1, hf, ho, hc⟩ := swap_if_gt_spec lo hi m p q x y hp hq hpr hqr
  refine ⟨m1, h1, hf, ho, ?_⟩
  rcases hc with ⟨h2, h3, h4⟩ | ⟨h2, h3, h4⟩
  · rw [min_eq_left h4, max_eq_right h4]
    exact ⟨h2, h3⟩
  · rw [min_eq_right h4, max_eq_left h4]
    exact ⟨h2, h3⟩

theorem median3_le_max {α : Type} [LinearOrder α] (x y z : α) :
    median3 x y z ≤ max (max x y) z :=
  max_le (le_trans (min_le_left _ _) (le_trans (le_max_left _ _) (le_max_left _ _)))
    (le_trans (min_le_left _ _) (le_max_left _ _))

theorem min3_le_median3 {α : Type} [LinearOrder α] (x y z : α) :
    min (min x y) (min (max x y) z) ≤ median3 x y z :=
  le_trans (min_le_left _ _) (le_max_left _ _)

theorem perm_sorted_triple {α : Type} [LinearOrder α] (x y z : α) :
    [min (min x y) (min (max x y) z), median3 x y z, max (max x y) z].Perm [x, y, z] := by
  have h1 : [min x y, max x y, z].Perm [x, y, z] :=
    List.Perm.append_right [z] (perm_min_max x y)
  have h2 : [min x y, min (max x y) z, max (max x y) z].Perm [min x y, max x y, z] :=
    List.Perm.cons _ (perm_min_max (max x y) z)
  have h3 : [min (min x y) (min (max x y) z), max (min x y) (min (max x y) z),
      max (max x y) z].Perm [min x y, min (max x y) z, max (max x y) z] :=
    List.Perm.append_right [max (max x y) z] (perm_min_max (min x y) (min (max x y) z))
  exact (h3.trans h2).trans h1

theorem choose_pivot_full {α : Type} [LinearOrder α] (m : Mem α) (a n : Int)
    (hn : 3 ≤ n) (x y z : α)
    (hx : cell m.cells a = some x) (hy : cell m.cells (a + n / 2) = some y)
    (hz : cell m.cells (a + n - 1) = some z) :
    ∃ m1, choose_pivot m a n = some m1 ∧ Frame a (a + n) m m1 ∧
      cell m1.cells a = some (min (min x y) (min (max x y) z)) ∧
      cell m1.cells (a + n / 2) = some (median3 x y z) ∧
      cell m1.cells (a + n - 1) = some (max (max x y) z) ∧
      ∀ k : Int, k ≠ a → k ≠ a + n / 2 → k ≠ a + n - 1 → cell m1.cells k = cell m.cells k := by
  have hdiv : Int.tdiv n 2 = n / 2 := Int.tdiv_eq_ediv (by omega) (by omega)
  have e0 : a + 0 = a := by omega
  have e1 : a + (n - 1) = a + n - 1 := by omega
  obtain ⟨m1, hs1, hf1, ho1, hp1, hq1⟩ := swap_if_gt_min_max a (a + n) m (a + 0) (a + n / 2)
    x y (by rw [e0]; exact hx) hy (by omega) (by omega)
  have hz1 : cell m1.cells (a + (n - 1)) = some z := by
    rw [ho1 _ (by omega) (by omega), e1]; exact hz
  obtain ⟨m2, hs2, hf2, ho2, hp2, hq2⟩ := swap_if_gt_min_max a (a + n) m1 (a + n / 2)
    (a + (n - 1)) (max x y) z hq1 hz1 (by omega) (by omega)
  have hx2 : cell m2.cells (a + 0) = some (min x y) := by
    rw [ho2 _ (by omega) (by omega)]; exact hp1
  obtain ⟨m3, hs3, hf3, ho3, hp3, hq3⟩ := swap_if_gt_min_max a (a + n) m2 (a + 0)
    (a + n / 2) (min x y) (min (max x y) z) hx2 hp2 (by omega) (by omega)
  have hz3 : cell m3.cells (a + (n - 1)) = some (max (max x y) z) := by
    rw [ho3 _ (by omega) (by omega)]; exact hq2
  refine ⟨m3, ?_, (hf1.trans hf2).trans hf3, by rw [← e0]; exact hp3, hq3,
    by rw [← e1]; exact hz3, ?_⟩
  · unfold choose_pivot
    simp only [hdiv]
    rw [hs1, Option.some_bind, hs2, Option.some_bind, hs3]
  · intro k h1 h2 h3
    rw [ho3 k (by omega) h2, ho2 k h2 (by omega), ho1 k (by omega) h2]


/-! ## The counters of the queue -/

theorem send_eq (N : Nat) (c : Chan) (t s e : Int) (hwf : c.wf N) (h : c.m_count < N) :
    send N c t s e =
      some ⟨c.mqueue.set c.q_in ⟨t, s, e⟩, (c.q_in + 1) % N, c.q_out, c.m_count + 1⟩ := by
  obtain ⟨h1, h2, h3, h4⟩ := hwf
  have hN : 0 < N := by omega
  have hin : c.q_in < c.mqueue.length := by rw [h1, h4]; exact Nat.mod_lt _ hN
  simp [send, Nat.not_le.mpr h, hin]

theorem recv_eq (N : Nat) (c : Chan) (hwf : c.wf N) (h : 1 ≤ c.m_count) :
    ∃ msg, recv N c = some (msg, ⟨c.mqueue, c.q_in, (c.q_out + 1) % N, c.m_count - 1⟩) := by
  obtain ⟨h1, h2, h3, h4⟩ := hwf
  have hN : 0 < N := by omega
  have hout : c.q_out < c.mqueue.length := by rw [h1]; exact h3 hN
  refine ⟨c.mqueue[c.q_out], ?_⟩
  have : ¬ c.m_count < 1 := by omega
  simp [recv, this, List.getElem?_eq_getElem hout]

theorem send_counters_eq (N : Nat) (c : Chan) (hN : 0 < N) (h : c.m_count < N) :
    send_counters N c.counters =
      some (⟨c.mqueue, (c.q_in + 1) % N, c.q_out, c.m_count + 1⟩ : Chan).counters := by
  have h1 : ¬ ((c.m_count : Int) ≥ (N : Int)) := by omega
  simp only [send_counters, Chan.counters, h1, if_false]
  rw [Int.tmod_eq_emod (by omega) (by omega)]
  simp only [Nat.cast_add, Nat.cast_one, Int.natCast_mod]

theorem recv_counters_eq (N : Nat) (c : Chan) (hN : 0 < N) (h : 1 ≤ c.m_count) :
    recv_counters N c.counters =
      some (⟨c.mqueue, c.q_in, (c.q_out + 1) % N, c.m_count - 1⟩ : Chan).counters := by
  have h1 : ¬ ((c.m_count : Int) < 1) := by omega
  simp only [recv_counters, Chan.counters, h1, if_false]
  rw [Int.tmod_eq_emod (by omega) (by omega)]
  simp only [Nat.cast_add, Nat.cast_one, Int.natCast_mod]
  congr 2
  omega

theorem exec_wf (N : Nat) :
    ∀ (ops : List Op) (c c1 : Chan) (out : List Message), c.wf N →
      exec N ops c = some (c1, out) → c1.wf N := by
  intro ops
  induction ops with
  | nil =>
    intro c c1 out hwf h
    simp only [exec, Option.some.injEq, Prod.mk.injEq] at h
    rw [← h.1]
    exact hwf
  | cons op ops ih =>
    intro c c1 out hwf h
    cases op with
    | send msg =>
      simp only [exec] at h
      split at h
      · cases h
      · rename_i c2 hs
        exact ih c2 c1 out (send_some hs hwf).2.1 h
    | recv =>
      simp only [exec] at h
      split at h
      · cases h
      · rename_i msg c2 hr
        cases hx : exec N ops c2 with
        | none => simp [hx] at h
        | some r =>
          obtain ⟨r1, r2⟩ := r
          simp only [hx, Option.map_some', Option.some.injEq, Prod.mk.injEq] at h
          rw [← h.1]
          exact ih c2 r1 r2 (recv_some hr hwf).2.1 hx

theorem exec_counters_refines (N : Nat) (hN : 0 < N) :
    ∀ (ops : List Op) (c : Chan), c.wf N →
      (exec N ops c).map (fun r => r.1.counters) = exec_counters N ops c.counters := by
  intro ops
  induction ops with
  | nil => intro c _; rfl
  | cons op ops ih =>
    intro c hwf
    cases op with
    | send msg =>
      by_cases h : c.m_count < N
      · have hs := send_eq N c msg.type msg.start msg.end_ hwf h
        have hwf1 := (send_some hs hwf).2.1
        have hk := send_counters_eq N c hN h
        simp only [exec, exec_counters, hs, hk]
        exact ih _ hwf1
      · have hs := send_blocked N c msg.type msg.start msg.end_ (by omega)
        have hk : send_counters N c.counters = none := by
          have : (c.m_count : Int) ≥ (N : Int) := by omega
          simp [send_counters, Chan.counters, this]
        simp only [exec, exec_counters, hs, hk, Option.map_none']
    | recv =>
      by_cases h : 1 ≤ c.m_count
      · obtain ⟨msg, hr⟩ := recv_eq N c hwf h
        have hwf1 := (recv_some hr hwf).2.1
        have hk := recv_counters_eq N c hN h
        simp only [exec, exec_counters, hr, hk]
        rw [← ih _ hwf1]
        cases exec N ops _ <;> rfl
      · have hr := recv_blocked N c (by omega)
        have hk : recv_counters N c.counters = none := by
          have : (c.m_count : Int) < 1 := by omega
          simp [recv_counters, Chan.counters, this]
        simp only [exec, exec_counters, hr, hk, Option.map_none']

theorem send_keeps_slots (N : Nat) (c c1 : Chan) (t s e : Int) (hwf : c.wf N)
    (h : send N c t s e = some c1) (k : Nat) (hk : k < c.m_count) :
    c1.mqueue[(c.q_out + k) % N]? = c.mqueue[(c.q_out + k) % N]? ∧
      c.q_in ≠ (c.q_out + k) % N := by
  have hlt := (send_some h hwf).1
  rw [send_eq N c t s e hwf hlt] at h
  cases Option.some.inj h
  have hne : c.q_in ≠ (c.q_out + k) % N := by
    rw [hwf.2.2.2]; exact ring_index_ne hk hlt
  exact ⟨List.getElem?_set_ne hne, hne⟩


/-! ## Forwarding and shutdown -/

theorem run_append {α : Type} [LinearOrder α] (SIZE THRESHOLD : Int) (N : Nat) :
    ∀ (ls1 ls2 : List Label) (st : Sys α),
      run SIZE THRESHOLD N (ls1 ++ ls2) st =
        (run SIZE THRESHOLD N ls1 st).bind (run SIZE THRESHOLD N ls2) := by
  intro ls1
  induction ls1 with
  | nil => intro ls2 st; rfl
  | cons l ls1 ih =>
    intro ls2 st
    simp only [List.cons_append, run]
    cases step SIZE THRESHOLD N l st with
    | none => rfl
    | some st1 => exact ih ls2 st1

theorem worker_shutdown_step {α : Type} [LinearOrder α] (THRESHOLD : Int) (N : Nat)
    (st : Sys α) (hwf : st.chan.wf N) (msg : Message) (rest : List Message)
    (hc : st.chan.contents N = msg :: rest) (ht : msg.type = SHUTDOWN)
    (hrun : st.running ≠ 0) :
    ∃ st1, worker_step THRESHOLD N st = some st1 ∧ st1.mem = st.mem ∧
      st1.chan.contents N = rest ++ [⟨SHUTDOWN, 0, 0⟩] ∧ st1.running + 1 = st.running ∧
      st1.pc = st.pc ∧ st1.count = st.count := by
  have hpos : 1 ≤ st.chan.m_count := by
    rw [← contents_length N st.chan, hc]; simp
  obtain ⟨msg1, c1, hr, hwf1, hc1, hm⟩ := recv_spec N st.chan hwf hpos
  rw [hc] at hc1
  obtain ⟨hmsg, hrest⟩ := List.cons.inj hc1
  subst hmsg
  have hlt : c1.m_count < N := by have := hwf.2.1; omega
  obtain ⟨c2, hs, -, hc2, -⟩ := send_spec N c1 SHUTDOWN 0 0 hwf1 hlt
  refine ⟨⟨st.mem, c2, st.count, st.pc, st.running - 1, st.consumed⟩, ?_, rfl, ?_, ?_, rfl, rfl⟩
  · simp [worker_step, hrun, hr, ht, hs]
  · rw [hc2, hrest]
  · show st.running - 1 + 1 = st.running
    omega

theorem worker_done_step {α : Type} [LinearOrder α] (THRESHOLD : Int) (N : Nat)
    (st : Sys α) (hwf : st.chan.wf N) (msg : Message) (rest : List Message)
    (hc : st.chan.contents N = msg :: rest) (ht : msg.type = DONE)
    (hrun : st.running ≠ 0) :
    ∃ st1, worker_step THRESHOLD N st = some st1 ∧ st1.mem = st.mem ∧
      st1.chan.contents N = rest ++ [⟨DONE, msg.start, msg.end_⟩] ∧
      st1.running = st.running ∧ st1.pc = st.pc ∧ st1.count = st.count := by
  have hpos : 1 ≤ st.chan.m_count := by
    rw [← contents_length N st.chan, hc]; simp
  obtain ⟨msg1, c1, hr, hwf1, hc1, hm⟩ := recv_spec N st.chan hwf hpos
  rw [hc] at hc1
  obtain ⟨hmsg, hrest⟩ := List.cons.inj hc1
  subst hmsg
  have hlt : c1.m_count < N := by have := hwf.2.1; omega
  obtain ⟨c2, hs, -, hc2, -⟩ := send_spec N c1 DONE msg.start msg.end_ hwf1 hlt
  have hne : ¬ DONE = SHUTDOWN := by decide
  refine ⟨⟨st.mem, c2, st.count, st.pc, st.running, st.consumed⟩, ?_, rfl, ?_, rfl, rfl, rfl⟩
  · simp [worker_step, hrun, hr, hne, thread_body, ht, hs]
  · rw [hc2, hrest]

theorem main_forward_step {α : Type} (SIZE : Int) (N : Nat)
    (st : Sys α) (hwf : st.chan.wf N) (msg : Message) (rest : List Message)
    (hc : st.chan.contents N = msg :: rest) (ht : msg.type ≠ DONE)
    (hpc : st.pc = Pc.loop) :
    ∃ st1, main_step SIZE N st = some st1 ∧ st1.mem = st.mem ∧
      st1.chan.contents N = rest ++ [⟨msg.type, msg.start, msg.end_⟩] ∧
      st1.count = st.count ∧ st1.pc = st.pc ∧ st1.running = st.running ∧
      st1.consumed = st.consumed := by
  have hpos : 1 ≤ st.chan.m_count := by
    rw [← contents_length N st.chan, hc]; simp
  obtain ⟨msg1, c1, hr, hwf1, hc1, hm⟩ := recv_spec N st.chan hwf hpos
  rw [hc] at hc1
  obtain ⟨hmsg, hrest⟩ := List.cons.inj hc1
  subst hmsg
  have hlt : c1.m_count < N := by have := hwf.2.1; omega
  obtain ⟨c2, hs, -, hc2, -⟩ := send_spec N c1 msg.type msg.start msg.end_ hwf1 hlt
  refine ⟨⟨st.mem, c2, st.count, st.pc, st.running, st.consumed⟩, ?_, rfl, ?_, rfl, rfl, rfl, rfl⟩
  · simp [main_step, hpc, hr, ht, hs]
  · rw [hc2, hrest]

theorem receptions_run {α : Type} [LinearOrder α] (SIZE THRESHOLD : Int) (N : Nat) :
    ∀ (ls : List Label) (st st1 : Sys α), run SIZE THRESHOLD N ls st = some st1 →
      receptions SIZE THRESHOLD N ls st + st1.running = st.running := by
  intro ls
  induction ls with
  | nil =>
    intro st st1 h
    cases Option.some.inj h
    simp [receptions]
  | cons l ls ih =>
    intro st st1 h
    simp only [run] at h
    cases hstep : step SIZE THRESHOLD N l st with
    | none => simp [hstep] at h
    | some st2 =>
      simp only [hstep] at h
      have h2 := ih st2 st1 h
      simp only [receptions, hstep]
      cases l with
      | worker =>
        obtain ⟨hrun, msg, c1, hr, hcase⟩ := worker_step_cases hstep
        rcases hcase with ⟨ht, c2, -, rfl⟩ | ⟨ht, m2, c2, -, rfl⟩
        · have : (Label.worker = Label.worker ∧
              (recv N st.chan).map (fun r => r.1.type) = some SHUTDOWN) := by
            refine ⟨rfl, ?_⟩
            rw [hr]; simp [ht]
          rw [if_pos this]
          simp only [] at h2
          omega
        · have : ¬ (Label.worker = Label.worker ∧
              (recv N st.chan).map (fun r => r.1.type) = some SHUTDOWN) := by
            rintro ⟨-, h3⟩
            rw [hr] at h3
            simp at h3
            exact ht h3
          rw [if_neg this]
          simp only [] at h2
          omega
      | coord =>
        have : ¬ (Label.coord = Label.worker ∧
            (recv N st.chan).map (fun r => r.1.type) = some SHUTDOWN) := by
          rintro ⟨h3, -⟩
          cases h3
        rw [if_neg this]
        have hsame : st2.running = st.running := by
          rcases main_step_cases hstep with ⟨-, msg, c1, -, hcase⟩ | ⟨-, c1, -, rfl⟩
          · rcases hcase with ⟨-, rfl⟩ | ⟨-, c2, -, rfl⟩ <;> rfl
          · rfl
        omega

theorem boot_pos {α : Type} (SIZE : Int) (N THREADS : Nat) (a0 : List α) (st0 : Sys α)
    (h : boot SIZE N THREADS a0 = some st0) : 0 < N ∧ st0.running = THREADS := by
  unfold boot at h
  cases hs : send N (Chan.init N) WORK 0 SIZE with
  | none => simp [hs] at h
  | some c =>
    simp only [hs, Option.map_some', Option.some.injEq] at h
    subst h
    have := (send_some hs (wf_init N)).1
    exact ⟨by omega, rfl⟩

theorem exited_main_step {α : Type} [LinearOrder α] (SIZE : Int) (N THREADS : Nat)
    (a0 : List α) (hN : 0 < N) (st : Sys α) (hinv : Inv SIZE N a0 st)
    (hq : QInv N THREADS st) (hpc : st.pc = Pc.exited) :
    ∃ st1, main_step SIZE N st = some st1 ∧ st1.pc = Pc.joining ∧
      st1.chan.contents N = [⟨SHUTDOWN, 0, 0⟩] ∧ st1.mem = st.mem ∧
      st1.running = st.running := by
  have hnil := contents_nil_of_exited hinv hq hpc
  have hm : st.chan.m_count = 0 := by rw [← contents_length N st.chan, hnil]; rfl
  obtain ⟨c1, hs, -, hc1, -⟩ := send_spec N st.chan SHUTDOWN 0 0 hinv.wf (by omega)
  refine ⟨⟨st.mem, c1, st.count, Pc.joining, st.running, st.consumed⟩, ?_, rfl, ?_, rfl, rfl⟩
  · simp [main_step, hpc, hs]
  · rw [hc1, hnil]; rfl

theorem joining_contents {α : Type} [LinearOrder α] (SIZE THRESHOLD : Int) (N THREADS : Nat)
    (a0 : List α) (hS : 1 ≤ SIZE) (hT : 1 ≤ THRESHOLD) (hlen : (a0.length : Int) = SIZE)
    (st : Sys α) (h : Reachable SIZE THRESHOLD N THREADS a0 st) :
    st.running ≤ THREADS ∧ (st.pc = Pc.joining → st.chan.contents N = [⟨SHUTDOWN, 0, 0⟩]) := by
  induction h with
  | boot st hb =>
    have hq := qinv_boot SIZE N THREADS a0 st hb
    have hpc : st.pc = Pc.loop := by
      unfold boot at hb
      cases hs : send N (Chan.init N) WORK 0 SIZE with
      | none => simp [hs] at hb
      | some c =>
        simp only [hs, Option.map_some', Option.some.injEq] at hb
        subst hb
        rfl
    refine ⟨le_of_eq (hq.before (by rw [hpc]; decide)).2, ?_⟩
    intro hj
    rw [hpc] at hj
    cases hj
  | step l st st1 hr hstep ih =>
    obtain ⟨hinv, hq⟩ := inv_qinv_reachable SIZE THRESHOLD N THREADS a0 hS hT hlen st hr
    cases l with
    | worker =>
      obtain ⟨hrun, msg, c1, hrv, hcase⟩ := worker_step_cases hstep
      obtain ⟨-, hwf1, hcont, hm⟩ := recv_some hrv hinv.wf
      rcases hcase with ⟨ht, c2, hs, rfl⟩ | ⟨ht, m2, c2, hb, rfl⟩
      · refine ⟨by show st.running - 1 ≤ THREADS; omega, ?_⟩
        intro hj
        have hj0 : st.pc = Pc.joining := hj
        have h1 := ih.2 hj0
        rw [hcont] at h1
        obtain ⟨-, hrest⟩ := List.cons.inj h1
        have h2 := (send_some hs hwf1).2.2.1
        show c2.contents N = _
        rw [h2, hrest]
        rfl
      · refine ⟨ih.1, ?_⟩
        intro hj
        have hj0 : st.pc = Pc.joining := hj
        have h1 := ih.2 hj0
        rw [hcont] at h1
        obtain ⟨hmsg, -⟩ := List.cons.inj h1
        exfalso
        apply ht
        rw [hmsg]
    | coord =>
      rcases main_step_cases hstep with ⟨hpc, msg, c1, -, hcase⟩ | ⟨hpc, c1, hs, rfl⟩
      · rcases hcase with ⟨-, rfl⟩ | ⟨-, c2, -, rfl⟩
        · refine ⟨ih.1, ?_⟩
          intro hj
          simp only [] at hj
          split at hj <;> cases hj
        · refine ⟨ih.1, ?_⟩
          intro hj
          have hj0 : st.pc = Pc.joining := hj
          rw [hpc] at hj0
          cases hj0
      · refine ⟨ih.1, ?_⟩
        intro _
        have hnil := contents_nil_of_exited hinv hq hpc
        have h2 := (send_some hs hinv.wf).2.2.1
        show c1.contents N = _
        rw [h2, hnil]
        rfl

theorem drain {α : Type} [LinearOrder α] (SIZE THRESHOLD : Int) (N THREADS : Nat)
    (a0 : List α) (hS : 1 ≤ SIZE) (hT : 1 ≤ THRESHOLD) (hlen : (a0.length : Int) = SIZE) :
    ∀ (k : Nat) (st : Sys α), Reachable SIZE THRESHOLD N THREADS a0 st →
      st.pc = Pc.joining → st.running = k →
      ∃ st1, run SIZE THRESHOLD N (List.replicate k Label.worker) st = some st1 ∧
        st1.running = 0 ∧ st1.pc = Pc.joining ∧ st1.mem = st.mem := by
  intro k
  induction k with
  | zero =>
    intro st _ hpc hk
    exact ⟨st, rfl, hk, hpc, rfl⟩
  | succ k ih =>
    intro st hr hpc hk
    obtain ⟨hinv, -⟩ := inv_qinv_reachable SIZE THRESHOLD N THREADS a0 hS hT hlen st hr
    have hc := (joining_contents SIZE THRESHOLD N THREADS a0 hS hT hlen st hr).2 hpc
    obtain ⟨st1, hstep, hmem, -, hrun, hpc1, -⟩ :=
      worker_shutdown_step THRESHOLD N st hinv.wf ⟨SHUTDOWN, 0, 0⟩ [] hc rfl (by omega)
    have hr1 : Reachable SIZE THRESHOLD N THREADS a0 st1 :=
      Reachable.step Label.worker st st1 hr hstep
    obtain ⟨st2, hrun2, h0, hpc2, hmem2⟩ := ih st1 hr1 (by rw [hpc1, hpc]) (by omega)
    refine ⟨st2, ?_, h0, hpc2, by rw [hmem2, hmem]⟩
    simp only [List.replicate_succ, run]
    have hstep1 : step SIZE THRESHOLD N Label.worker st = some st1 := hstep
    rw [hstep1]
    exact hrun2

theorem can_shut_down {α : Type} [LinearOrder α] (SIZE THRESHOLD : Int) (N THREADS : Nat)
    (a0 : List α) (hS : 1 ≤ SIZE) (hT : 1 ≤ THRESHOLD) (hlen : (a0.length : Int) = SIZE)
    (hN : SIZE + 1 ≤ N) (hW : 1 ≤ THREADS) (st : Sys α)
    (hr : Reachable SIZE THRESHOLD N THREADS a0 st) :
    ∃ ls st1, run SIZE THRESHOLD N ls st = some st1 ∧ st1.running = 0 ∧
      st1.pc = Pc.joining := by
  obtain ⟨ls, st1, hrun, hpc, -⟩ :=
    can_complete SIZE THRESHOLD N THREADS a0 hS hT hlen hN hW st hr
  have hr1 := reachable_of_run SIZE THRESHOLD N THREADS a0 ls st st1 hr hrun
  have hjoin : ∃ ls2 st2, run SIZE THRESHOLD N ls2 st1 = some st2 ∧ st2.pc = Pc.joining := by
    cases hp : st1.pc with
    | loop => exact absurd hp hpc
    | joining => exact ⟨[], st1, rfl, hp⟩
    | exited =>
      obtain ⟨hinv, hq⟩ := inv_qinv_reachable SIZE THRESHOLD N THREADS a0 hS hT hlen st1 hr1
      obtain ⟨st2, hs, hj, -⟩ :=
        exited_main_step SIZE N THREADS a0 (by omega) st1 hinv hq hp
      refine ⟨[Label.coord], st2, ?_, hj⟩
      simp only [run, step, hs]
  obtain ⟨ls2, st2, hrun2, hj⟩ := hjoin
  have hr2 := reachable_of_run SIZE THRESHOLD N THREADS a0 ls2 st1 st2 hr1 hrun2
  obtain ⟨st3, hrun3, h0, hj3, -⟩ :=
    drain SIZE THRESHOLD N THREADS a0 hS hT hlen st2.running st2 hr2 hj rfl
  refine ⟨ls ++ (ls2 ++ List.replicate st2.running Label.worker), st3, ?_, h0, hj3⟩
  rw [run_append, hrun, Option.some_bind, run_append, hrun2, Option.some_bind]
  exact hrun3


/-! ## Sorted slices -/

theorem rel_of_slice_pairwise {α : Type} (R : α → α → Prop) (l : List α) (s e : Int)
    (hs : 0 ≤ s) (h : List.Pairwise R (slice l s e)) (u v : Int) (x y : α) (hu : s ≤ u)
    (huv : u < v) (hv : v < e) (hx : cell l u = some x) (hy : cell l v = some y) : R x y := by
  have e1 : s + (u - s) = u := by omega
  have e2 : s + (v - s) = v := by omega
  have hx1 : cell (slice l s e) (u - s) = some x := by
    rw [cell_slice l s e (u - s) hs (by omega) (by omega), e1]; exact hx
  have hy1 : cell (slice l s e) (v - s) = some y := by
    rw [cell_slice l s e (v - s) hs (by omega) (by omega), e2]; exact hy
  obtain ⟨-, hu1, hx2⟩ := cell_eq_some hx1
  obtain ⟨-, hv1, hy2⟩ := cell_eq_some hy1
  have hi : (u - s).toNat < (slice l s e).length := by omega
  have hj : (v - s).toNat < (slice l s e).length := by omega
  have := List.pairwise_iff_getElem.mp h (u - s).toNat (v - s).toNat hi hj (by omega)
  rw [List.getElem?_eq_getElem hi] at hx2
  rw [List.getElem?_eq_getElem hj] at hy2
  cases Option.some.inj hx2
  cases Option.some.inj hy2
  exact this

theorem sortedOn_of_slice_sorted {α : Type} [LinearOrder α] (l : List α) (s e : Int)
    (hs : 0 ≤ s) (h : List.Sorted (fun x y => x ≤ y) (slice l s e)) : SortedOn l s e := by
  intro u v x y hu huv hv hx hy
  by_cases heq : u = v
  · subst heq
    rw [hx] at hy
    cases Option.some.inj hy
    exact le_refl _
  · exact rel_of_slice_pairwise (fun x y => x ≤ y) l s e hs h u v x y hu (by omega) hv hx hy

theorem cell_mem_slice {α : Type} (l : List α) (s e u : Int) (x : α) (hs : 0 ≤ s)
    (hu : s ≤ u) (hv : u < e) (hx : cell l u = some x) : x ∈ slice l s e := by
  have e1 : s + (u - s) = u := by omega
  have hx1 : cell (slice l s e) (u - s) = some x := by
    rw [cell_slice l s e (u - s) hs (by omega) (by omega), e1]; exact hx
  obtain ⟨-, -, hx2⟩ := cell_eq_some hx1
  exact List.getElem?_mem hx2

theorem cells_of_slice_all {α : Type} (l : List α) (a n : Int) (v : α) (ha : 0 ≤ a)
    (hlen : a + n ≤ l.length) (h : ∀ x ∈ slice l a (a + n), x = v) :
    ∀ u : Int, 0 ≤ u → u < n → cell l (a + u) = some v := by
  intro u h0 h1
  obtain ⟨x, hx⟩ := cell_of_lt l (a + u) (by omega) (by omega)
  have := h x (cell_mem_slice l a (a + n) (a + u) x ha (by omega) (by omega) hx)
  rw [hx, this]


/-! ## The scan loop on equal keys -/

theorem scan_up_acc_stop {α : Type} [LinearOrder α] (a : Int) (p : α) (fuel : Nat)
    (m : Mem α) (i : Int) (h : cell m.cells (a + i) = some p) :
    scan_up_acc a p (fuel + 1) m i =
      some (i, ⟨m.cells, Ev.rd (a + i).toNat :: m.log⟩, [Acc.left i]) := by
  simp only [scan_up_acc, load_of_cell m h, lt_irrefl, if_false]

theorem scan_down_acc_stop {α : Type} [LinearOrder α] (a : Int) (p : α) (fuel : Nat)
    (m : Mem α) (j : Int) (h : cell m.cells (a + j) = some p) :
    scan_down_acc a p (fuel + 1) m j =
      some (j, ⟨m.cells, Ev.rd (a + j).toNat :: m.log⟩, [Acc.right j]) := by
  simp only [scan_down_acc, load_of_cell m h, gt_iff_lt, lt_irrefl, if_false]

theorem partition_loop_acc_equal {α : Type} [LinearOrder α] (a n : Int) (p : α) :
    ∀ (fuel : Nat) (m : Mem α) (i j : Int),
      (∀ u : Int, 0 ≤ u → u < n → cell m.cells (a + u) = some p) →
      1 ≤ i → i ≤ j + 1 → i + j = n - 1 → (j + 1 - i).toNat < fuel →
      ∃ m1, partition_loop_acc a p fuel m i j =
          some (n / 2, m1, lockstep n (n / 2 - i).toNat i) ∧ m1.cells = m.cells := by
  intro fuel
  induction fuel with
  | zero => intro m i j _ _ _ _ h; omega
  | succ fuel ih =>
    intro m i j hall hi hij hsum hfuel
    have hci := hall i (by omega) (by omega)
    have hcj := hall j (by omega) (by omega)
    have hs1 := scan_up_acc_stop a p m.cells.length m i hci
    have hs2 := scan_down_acc_stop a p m.cells.length
      (⟨m.cells, Ev.rd (a + i).toNat :: m.log⟩ : Mem α) j hcj
    have hj : j = n - 1 - i := by omega
    simp only [partition_loop_acc]
    rw [hs1]
    simp only []
    rw [hs2]
    simp only []
    by_cases hge : i ≥ j
    · rw [if_pos hge]
      have e : i = n / 2 := by omega
      have e0 : (n / 2 - i).toNat = 0 := by omega
      rw [e0, hj]
      simp only [lockstep, List.singleton_append]
      rw [← e]
      exact ⟨_, rfl, rfl⟩
    · rw [if_neg hge]
      obtain ⟨m3, hm3, hsw⟩ : ∃ m3 : Mem α,
          m3.cells = (m.cells.set (a + i).toNat p).set (a + j).toNat p ∧
          swap (⟨m.cells, Ev.rd (a + j).toNat :: Ev.rd (a + i).toNat :: m.log⟩ : Mem α)
            (a + i) (a + j) = some m3 :=
        ⟨_, rfl, swap_of_cell _ hci hcj⟩
      rw [set_set_same m.cells hci hcj] at hm3
      rw [hsw]
      simp only []
      obtain ⟨m4, h4, hc4⟩ := ih m3 (i + 1) (j - 1)
        (by rw [hm3]; exact hall) (by omega) (by omega) (by omega) (by omega)
      rw [h4]
      have e1 : (n / 2 - i).toNat = (n / 2 - (i + 1)).toNat + 1 := by omega
      rw [e1, hj]
      simp only [Option.map_some', lockstep, List.singleton_append, List.cons_append,
        List.nil_append]
      exact ⟨m4, rfl, by rw [hc4, hm3]⟩

theorem partition_acc_equal {α : Type} [LinearOrder α] (m : Mem α) (a n : Int) (v : α)
    (ha : 0 ≤ a) (hn : 2 ≤ n) (hlen : a + n ≤ m.cells.length)
    (hall : ∀ u : Int, 0 ≤ u → u < n → cell m.cells (a + u) = some v) :
    ∃ m1, partition_acc m a n = some (n / 2, m1, lockstep n (n / 2 - 1).toNat 1) ∧
      m1.cells = m.cells := by
  have hdiv : Int.tdiv n 2 = n / 2 := Int.tdiv_eq_ediv (by omega) (by omega)
  have hcp := choose_pivot_sorted m a n ha hn hlen (sortedOn_of_all_eq m.cells a n v hall)
  obtain ⟨m1, hcp1, hm1c⟩ : ∃ m1 : Mem α, choose_pivot m a n = some m1 ∧
      m1.cells = m.cells := ⟨_, hcp, rfl⟩
  have hp := hall (n / 2) (by omega) (by omega)
  have hl := load_of_cell m1 (p := a + n / 2) (by rw [hm1c]; exact hp)
  obtain ⟨m3, h3, hc3⟩ := partition_loop_acc_equal a n v (m1.cells.length + 1)
    (⟨m1.cells, Ev.rd (a + n / 2).toNat :: m1.log⟩ : Mem α) 1 (n - 2)
    (by simp only []; rw [hm1c]; exact hall)
    (le_refl _) (by omega) (by omega) (by rw [hm1c]; omega)
  simp only [] at hc3
  refine ⟨m3, ?_, by rw [hc3, hm1c]⟩
  simp only [partition_acc, hcp1, hdiv, hl]
  exact h3


/-! ## Pivot selection, sorted input and equal keys -/

/-- C11. Pivot selection.  For every array of `n ≥ 3` cells, the three
conditional swaps at the start of `partition` (on `first = 0`, `middle = n/2`,
`last = n-1`) go through and leave `a[first] ≤ a[middle] ≤ a[last]`; the three
cells hold a permutation of the three values `x`, `y`, `z` they held; every
other cell, inside or outside the range, keeps its content; and the value
`a[middle]`, which `partition` then reads as its pivot `p`, is the median of
`x`, `y`, `z`. -/
theorem pivot_selection {α : Type} [LinearOrder α] (m : Mem α) (a n : Int) (ha : 0 ≤ a)
    (hn : 3 ≤ n) (hlen : a + n ≤ m.cells.length) :
    ∃ (m1 : Mem α) (x y z x1 p z1 : α),
      cell m.cells a = some x ∧ cell m.cells (a + n / 2) = some y ∧
      cell m.cells (a + n - 1) = some z ∧
      choose_pivot m a n = some m1 ∧
      cell m1.cells a = some x1 ∧ cell m1.cells (a + n / 2) = some p ∧
      cell m1.cells (a + n - 1) = some z1 ∧
      x1 ≤ p ∧ p ≤ z1 ∧ [x1, p, z1].Perm [x, y, z] ∧
      (∀ k : Int, k ≠ a → k ≠ a + n / 2 → k ≠ a + n - 1 →
        cell m1.cells k = cell m.cells k) ∧
      m1.cells.length = m.cells.length ∧
      p = median3 x y z ∧
      (load m1 (a + Int.tdiv n 2)).map (fun r => r.1) = some p := by
  have hdiv : Int.tdiv n 2 = n / 2 := Int.tdiv_eq_ediv (by omega) (by omega)
  obtain ⟨x, hx⟩ := cell_of_lt m.cells a ha (by omega)
  obtain ⟨y, hy⟩ := cell_of_lt m.cells (a + n / 2) (by omega) (by omega)
  obtain ⟨z, hz⟩ := cell_of_lt m.cells (a + n - 1) (by omega) (by omega)
  obtain ⟨m1, hcp, hf, h1, h2, h3, ho⟩ := choose_pivot_full m a n hn x y z hx hy hz
  refine ⟨m1, x, y, z, _, _, _, hx, hy, hz, hcp, h1, h2, h3, min3_le_median3 x y z,
    median3_le_max x y z, perm_sorted_triple x y z, ho, hf.length_eq, rfl, ?_⟩
  rw [hdiv, load_of_cell m1 h2]
  rfl

/-- Witness of C11: on `[9, 1, 5, 0, 2]` the cells 0, 2 and 4 hold `9`, `5` and
`2`; the pivot selection leaves `[2, 1, 5, 0, 9]`. -/
theorem pivot_selection_witness :
    (choose_pivot demo_pivot 0 5).map (fun r => r.cells) = some [2, 1, 5, 0, 9] ∧
    ∃ (m1 : Mem Int) (x y z x1 p z1 : Int),
      cell demo_pivot.cells 0 = some x ∧ cell demo_pivot.cells (0 + 5 / 2) = some y ∧
      cell demo_pivot.cells (0 + 5 - 1) = some z ∧
      choose_pivot demo_pivot 0 5 = some m1 ∧
      cell m1.cells 0 = some x1 ∧ cell m1.cells (0 + 5 / 2) = some p ∧
      cell m1.cells (0 + 5 - 1) = some z1 ∧
      x1 ≤ p ∧ p ≤ z1 ∧ [x1, p, z1].Perm [x, y, z] ∧
      (∀ k : Int, k ≠ 0 → k ≠ 0 + 5 / 2 → k ≠ 0 + 5 - 1 →
        cell m1.cells k = cell demo_pivot.cells k) ∧
      m1.cells.length = demo_pivot.cells.length ∧
      p = median3 x y z ∧
      (load m1 (0 + Int.tdiv 5 2)).map (fun r => r.1) = some p :=
  ⟨by decide, pivot_selection demo_pivot 0 5 (by decide) (by decide) (by decide)⟩

/-- C12. Idempotence of insertion sort.  On `n ≥ 0` cells that are already in
non-decreasing order `ins_sort` returns and leaves every cell of the array as
it was; so on any `n` cells of an array a second run of `ins_sort` returns and
leaves the array that the first run left. -/
theorem ins_sort_idempotent {α : Type} [LinearOrder α] (m : Mem α) (a n : Int) (ha : 0 ≤ a)
    (hn : 0 ≤ n) (hlen : a + n ≤ m.cells.length) :
    (List.Sorted (fun x y => x ≤ y) (slice m.cells a (a + n)) →
      ∃ m1, ins_sort m a n = some m1 ∧ m1.cells = m.cells) ∧
    ∃ m1 m2, ins_sort m a n = some m1 ∧ ins_sort m1 a n = some m2 ∧ m2.cells = m1.cells := by
  constructor
  · intro hs
    exact ins_sort_sorted m a n ha hn hlen (sortedOn_of_slice_sorted m.cells a (a + n) ha hs)
  · obtain ⟨m1, h1, hf, hs⟩ := ins_sort_spec m a n ha hn hlen
    obtain ⟨m2, h2, hc⟩ := ins_sort_sorted m1 a n ha hn (by rw [hf.length_eq]; exact hlen) hs
    exact ⟨m1, m2, h1, h2, hc⟩

/-- Witness of C12: `[1, 2, 2, 5]` is left as it is, and `[5, 3, 8, 1, 9, 2]`
is `[1, 2, 3, 5, 8, 9]` after one run and after two. -/
theorem ins_sort_idempotent_witness :
    (∃ m1, ins_sort (⟨[1, 2, 2, 5], []⟩ : Mem Int) 0 4 = some m1 ∧
      m1.cells = [1, 2, 2, 5]) ∧
    (∃ m1 m2, ins_sort (⟨demo_array, []⟩ : Mem Int) 0 6 = some m1 ∧
      ins_sort m1 0 6 = some m2 ∧ m2.cells = m1.cells) ∧
    (ins_sort (⟨demo_array, []⟩ : Mem Int) 0 6).map (fun r => r.cells) =
      some [1, 2, 3, 5, 8, 9] :=
  ⟨(ins_sort_idempotent (⟨[1, 2, 2, 5], []⟩ : Mem Int) 0 4 (by decide) (by decide)
      (by decide)).1 (by decide),
    (ins_sort_idempotent (⟨demo_array, []⟩ : Mem Int) 0 6 (by decide) (by decide)
      (by decide)).2,
    by decide⟩

/-- C14. All-equal input.  For every array of `n ≥ 3` cells that all hold the
same value, `partition` terminates and returns `k` with `1 ≤ k ≤ n - 1`: the
ranges `[0, k)` and `[k, n)` are both non-empty; the array is left as it
was. -/
theorem partition_all_equal {α : Type} [LinearOrder α] (m : Mem α) (a n : Int) (v : α)
    (ha : 0 ≤ a) (hn : 3 ≤ n) (hlen : a + n ≤ m.cells.length)
    (hall : ∀ x ∈ slice m.cells a (a + n), x = v) :
    ∃ k m1, partition m a n = some (k, m1) ∧ 1 ≤ k ∧ k ≤ n - 1 ∧ 0 < k - 0 ∧ 0 < n - k ∧
      m1.cells = m.cells := by
  obtain ⟨m1, h1, hc⟩ := partition_equal m a n v ha (by omega) hlen
    (cells_of_slice_all m.cells a n v ha hlen hall)
  exact ⟨n / 2, m1, h1, by omega, by omega, by omega, by omega, hc⟩

/-- Witness of C14: five cells that hold `7`. -/
theorem partition_all_equal_witness :
    ∃ k m1, partition demo_flat 0 5 = some (k, m1) ∧ 1 ≤ k ∧ k ≤ 5 - 1 ∧ 0 < k - 0 ∧
      0 < 5 - k ∧ m1.cells = demo_flat.cells :=
  partition_all_equal demo_flat 0 5 7 (by decide) (by decide) (by decide) (by decide)


/-! ## Shutdown and the bounds of the queue -/

/-- C15. Shutdown propagation.  In every state `st` that a run `ls` of
message-handling steps reaches from the start of the program:
a worker that receives `SHUTDOWN` leaves the array and its access log as they
are, enqueues exactly one message, `SHUTDOWN(0, 0)`, and leaves the pool of
running workers (so it receives nothing more);
when the main thread has left its loop the queue is empty, and its
`send(SHUTDOWN, 0, 0)` goes through and leaves exactly that message;
before that send the queue holds no `SHUTDOWN`, no worker has received one and
all `THREADS` workers run; after it the queue holds exactly one message,
`SHUTDOWN(0, 0)`, and the main thread sends nothing more;
the number of receptions of `SHUTDOWN` by workers plus the number of running
workers is `THREADS`, so that once all workers have exited each has received
`SHUTDOWN` exactly once, the queue holds exactly one `SHUTDOWN` and no thread
can take a step that would consume it;
and the workers do exit: after the main thread's send, `running` more worker
steps go through and leave no running worker, and with a queue of more than
`SIZE` slots and at least one worker every reachable state has such a
continuation. -/
theorem shutdown_propagation {α : Type} [LinearOrder α] (SIZE THRESHOLD : Int)
    (N THREADS : Nat) (a0 : List α) (hS : 1 ≤ SIZE) (hT : 1 ≤ THRESHOLD)
    (hlen : (a0.length : Int) = SIZE) (ls : List Label) (st0 st : Sys α)
    (hb : boot SIZE N THREADS a0 = some st0)
    (hrun : run SIZE THRESHOLD N ls st0 = some st) :
    (∀ (msg : Message) (rest : List Message), st.chan.contents N = msg :: rest →
      msg.type = SHUTDOWN → st.running ≠ 0 →
      ∃ st1, worker_step THRESHOLD N st = some st1 ∧ st1.mem = st.mem ∧
        st1.chan.contents N = rest ++ [⟨SHUTDOWN, 0, 0⟩] ∧
        st1.running + 1 = st.running) ∧
    (st.pc = Pc.exited → st.chan.contents N = [] ∧
      ∃ st1, main_step SIZE N st = some st1 ∧ st1.pc = Pc.joining ∧
        st1.chan.contents N = [⟨SHUTDOWN, 0, 0⟩]) ∧
    (st.pc ≠ Pc.joining → (∀ msg ∈ st.chan.contents N, msg.type ≠ SHUTDOWN) ∧
      receptions SIZE THRESHOLD N ls st0 = 0 ∧ st.running = THREADS) ∧
    (st.pc = Pc.joining → st.chan.contents N = [⟨SHUTDOWN, 0, 0⟩] ∧
      main_step SIZE N st = none) ∧
    receptions SIZE THRESHOLD N ls st0 + st.running = THREADS ∧
    (1 ≤ THREADS → st.running = 0 →
      receptions SIZE THRESHOLD N ls st0 = THREADS ∧
      st.chan.contents N = [⟨SHUTDOWN, 0, 0⟩] ∧
      ∀ l : Label, step SIZE THRESHOLD N l st = none) ∧
    (st.pc = Pc.joining →
      ∃ st1, run SIZE THRESHOLD N (List.replicate st.running Label.worker) st = some st1 ∧
        st1.running = 0 ∧ st1.mem = st.mem) ∧
    (SIZE + 1 ≤ N → 1 ≤ THREADS →
      ∃ ls1 st1, run SIZE THRESHOLD N ls1 st = some st1 ∧ st1.running = 0) := by
  have hr : Reachable SIZE THRESHOLD N THREADS a0 st :=
    reachable_of_run SIZE THRESHOLD N THREADS a0 ls st0 st (Reachable.boot st0 hb) hrun
  obtain ⟨hinv, hq⟩ := inv_qinv_reachable SIZE THRESHOLD N THREADS a0 hS hT hlen st hr
  obtain ⟨-, hjc⟩ := joining_contents SIZE THRESHOLD N THREADS a0 hS hT hlen st hr
  obtain ⟨hN, h0⟩ := boot_pos SIZE N THREADS a0 st0 hb
  have hrec := receptions_run SIZE THRESHOLD N ls st0 st hrun
  rw [h0] at hrec
  have hmain : st.pc = Pc.joining → main_step SIZE N st = none := by
    intro hj
    simp [main_step, hj]
  refine ⟨?_, ?_, ?_, fun hj => ⟨hjc hj, hmain hj⟩, hrec, ?_, ?_, ?_⟩
  · intro msg rest hc ht hne
    obtain ⟨st1, h1, h2, h3, h4, -⟩ :=
      worker_shutdown_step THRESHOLD N st hinv.wf msg rest hc ht hne
    exact ⟨st1, h1, h2, h3, h4⟩
  · intro hpc
    obtain ⟨st1, h1, h2, h3, -⟩ := exited_main_step SIZE N THREADS a0 hN st hinv hq hpc
    exact ⟨contents_nil_of_exited hinv hq hpc, st1, h1, h2, h3⟩
  · intro hpc
    obtain ⟨ho, hrn⟩ := hq.before hpc
    refine ⟨?_, by omega, hrn⟩
    intro msg hmem hty
    have hin : msg ∈ others (st.chan.contents N) := by
      unfold others
      rw [List.mem_filter]
      refine ⟨hmem, ?_⟩
      rw [hty]
      decide
    rw [ho] at hin
    cases hin
  · intro hW hz
    have hj : st.pc = Pc.joining := by
      by_contra hne
      have := (hq.before hne).2
      omega
    refine ⟨by omega, hjc hj, ?_⟩
    intro l
    cases l with
    | worker => simp [step, worker_step, hz]
    | coord => exact hmain hj
  · intro hj
    obtain ⟨st1, h1, h2, -, h4⟩ :=
      drain SIZE THRESHOLD N THREADS a0 hS hT hlen st.running st hr hj rfl
    exact ⟨st1, h1, h2, h4⟩
  · intro hNS hW
    obtain ⟨ls1, st1, h1, h2, -⟩ :=
      can_shut_down SIZE THRESHOLD N THREADS a0 hS hT hlen hNS hW st hr
    exact ⟨ls1, st1, h1, h2⟩

/-- Witness of C15: the run of the example to its end; each of the two workers
has received `SHUTDOWN`, and one `SHUTDOWN` is left in the queue. -/
theorem shutdown_propagation_witness :
    receptions 6 3 4 demo_shutdown_labels demo_boot = 2 ∧
    demo_end.chan.contents 4 = [⟨SHUTDOWN, 0, 0⟩] ∧
    (∀ l : Label, step 6 3 4 l demo_end = none) ∧
    receptions 6 3 4 demo_shutdown_labels demo_boot + demo_end.running = 2 :=
  have h := shutdown_propagation 6 3 4 2 demo_array (by decide) (by decide) (by decide)
    demo_shutdown_labels demo_boot demo_end (by decide) (by decide)
  ⟨(h.2.2.2.2.2.1 (by decide) (by decide)).1, (h.2.2.2.2.2.1 (by decide) (by decide)).2.1,
    (h.2.2.2.2.2.1 (by decide) (by decide)).2.2, h.2.2.2.2.1⟩

/-- C16. Channel bound invariant.  With a queue of `N ≥ 1` slots, in every
state `k` of the counters that `send` (which goes ahead only when
`m_count < N`) and `recv` (only when `m_count ≥ 1`) reach from
`q_in = q_out = m_count = 0`, computed on C integers with the remainder of C:
`0 ≤ m_count ≤ N`, `0 ≤ q_in < N`, `0 ≤ q_out < N` and
`q_in == (q_out + m_count) % N`; the counters are those of the ring buffer
after the same operations, whose pending messages are `m_count ≤ N` in
number; and a `send` on it goes ahead only with `m_count < N`, appends its
message to the pending ones and writes to a slot `q_in` that is none of the
occupied slots `(q_out + j) % N`, `j < m_count`, which all keep their
content. -/
theorem channel_bounds (N : Nat) (hN : 0 < N) (ops : List Op) (k : Counters)
    (h : exec_counters N ops ⟨0, 0, 0⟩ = some k) :
    (0 ≤ k.m_count ∧ k.m_count ≤ N) ∧ (0 ≤ k.q_in ∧ k.q_in < N) ∧
    (0 ≤ k.q_out ∧ k.q_out < N) ∧
    k.q_in = (k.q_out + k.m_count) % N ∧ k.q_in = Int.tmod (k.q_out + k.m_count) N ∧
    ∃ (c : Chan) (out : List Message), exec N ops (Chan.init N) = some (c, out) ∧
      c.counters = k ∧ (c.contents N).length = c.m_count ∧ (c.contents N).length ≤ N ∧
      ∀ (t s e : Int) (c1 : Chan), send N c t s e = some c1 →
        c.m_count < N ∧ c1.contents N = c.contents N ++ [⟨t, s, e⟩] ∧
        ∀ j : Nat, j < c.m_count →
          c1.mqueue[(c.q_out + j) % N]? = c.mqueue[(c.q_out + j) % N]? ∧
            c.q_in ≠ (c.q_out + j) % N := by
  have href := exec_counters_refines N hN ops (Chan.init N) (wf_init N)
  have hinit : (Chan.init N).counters = ⟨0, 0, 0⟩ := by
    simp [Chan.counters, Chan.init]
  rw [hinit, h] at href
  cases hex : exec N ops (Chan.init N) with
  | none => simp [hex] at href
  | some r =>
    obtain ⟨c, out⟩ := r
    simp only [hex, Option.map_some', Option.some.injEq] at href
    have hwf := exec_wf N ops (Chan.init N) c out (wf_init N) hex
    obtain ⟨h1, h2, h3, h4⟩ := hwf
    have h3 := h3 hN
    have hin : c.q_in < N := by rw [h4]; exact Nat.mod_lt _ hN
    subst href
    simp only [Chan.counters]
    refine ⟨⟨by omega, by omega⟩, ⟨by omega, by omega⟩, ⟨by omega, by omega⟩, ?_, ?_,
      c, out, rfl, rfl, contents_length N c, by rw [contents_length]; exact h2, ?_⟩
    · rw [h4]; simp only [Int.natCast_mod, Nat.cast_add]
    · rw [Int.tmod_eq_emod (by omega) (by omega), h4]
      simp only [Int.natCast_mod, Nat.cast_add]
    · intro t s e c1 hs
      obtain ⟨hlt, -, hc, -⟩ := send_some hs ⟨h1, h2, fun _ => h3, h4⟩
      exact ⟨hlt, hc, fun j hj => send_keeps_slots N c c1 t s e ⟨h1, h2, fun _ => h3, h4⟩ hs j hj⟩

/-- Witness of C16: two sends, a receive and a send on a queue of two slots
leave `q_in = 1`, `q_out = 1`, `m_count = 2`. -/
theorem channel_bounds_witness :
    exec_counters 2 demo_ops ⟨0, 0, 0⟩ = some ⟨1, 1, 2⟩ ∧
    ((0 : Int) ≤ 2 ∧ (2 : Int) ≤ (2 : Nat)) ∧ ((0 : Int) ≤ 1 ∧ (1 : Int) < (2 : Nat)) ∧
    ((0 : Int) ≤ 1 ∧ (1 : Int) < (2 : Nat)) ∧ (1 : Int) = (1 + 2) % (2 : Nat) :=
  have h := channel_bounds 2 (by decide) demo_ops ⟨1, 1, 2⟩ (by decide)
  ⟨by decide, h.1, h.2.1, h.2.2.1, h.2.2.2.1⟩


/-! ## Bounds of the scan, forwarding, and the split on equal keys -/

/-- C17. Partition is total and in bounds.  For every array of `n ≥ 3` cells,
`partition` returns (its scan loop terminates); at every read of the left
scan the pointer satisfies `1 ≤ i ≤ n - 1`, at every read of the right scan
`0 ≤ j ≤ n - 2`, and at every swap both hold; every access that `partition`
makes, pivot selection included, is to a cell of `[0, n)`, and the cells
outside keep their content. -/
theorem partition_in_bounds {α : Type} [LinearOrder α] (m : Mem α) (a n : Int) (ha : 0 ≤ a)
    (hn : 3 ≤ n) (hlen : a + n ≤ m.cells.length) :
    ∃ (k : Int) (m1 : Mem α) (t : List Acc),
      partition_acc m a n = some (k, m1, t) ∧ partition m a n = some (k, m1) ∧
      (∀ acc ∈ t, Acc.in_bounds n acc) ∧
      (∃ evs, m1.log = evs ++ m.log ∧ Within a (a + n) evs) ∧
      (∀ c : Int, c < a ∨ a + n ≤ c → cell m1.cells c = cell m.cells c) ∧
      1 ≤ k ∧ k ≤ n - 1 := by
  obtain ⟨k, m1, t, h1, hb⟩ := partition_acc_spec m a n ha (by omega) hlen
  obtain ⟨k2, m2, h2, hf, hk1, hk2, -⟩ := partition_spec m a n ha (by omega) hlen
  have h3 : partition m a n = some (k, m1) := by
    rw [← partition_acc_eq, h1]
    rfl
  rw [h3] at h2
  cases Option.some.inj h2
  exact ⟨k, m1, t, h1, h3, hb, hf.log, hf.outside, hk1, hk2⟩

/-- Witness of C17: the five cells `[9, 1, 5, 0, 2]`. -/
theorem partition_in_bounds_witness :
    ∃ (k : Int) (m1 : Mem Int) (t : List Acc),
      partition_acc demo_pivot 0 5 = some (k, m1, t) ∧ partition demo_pivot 0 5 = some (k, m1) ∧
      (∀ acc ∈ t, Acc.in_bounds 5 acc) ∧
      (∃ evs, m1.log = evs ++ demo_pivot.log ∧ Within 0 (0 + 5) evs) ∧
      (∀ c : Int, c < 0 ∨ 0 + 5 ≤ c → cell m1.cells c = cell demo_pivot.cells c) ∧
      1 ≤ k ∧ k ≤ 5 - 1 :=
  partition_in_bounds demo_pivot 0 5 (by decide) (by decide) (by decide)

/-- C18. Defensive forwarding.  With the queue in a state its operations keep
and `msg` its oldest message: if `msg` is `DONE(s, e)`, the step of a worker
that receives it goes through, leaves the array and its access log as they
are, and enqueues exactly `DONE(s, e)` behind the other pending messages; if
the type of `msg` is not `DONE`, the step of the main thread in its loop that
receives it goes through, enqueues exactly the same `(type, start, end)`
behind the other pending messages, and leaves `count`, the array and the
loop as they are. -/
theorem defensive_forwarding {α : Type} [LinearOrder α] (SIZE THRESHOLD : Int) (N : Nat)
    (st : Sys α) (hwf : st.chan.wf N) (msg : Message) (rest : List Message)
    (hc : st.chan.contents N = msg :: rest) :
    (msg.type = DONE → st.running ≠ 0 →
      ∃ st1, worker_step THRESHOLD N st = some st1 ∧ st1.mem = st.mem ∧
        st1.chan.contents N = rest ++ [⟨DONE, msg.start, msg.end_⟩] ∧
        st1.count = st.count ∧ st1.running = st.running) ∧
    (msg.type ≠ DONE → st.pc = Pc.loop →
      ∃ st1, main_step SIZE N st = some st1 ∧ st1.mem = st.mem ∧
        st1.chan.contents N = rest ++ [⟨msg.type, msg.start, msg.end_⟩] ∧
        st1.count = st.count ∧ st1.pc = Pc.loop ∧ st1.consumed = st.consumed) := by
  constructor
  · intro ht hrun
    obtain ⟨st1, h1, h2, h3, h4, -, h6⟩ :=
      worker_done_step THRESHOLD N st hwf msg rest hc ht hrun
    exact ⟨st1, h1, h2, h3, h6, h4⟩
  · intro ht hpc
    obtain ⟨st1, h1, h2, h3, h4, h5, -, h7⟩ :=
      main_forward_step SIZE N st hwf msg rest hc ht hpc
    exact ⟨st1, h1, h2, h3, h4, by rw [h5, hpc], h7⟩

/-- Witness of C18: in the example a worker forwards the `DONE(0, 2)` at the
head of the queue of `demo_mid`, and the main thread forwards the
`WORK(0, 6)` at the head of the queue of `demo_boot`. -/
theorem defensive_forwarding_witness :
    (∃ st1, worker_step 3 4 demo_mid = some st1 ∧ st1.mem = demo_mid.mem ∧
      st1.chan.contents 4 = [⟨WORK, 2, 4⟩, ⟨WORK, 4, 6⟩] ++ [⟨DONE, 0, 2⟩] ∧
      st1.count = demo_mid.count ∧ st1.running = demo_mid.running) ∧
    (∃ st1, main_step 6 4 demo_boot = some st1 ∧ st1.mem = demo_boot.mem ∧
      st1.chan.contents 4 = [] ++ [⟨WORK, 0, 6⟩] ∧
      st1.count = demo_boot.count ∧ st1.pc = Pc.loop ∧ st1.consumed = demo_boot.consumed) :=
  ⟨(defensive_forwarding 6 3 4 demo_mid ⟨by decide, by decide, fun _ => by decide, by decide⟩
      ⟨DONE, 0, 2⟩ [⟨WORK, 2, 4⟩, ⟨WORK, 4, 6⟩] (by decide)).1 (by decide) (by decide),
    (defensive_forwarding 6 3 4 demo_boot ⟨by decide, by decide, fun _ => by decide, by decide⟩
      ⟨WORK, 0, 6⟩ [] (by decide)).2 (by decide) (by decide)⟩

/-- C19. Balanced split on equal keys.  For every array of `n ≥ 2` cells that
all hold the same value, `partition` returns exactly `n / 2` (the integer
division of C) and leaves the array as it was; the accesses of its scan loop
are those of two pointers in lockstep: each round reads `a[i]` and
`a[n-1-i]`, both equal to the pivot, so each scan stops at once, and swaps
the two, from `i = 1` until the pointers meet at `i = n / 2`. -/
theorem balanced_split {α : Type} [LinearOrder α] (m : Mem α) (a n : Int) (v : α)
    (ha : 0 ≤ a) (hn : 2 ≤ n) (hlen : a + n ≤ m.cells.length)
    (hall : ∀ x ∈ slice m.cells a (a + n), x = v) :
    ∃ m1, partition m a n = some (Int.tdiv n 2, m1) ∧ Int.tdiv n 2 = n / 2 ∧
      m1.cells = m.cells ∧
      partition_acc m a n = some (n / 2, m1, lockstep n (n / 2 - 1).toNat 1) := by
  have hdiv : Int.tdiv n 2 = n / 2 := Int.tdiv_eq_ediv (by omega) (by omega)
  obtain ⟨m1, h1, hc⟩ := partition_acc_equal m a n v ha hn hlen
    (cells_of_slice_all m.cells a n v ha hlen hall)
  refine ⟨m1, ?_, hdiv, hc, h1⟩
  rw [← partition_acc_eq, h1, hdiv]
  rfl

/-- Witness of C19: five cells that hold `7`; `partition` returns `2`. -/
theorem balanced_split_witness :
    (partition demo_flat 0 5).map (fun r => r.1) = some 2 ∧
    (partition_acc demo_flat 0 5).map (fun r => r.2.2) =
      some [Acc.left 1, Acc.right 3, Acc.swap 1 3, Acc.left 2, Acc.right 2] ∧
    ∃ m1, partition demo_flat 0 5 = some (Int.tdiv 5 2, m1) ∧ Int.tdiv 5 2 = 5 / 2 ∧
      m1.cells = demo_flat.cells ∧
      partition_acc demo_flat 0 5 = some (5 / 2, m1, lockstep 5 ((5 : Int) / 2 - 1).toNat 1) :=
  ⟨by decide, by decide,
    balanced_split demo_flat 0 5 7 (by decide) (by decide) (by decide) (by decide)⟩

end Quicksort
